import Mathlib

/-! # tarm: dependency graph and affected-module resolution

A shallow embedding of the Go packages `internal/graph`, `internal/resolver` and
`internal/analyzer` of `kzmshx/tarm`, with the properties of its specification
stated and proved over the embedding.

Conventions of the embedding:

* a Go `string` is a list of characters (`GoString`): the strings of the program
  are valid UTF-8. Where a string is inspected byte-wise it is inspected for the
  ASCII characters `/`, `.`, `*`, `[`, ..., so stepping over characters and
  stepping over bytes agree, with one exception: the loop of `filepath.Match`
  after a star skips single bytes of the name and can leave it inside a
  multi-byte character, so inside `Match` the rest of the name is a `NameRest`,
  which counts the continuation bytes in front of the whole characters;
* a Go `map[string][]string` is an association list (`StrMap`) read with
  `StrMap.get` (the zero value `nil` for an absent key) and written with
  `StrMap.set`;
* the standard-library functions of `path/filepath` and `strings` that the
  program calls are embedded from the Go sources for Unix (`Separator = '/'`,
  no volume names);
* recursive closures with mutable captured variables become state-passing
  functions; a recursion whose depth is not structurally bounded takes a fuel
  argument, and the theorems show that the fuel supplied is enough.
-/

namespace Tarm

/-- A Go string, as the list of its characters. -/
abbrev GoString := List Char

/-- The Unix path separator, `filepath.Separator`. -/
abbrev Separator : Char := '/'

/-! ## package strings -/

namespace strings

/-- Go `strings.HasPrefix(s, prefix)`. -/
def HasPrefix (s pre : GoString) : Bool := pre.isPrefixOf s

/-- Go `strings.HasSuffix(s, suffix)`. -/
def HasSuffix (s suf : GoString) : Bool := suf.isSuffixOf s

/-- Go `strings.Count(s, string(c))` for a one-character substring. -/
def Count (s : GoString) (c : Char) : Nat := s.count c

/-- Go `strings.Contains(s, string(c))` for a one-character substring. -/
def Contains (s : GoString) (c : Char) : Bool := s.contains c

end strings

/-! ## package path/filepath (Unix) -/

namespace filepath

/-- The elements of a path: the maximal runs of non-separator characters, so
that a path with `n` separators has `n + 1` elements (some possibly empty). -/
def splitSep : GoString → List GoString
  | [] => [[]]
  | c :: cs =>
    if c = Separator then [] :: splitSep cs
    else match splitSep cs with
      | [] => [[c]]
      | seg :: segs => (c :: seg) :: segs

/-- The output buffer of `Clean`: the elements written so far, last one first,
and `dotdot`, the number of leading elements that a `..` must not remove. -/
structure CleanBuf where
  out : List GoString
  dotdot : Nat
deriving DecidableEq, Repr

/-- One iteration of the loop of `Clean`, on the element starting at `r`. -/
def cleanStep (rooted : Bool) (b : CleanBuf) (elem : GoString) : CleanBuf :=
  if elem = [] then b                       -- empty path element
  else if elem = ['.'] then b               -- . element
  else if elem = ['.', '.'] then            -- .. element
    if b.out.length > b.dotdot then
      { b with out := b.out.tail }          -- can backtrack
    else if !rooted then
      { out := ['.', '.'] :: b.out, dotdot := b.out.length + 1 }
    else b
  else { b with out := elem :: b.out }      -- real path element

/-- Go `filepath.Clean(path)`. -/
def Clean (path : GoString) : GoString :=
  if path = [] then ['.']
  else
    let rooted : Bool := path.head? = some Separator
    let b := (splitSep path).foldl (cleanStep rooted) { out := [], dotdot := 0 }
    let body := [Separator].intercalate b.out.reverse
    if rooted then Separator :: body
    else if body = [] then ['.'] else body

/-- The part `path[:i+1]` of a path up to and including its last separator. -/
def dirPart (path : GoString) : GoString :=
  (path.reverse.dropWhile (fun c => c != Separator)).reverse

/-- Go `filepath.Dir(path)`. -/
def Dir (path : GoString) : GoString := Clean (dirPart path)

/-- Go `filepath.IsAbs(path)`. -/
def IsAbs (path : GoString) : Bool := strings.HasPrefix path [Separator]

/-- Go `filepath.Join(elem...)`: the elements from the first non-empty one on,
joined with separators and cleaned; the empty string if all are empty. -/
def Join (elem : List GoString) : GoString :=
  match elem.dropWhile (fun e => e.isEmpty) with
  | [] => []
  | rest => Clean ([Separator].intercalate rest)

end filepath

/-! ## package internal/graph -/

/-- A Go `map[string][]string`. -/
abbrev StrMap := List (GoString × List GoString)

/-- The read `m[k]`: the slice stored under `k`, `nil` if there is none. -/
def StrMap.get : StrMap → GoString → List GoString
  | [], _ => []
  | (k', v) :: rest, k => if k' = k then v else StrMap.get rest k

/-- The write `m[k] = v`. -/
def StrMap.set : StrMap → GoString → List GoString → StrMap
  | [], k, v => [(k, v)]
  | (k', v') :: rest, k, v =>
    if k' = k then (k, v) :: rest else (k', v') :: StrMap.set rest k v

/-- The keys of a map. -/
def StrMap.keys (m : StrMap) : List GoString := m.map Prod.fst

/-- Whether `k` is a key of the map (`_, exists := m[k]`). -/
def StrMap.hasKey (m : StrMap) (k : GoString) : Bool := m.any (fun e => e.1 == k)

/-- The type `DependencyGraph`. -/
structure DependencyGraph where
  /-- Forward dependencies: module -> modules it depends on. -/
  Dependencies : StrMap
  /-- Reverse dependencies: module -> modules that depend on it. -/
  Dependents : StrMap
deriving DecidableEq, Repr

/-- The function `NewDependencyGraph`. -/
def NewDependencyGraph : DependencyGraph := { Dependencies := [], Dependents := [] }

/-- The helper `contains(slice, item)`. -/
def contains : List GoString → GoString → Bool
  | [], _ => false
  | s :: rest, item => if s = item then true else contains rest item

/-- The method `AddDependency(from, to)`. -/
def AddDependency (g : DependencyGraph) (from' to' : GoString) : DependencyGraph :=
  let from' := filepath.Clean from'
  let to' := filepath.Clean to'
  let deps :=
    if !contains (g.Dependencies.get from') to' then
      g.Dependencies.set from' (g.Dependencies.get from' ++ [to'])
    else g.Dependencies
  let dpts :=
    if !contains (g.Dependents.get to') from' then
      g.Dependents.set to' (g.Dependents.get to' ++ [from'])
    else g.Dependents
  { Dependencies := deps, Dependents := dpts }

/-- The graph after a sequence of `AddDependency(from, to)` calls on a new graph. -/
def buildGraph (calls : List (GoString × GoString)) : DependencyGraph :=
  calls.foldl (fun g c => AddDependency g c.1 c.2) NewDependencyGraph

/-- The variables captured by the closure `dfs` of `GetAffectedModules`. -/
structure DfsState where
  /-- The keys of `visited` that are set to `true`. -/
  visited : List GoString
  result : List GoString
deriving DecidableEq, Repr

/-- The loop `for _, x := range xs { f(x) }` over a state-passing body that may
run out of fuel. -/
def forEach {σ : Type} (f : GoString → σ → Option σ) : List GoString → σ → Option σ
  | [], s => some s
  | x :: xs, s =>
    match f x s with
    | none => none
    | some s' => forEach f xs s'

/-- The closure `dfs` of `GetAffectedModules`; the fuel bounds the depth of the
recursion, `none` means it was exhausted. -/
def affectedDfs (g : DependencyGraph) : Nat → GoString → DfsState → Option DfsState
  | 0, _, _ => none
  | fuel + 1, current, st =>
    if contains st.visited current then some st
    else
      forEach (affectedDfs g fuel) (g.Dependents.get current)
        { visited := current :: st.visited, result := st.result ++ [current] }

/-- Every identifier that occurs in a map, as a key or in a slice. -/
def StrMap.nodes (m : StrMap) : List GoString := m.flatMap (fun e => e.1 :: e.2)

/-- A recursion depth that `dfs` cannot exceed from `path`: one more than the
number of identifiers the traversal can meet. -/
def affectedFuel (g : DependencyGraph) (path : GoString) : Nat :=
  (path :: g.Dependents.nodes).length + 1

/-- The method `GetAffectedModules(path)`; the traversal always returns a state
(`affectedDfs_top`). -/
def GetAffectedModules (g : DependencyGraph) (path : GoString) : List GoString :=
  let path := filepath.Clean path
  match affectedDfs g (affectedFuel g path) path { visited := [], result := [] } with
  | some st => st.result
  | none => []

/-! ## Errors and the filesystem -/

/-- The Go `error` values the embedded code can return. -/
inductive GoError where
  /-- An error of package `os` (`Stat`, `ReadDir`, `Getwd`). -/
  | os
  /-- The value `filepath.ErrBadPattern`. -/
  | ErrBadPattern
  /-- The error of `filepath.Rel`, "can't make ... relative to ...". -/
  | rel
deriving DecidableEq, Repr

/-- Results `(value, err)` can be compared. -/
instance instDecidableEqExcept {ε α : Type} [DecidableEq ε] [DecidableEq α] :
    DecidableEq (Except ε α)
  | .ok a, .ok b =>
    if h : a = b then isTrue (by rw [h]) else isFalse (fun h' => by cases h'; exact h rfl)
  | .error a, .error b =>
    if h : a = b then isTrue (by rw [h]) else isFalse (fun h' => by cases h'; exact h rfl)
  | .ok _, .error _ => isFalse (fun h' => by cases h')
  | .error _, .ok _ => isFalse (fun h' => by cases h')

/-- A directory entry as returned by `os.ReadDir`. -/
structure DirEntry where
  Name : GoString
  IsDir : Bool
deriving DecidableEq, Repr

/-- The part of the operating system the code reads: the working directory,
`os.Stat(path)` reduced to `info.IsDir()`, and `os.ReadDir(path)`; `none` is a
returned error. -/
structure FileSystem where
  Getwd : Option GoString
  Stat : GoString → Option Bool
  ReadDir : GoString → Option (List DirEntry)

namespace filepath

/-- Go `filepath.Abs(path)` on Unix. -/
def Abs (fs : FileSystem) (path : GoString) : Except GoError GoString :=
  if IsAbs path then .ok (Clean path)
  else match fs.Getwd with
    | none => .error GoError.os
    | some wd => .ok (Join [wd, path])

end filepath

/-! ## package internal/resolver -/

/-- The slice `nonLocalPrefixes` of `isLocalPath`. -/
def nonLocalPrefixes : List GoString :=
  [ ['g', 'i', 't', ':', ':'],
    ['g', 'i', 't', 'h', 'u', 'b', '.', 'c', 'o', 'm', '/'],
    ['b', 'i', 't', 'b', 'u', 'c', 'k', 'e', 't', '.', 'o', 'r', 'g', '/'],
    ['h', 't', 't', 'p', ':', '/', '/'],
    ['h', 't', 't', 'p', 's', ':', '/', '/'],
    ['s', '3', ':', ':'],
    ['g', 'c', 's', ':', ':'] ]

/-- The function `isLocalPath(source)`. -/
def isLocalPath (source : GoString) : Bool :=
  if nonLocalPrefixes.any (fun pre => strings.HasPrefix source pre) then false
  else if decide (strings.Count source '/' ≥ 2) && !strings.HasPrefix source ['.', '/']
      && !strings.HasPrefix source ['.', '.', '/'] && !strings.HasPrefix source ['/'] then false
  else true

/-- The function `ResolveModuleSource(callerDir, source)`. -/
def ResolveModuleSource (callerDir source : GoString) : Except GoError GoString :=
  if !isLocalPath source then .ok []
  else
    let absPath := filepath.Join [callerDir, source]
    .ok (filepath.Clean absPath)

/-- Whether the entries of a directory include a regular `.tf` file: the inner
loop of `FindParentWithTerraformFiles` and of `containsTerraformFiles`. -/
def hasTerraformEntry (entries : List DirEntry) : Bool :=
  entries.any (fun entry => !entry.IsDir && strings.HasSuffix entry.Name ['.', 't', 'f'])

/-- The walk `for { ... }` of `FindParentWithTerraformFiles` from `current`;
`none` when the fuel is exhausted. -/
def findParentLoop (fs : FileSystem) (rootDir : GoString) :
    Nat → GoString → Option (Except GoError GoString)
  | 0, _ => none
  | fuel + 1, current =>
    match fs.ReadDir current with
    | none => some (.error GoError.os)
    | some entries =>
      if hasTerraformEntry entries then some (.ok current)
      else if current = rootDir || !strings.HasPrefix current rootDir then some (.ok [])
      else
        let parent := filepath.Dir current
        if parent = current then some (.ok [])
        else findParentLoop fs rootDir fuel parent

/-- A number of iterations the walk from `startPath` cannot exceed
(`findParentLoop_fuel`). -/
def findParentFuel (startPath : GoString) : Nat := 2 * startPath.length + 3

/-- The function `FindParentWithTerraformFiles(startPath, rootDir)`; the empty
string is the result "none". -/
def FindParentWithTerraformFiles (fs : FileSystem) (startPath rootDir : GoString) :
    Except GoError GoString :=
  match (if !filepath.IsAbs startPath then filepath.Abs fs startPath else .ok startPath) with
  | .error e => .error e
  | .ok startPath =>
    match (if !filepath.IsAbs rootDir then filepath.Abs fs rootDir else .ok rootDir) with
    | .error e => .error e
    | .ok rootDir =>
      match fs.Stat startPath with
      | none => .error GoError.os
      | some isDir =>
        let startPath := if !isDir then filepath.Dir startPath else startPath
        match findParentLoop fs rootDir (findParentFuel startPath) startPath with
        | some r => r
        | none => .error GoError.os

/-! ## package unicode/utf8 -/

namespace utf8

/-- The Unicode replacement character `utf8.RuneError`, which
`utf8.DecodeRuneInString` returns for an invalid encoding. -/
def RuneError : Char := Char.ofNat 0xFFFD

/-- Go `utf8.RuneLen(c)`: the number of bytes of the UTF-8 encoding of `c`. -/
def RuneLen (c : Char) : Nat :=
  if c.toNat < 0x80 then 1
  else if c.toNat < 0x800 then 2
  else if c.toNat < 0x10000 then 3
  else 4

end utf8

/-! ## filepath.Match and filepath.Rel -/

namespace filepath

/-- The scan `for i = 0; i < len(pattern); i++` of `scanChunk`: the chunk
`pattern[0:i]` and the rest `pattern[i:]`, cut at the first star outside a
character class. -/
def scanLoop : Bool → GoString → GoString × GoString
  | _, [] => ([], [])
  | inrange, c :: rest =>
    if c = '\\' then
      match rest with
      | [] => ([c], [])
      | c2 :: rest2 =>
        let r := scanLoop inrange rest2
        (c :: c2 :: r.1, r.2)
    else if c = '[' then
      let r := scanLoop true rest
      (c :: r.1, r.2)
    else if c = ']' then
      let r := scanLoop false rest
      (c :: r.1, r.2)
    else if c = '*' then
      if !inrange then ([], c :: rest)
      else
        let r := scanLoop inrange rest
        (c :: r.1, r.2)
    else
      let r := scanLoop inrange rest
      (c :: r.1, r.2)

/-- Go `scanChunk(pattern)`: `(star, chunk, rest)`. -/
def scanChunk (pattern : GoString) : Bool × GoString × GoString :=
  let star : Bool := pattern.head? = some '*'
  let pattern := pattern.dropWhile (fun c => c == '*')
  let r := scanLoop false pattern
  (star, r.1, r.2)

/-- Go `getEsc(chunk)`: a possibly escaped character of a character class and
the chunk after it. -/
def getEsc (chunk : GoString) : Except GoError (Char × GoString) :=
  match chunk with
  | [] => .error GoError.ErrBadPattern
  | c :: rest =>
    if c = '-' || c = ']' then .error GoError.ErrBadPattern
    else if c = '\\' then
      match rest with
      | [] => .error GoError.ErrBadPattern
      | r :: nchunk => if nchunk = [] then .error GoError.ErrBadPattern else .ok (r, nchunk)
    else if rest = [] then .error GoError.ErrBadPattern else .ok (c, rest)

/-- The loop `for { ... }` of `matchChunk` that parses the ranges of a character
class: whether `r` is in one of them, and the chunk after the closing bracket. -/
def classLoop (r : Char) : Nat → GoString → Nat → Bool → Option (Except GoError (Bool × GoString))
  | 0, _, _, _ => none
  | fuel + 1, chunk, nrange, matched =>
    if chunk.head? = some ']' && decide (nrange > 0) then some (.ok (matched, chunk.tail))
    else
      match getEsc chunk with
      | .error e => some (.error e)
      | .ok (lo, chunk1) =>
        if chunk1.head? = some '-' then
          match getEsc chunk1.tail with
          | .error e => some (.error e)
          | .ok (hi, chunk2) =>
            classLoop r fuel chunk2 (nrange + 1) (matched || (decide (lo ≤ r) && decide (r ≤ hi)))
        else
          classLoop r fuel chunk1 (nrange + 1) (matched || (decide (lo ≤ r) && decide (r ≤ lo)))

/-- A part `name[i:]` of the name inside `Match`. The loop after a star skips
bytes, so the part can begin inside a multi-byte character: `cont` is the number
of continuation bytes of that character at the front, `chars` are the whole
characters after them. -/
structure NameRest where
  cont : Nat
  chars : GoString
deriving DecidableEq, Repr

/-- The test `len(s) == 0`. -/
def NameRest.isEmpty (s : NameRest) : Bool := s.cont == 0 && s.chars.isEmpty

/-- The comparison of `s` with the bytes of the character `c`, which the loop of
`matchChunk` makes byte by byte (`chunk[0] != s[0]`): they agree if `s` begins
with the whole character `c`. A continuation byte at the front of `s` differs
from the first byte of every character. -/
def NameRest.startsWith (s : NameRest) (c : Char) : Bool :=
  s.cont == 0 && s.chars.head? == some c

/-- Go `utf8.DecodeRuneInString(s)`, with `s[n:]` for its width `n`: the first
character, or `RuneError` of width 1 for a continuation byte at the front. -/
def NameRest.decode (s : NameRest) : Char × NameRest :=
  match s.cont with
  | 0 => (s.chars.headD utf8.RuneError, { cont := 0, chars := s.chars.tail })
  | k + 1 => (utf8.RuneError, { cont := k, chars := s.chars })

/-- The loop of Go `matchChunk(chunk, s)` with its variable `failed`: the rest
of `s` after the match (`ok`), or no match, or a bad pattern. A literal
character of the chunk is compared with `s` byte by byte; when it is there, `s`
goes on after it, and when it is not, `failed` is set and `s` is not read
again. -/
def matchChunkLoop :
    Nat → GoString → NameRest → Bool → Option (Except GoError (Option NameRest))
  | _, [], s, failed => some (.ok (if failed then none else some s))
  | 0, _ :: _, _, _ => none
  | fuel + 1, c :: chunk, s, failed =>
    let failed := failed || s.isEmpty
    if c = '[' then
      let r : Char := if !failed then s.decode.1 else Char.ofNat 0
      let s := if !failed then s.decode.2 else s
      let negated : Bool := chunk.head? = some '^'
      let chunk := if negated then chunk.tail else chunk
      match classLoop r (chunk.length + 1) chunk 0 false with
      | none => none
      | some (.error e) => some (.error e)
      | some (.ok (matched, chunk)) =>
        matchChunkLoop fuel chunk s (failed || (matched == negated))
    else if c = '?' then
      if !failed then matchChunkLoop fuel chunk s.decode.2 (s.startsWith Separator)
      else matchChunkLoop fuel chunk s failed
    else if c = '\\' then
      match chunk with
      | [] => some (.error GoError.ErrBadPattern)
      | c2 :: chunk2 =>
        if !failed then matchChunkLoop fuel chunk2 s.decode.2 (!s.startsWith c2)
        else matchChunkLoop fuel chunk2 s failed
    else
      if !failed then matchChunkLoop fuel chunk s.decode.2 (!s.startsWith c)
      else matchChunkLoop fuel chunk s failed

/-- Go `matchChunk(chunk, s)`; running out of fuel does not occur
(`filepath.matchChunk_total`). -/
def matchChunk (chunk : GoString) (s : NameRest) : Except GoError (Option NameRest) :=
  match matchChunkLoop chunk.length chunk s false with
  | some r => r
  | none => .error GoError.ErrBadPattern

/-- The outcome of the loop of `Match` that tries the chunk after skipping
`i + 1` bytes of the name. -/
inductive StarResult where
  /-- `continue Pattern` with `name = t`. -/
  | found (t : NameRest)
  /-- `return false, err`. -/
  | bad (e : GoError)
  /-- The loop ended without a match. -/
  | exhausted
deriving DecidableEq, Repr

/-- The body of the loop after a star, on `t = name[i+1:]`: the chunk is tried
on `t`; `none` is to go on with the next `i`. `last` says that the pattern is
used up (`len(pattern) == 0`). -/
def starTry (chunk : GoString) (last : Bool) (t : NameRest) : Option StarResult :=
  match matchChunk chunk t with
  | .ok (some r) => if last && !r.isEmpty then none else some (StarResult.found r)
  | .ok none => none
  | .error e => some (StarResult.bad e)

/-- The iterations of the loop after a star that skip the `k` bytes left of one
character (none of them is the separator): the chunk is tried on the parts with
`k - 1`, ..., `0` continuation bytes in front of `chars`. -/
def starBytes (chunk : GoString) (last : Bool) (chars : GoString) : Nat → Option StarResult
  | 0 => none
  | k + 1 =>
    match starTry chunk last { cont := k, chars := chars } with
    | some r => some r
    | none => starBytes chunk last chars k

/-- The loop `for i := 0; i < len(name) && name[i] != Separator; i++` of `Match`
on whole characters: every character but the separator is skipped byte by
byte. -/
def starChars (chunk : GoString) (last : Bool) : GoString → StarResult
  | [] => StarResult.exhausted
  | c :: name =>
    if c = Separator then StarResult.exhausted
    else
      match starBytes chunk last name (utf8.RuneLen c) with
      | some r => r
      | none => starChars chunk last name

/-- The loop `for i := 0; i < len(name) && name[i] != Separator; i++` of `Match`,
which tries the chunk on `name[i+1:]`: first the continuation bytes at the front
are skipped, then the characters. -/
def starLoop (chunk : GoString) (last : Bool) (name : NameRest) : StarResult :=
  match starBytes chunk last name.chars name.cont with
  | some r => r
  | none => starChars chunk last name.chars

/-- The loop `Pattern:` of Go `filepath.Match`: when a chunk does not match, also
not after the star, the result is `false, nil` and the rest of the pattern is
not looked at. -/
def matchLoop : Nat → GoString → NameRest → Option (Except GoError Bool)
  | _, [], name => some (.ok name.isEmpty)
  | 0, _ :: _, _ => none
  | fuel + 1, pattern, name =>
    let sc := scanChunk pattern
    let star := sc.1
    let chunk := sc.2.1
    let pattern := sc.2.2
    if star && chunk.isEmpty then
      some (.ok (!strings.Contains name.chars Separator))
    else
      match matchChunk chunk name with
      | .error e => some (.error e)
      | .ok r =>
        match (match r with
               | some t => if t.isEmpty || !pattern.isEmpty then some t else none
               | none => none) with
        | some t => matchLoop fuel pattern t
        | none =>
          match (if star then starLoop chunk pattern.isEmpty name else StarResult.exhausted) with
          | StarResult.found t => matchLoop fuel pattern t
          | StarResult.bad e => some (.error e)
          | StarResult.exhausted => some (.ok false)

/-- Go `filepath.Match(pattern, name)`, on a name that begins at a character;
running out of fuel does not occur (`filepath.Match_total`). -/
def Match (pattern name : GoString) : Except GoError Bool :=
  match matchLoop pattern.length pattern { cont := 0, chars := name } with
  | some r => r
  | none => .error GoError.ErrBadPattern

/-- The state of the loop of `Rel` when it is left: the element `base[b0:bi]`,
and the parts `base[b0:]` and `targ[t0:]`. -/
structure RelState where
  elem : GoString
  base : GoString
  targ : GoString
deriving DecidableEq, Repr

/-- The loop of Go `filepath.Rel` that positions `base[b0:bi]` and `targ[t0:ti]`
at the first differing elements, on `base[b0:]` and `targ[t0:]`: it steps over
the leading elements the two paths share and goes on while either path has
something left, so that when one path is used up the next element of the other
one is the differing element (`elem` is `base[b0:bi]`, empty when the base is
used up). -/
def relLoop : Nat → GoString → GoString → Option RelState
  | 0, _, _ => none
  | fuel + 1, base, targ =>
    if base.isEmpty && targ.isEmpty then some { elem := [], base := base, targ := targ }
    else
      let be := base.takeWhile (fun c => c != Separator)
      let te := targ.takeWhile (fun c => c != Separator)
      if te ≠ be then some { elem := be, base := base, targ := targ }
      else
        relLoop fuel ((base.dropWhile (fun c => c != Separator)).tail)
          ((targ.dropWhile (fun c => c != Separator)).tail)

/-- Go `filepath.Rel(basepath, targpath)` on Unix; running out of fuel does not
occur (`filepath.relLoop_total`). -/
def Rel (basepath targpath : GoString) : Except GoError GoString :=
  let base := Clean basepath
  let targ := Clean targpath
  if targ = base then .ok ['.']
  else
    let base := if base = ['.'] then [] else base
    let baseSlashed : Bool := base.head? = some Separator
    let targSlashed : Bool := targ.head? = some Separator
    if baseSlashed != targSlashed then .error GoError.rel
    else
      match relLoop (base.length + targ.length + 1) base targ with
      | none => .error GoError.rel
      | some st =>
        if st.elem = ['.', '.'] then .error GoError.rel
        else if st.base ≠ [] then
          let seps := strings.Count st.base Separator
          let ups := ['.', '.'] ++ (List.replicate seps [Separator, '.', '.']).flatten
          if st.targ ≠ [] then .ok (ups ++ Separator :: st.targ) else .ok ups
        else .ok st.targ

end filepath

/-! ## package internal/analyzer and the caller in cmd/tarm-action -/

/-- The type `Analyzer`. -/
structure Analyzer where
  root : GoString
  graph : DependencyGraph

/-- The function `isRootModule(modulePath, patterns)`. -/
def isRootModule (modulePath : GoString) : List GoString → Bool
  | [] => false
  | pattern :: patterns =>
    match filepath.Match pattern modulePath with
    | .error _ => isRootModule modulePath patterns     -- invalid pattern, skip
    | .ok matched => if matched then true else isRootModule modulePath patterns

/-- The loop "Filter to only root modules" of `GetAffectedRootModules`. -/
def recordAffected (rootModulePatterns : List GoString) (relTfDir : GoString) :
    StrMap → List GoString → StrMap
  | affectedByPath, [] => affectedByPath
  | affectedByPath, module :: affected =>
    if isRootModule module rootModulePatterns then
      let m1 := if !affectedByPath.hasKey module then affectedByPath.set module [] else affectedByPath
      recordAffected rootModulePatterns relTfDir (m1.set module (m1.get module ++ [relTfDir]))
        affected
    else recordAffected rootModulePatterns relTfDir affectedByPath affected

/-- The owning module of a changed path as `GetAffectedRootModules` computes it
(`relTfDir`), `none` when the path is skipped by one of the three `continue`s. -/
def owningModule (a : Analyzer) (fs : FileSystem) (changePath : GoString) : Option GoString :=
  let changePath :=
    if !filepath.IsAbs changePath then filepath.Join [a.root, changePath] else changePath
  match FindParentWithTerraformFiles fs changePath a.root with
  | .error _ => none
  | .ok tfDir =>
    if tfDir = [] then none
    else
      match filepath.Rel a.root tfDir with
      | .error _ => none
      | .ok relTfDir => some relTfDir

/-- The loop over `changedPaths` of `GetAffectedRootModules`. -/
def affectedLoop (a : Analyzer) (fs : FileSystem) (rootModulePatterns : List GoString) :
    StrMap → List GoString → StrMap
  | affectedByPath, [] => affectedByPath
  | affectedByPath, changePath :: changedPaths =>
    match owningModule a fs changePath with
    | none => affectedLoop a fs rootModulePatterns affectedByPath changedPaths
    | some relTfDir =>
      let affected := GetAffectedModules a.graph relTfDir
      affectedLoop a fs rootModulePatterns
        (recordAffected rootModulePatterns relTfDir affectedByPath affected) changedPaths

/-- The method `GetAffectedRootModules(changedPaths, rootModulePatterns)`: the
map and the error, which is always `nil`. -/
def GetAffectedRootModules (a : Analyzer) (fs : FileSystem)
    (changedPaths rootModulePatterns : List GoString) : StrMap × Option GoError :=
  (affectedLoop a fs rootModulePatterns [] changedPaths, none)

/-- The loop of `unique(slice)` of `cmd/tarm-action`, with its variables `seen`
and `result`. -/
def uniqueLoop : List GoString → List GoString → List GoString → List GoString
  | _, result, [] => result
  | seen, result, s :: slice =>
    if !contains seen s then uniqueLoop (s :: seen) (result ++ [s]) slice
    else uniqueLoop seen result slice

/-- The function `unique(slice)` of `cmd/tarm-action`. -/
def unique (slice : List GoString) : List GoString := uniqueLoop [] [] slice

/-- The graph of the scenario of the specification, built by `AddDependency`:
`auth→common`, `database→common`, `env/dev/api→network`, `env/dev/api→database`. -/
def scenarioGraph : DependencyGraph :=
  buildGraph
    [ ("auth".toList, "common".toList),
      ("database".toList, "common".toList),
      ("env/dev/api".toList, "network".toList),
      ("env/dev/api".toList, "database".toList) ]

/-- A directory listing with the single regular file `main.tf`. -/
def mainTf : List DirEntry := [{ Name := "main.tf".toList, IsDir := false }]

/-- A filesystem for the scenario under the analysis root `/r`: the five module
directories hold a `main.tf`, `env/dev/api` also a `config.yaml`; every other
path does not exist. -/
def scenarioFS : FileSystem where
  Getwd := some "/r".toList
  Stat := fun p =>
    if p ∈ ["/r".toList, "/r/common".toList, "/r/auth".toList, "/r/database".toList,
        "/r/network".toList, "/r/env".toList, "/r/env/dev".toList, "/r/env/dev/api".toList]
    then some true
    else if p ∈ ["/r/common/main.tf".toList, "/r/auth/main.tf".toList,
        "/r/database/main.tf".toList, "/r/network/main.tf".toList,
        "/r/env/dev/api/main.tf".toList, "/r/env/dev/api/config.yaml".toList]
    then some false
    else none
  ReadDir := fun p =>
    if p ∈ ["/r/common".toList, "/r/auth".toList, "/r/database".toList, "/r/network".toList]
    then some mainTf
    else if p = "/r/env/dev/api".toList
    then some (mainTf ++ [{ Name := "config.yaml".toList, IsDir := false }])
    else if p = "/r".toList then
      some [ { Name := "auth".toList, IsDir := true }, { Name := "common".toList, IsDir := true },
             { Name := "database".toList, IsDir := true }, { Name := "env".toList, IsDir := true },
             { Name := "network".toList, IsDir := true } ]
    else if p = "/r/env".toList then some [{ Name := "dev".toList, IsDir := true }]
    else if p = "/r/env/dev".toList then some [{ Name := "api".toList, IsDir := true }]
    else none

/-- The analyzer of the scenario: root `/r` and the scenario graph. -/
def scenarioAnalyzer : Analyzer := { root := "/r".toList, graph := scenarioGraph }

/-- The graph the tests expect for the tree `testdata/terraform-complex`
(`TestAnalyzer_ComplexDirectoryStructure`), built by `AddDependency`. -/
def complexGraph : DependencyGraph :=
  buildGraph
    [ (".".toList, "stacks/shared/vpc".toList),
      ("apps/web-service".toList, "shared-components/logging".toList),
      ("apps/web-service".toList, "utils/common".toList),
      ("shared-components/logging".toList, "utils/common".toList),
      ("stacks/shared/vpc".toList, "shared-components/logging".toList),
      ("team-a/project-x".toList, "shared-components/logging".toList),
      ("team-a/project-x".toList, "utils/common".toList) ]

/-- A filesystem for that tree under the analysis root `/r`, reduced to what the
query reads: the changed file `utils/common/main.tf` and its directory. -/
def complexFS : FileSystem where
  Getwd := some "/r".toList
  Stat := fun p =>
    if p = "/r/utils/common/main.tf".toList then some false
    else if p ∈ ["/r".toList, "/r/utils".toList, "/r/utils/common".toList] then some true
    else none
  ReadDir := fun p =>
    if p = "/r/utils/common".toList then some mainTf
    else if p = "/r/utils".toList then some [{ Name := "common".toList, IsDir := true }]
    else if p = "/r".toList then
      some (mainTf ++ [{ Name := "utils".toList, IsDir := true }])
    else none

/-- The analyzer of that tree: root `/r` and the expected graph. -/
def complexAnalyzer : Analyzer := { root := "/r".toList, graph := complexGraph }

/-- A filesystem for the boundary scenario under the analysis root `/r`: the
changed file `modules/x/nested/deep/file.json`, with `.tf` files only in
`modules/x`. -/
def nestedFS : FileSystem where
  Getwd := some "/r".toList
  Stat := fun p =>
    if p = "/r/modules/x/nested/deep/file.json".toList then some false
    else if p ∈ ["/r".toList, "/r/modules".toList, "/r/modules/x".toList,
        "/r/modules/x/nested".toList, "/r/modules/x/nested/deep".toList]
    then some true
    else none
  ReadDir := fun p =>
    if p = "/r/modules/x/nested/deep".toList
    then some [{ Name := "file.json".toList, IsDir := false }]
    else if p = "/r/modules/x/nested".toList then some [{ Name := "deep".toList, IsDir := true }]
    else if p = "/r/modules/x".toList
    then some (mainTf ++ [{ Name := "nested".toList, IsDir := true }])
    else if p = "/r/modules".toList then some [{ Name := "x".toList, IsDir := true }]
    else if p = "/r".toList then some [{ Name := "modules".toList, IsDir := true }]
    else none

/-- A filesystem with the analysis root `/a/b` next to a sibling `/a/bc` and an
unrelated directory `/x`; there are `.tf` files in `/a` and in `/x` only. -/
def siblingFS : FileSystem where
  Getwd := some "/a/b".toList
  Stat := fun p =>
    if p ∈ ["/".toList, "/a".toList, "/a/b".toList, "/a/bc".toList, "/x".toList] then some true
    else if p ∈ ["/a/main.tf".toList, "/x/main.tf".toList] then some false
    else none
  ReadDir := fun p =>
    if p = "/".toList
    then some [{ Name := "a".toList, IsDir := true }, { Name := "x".toList, IsDir := true }]
    else if p = "/a".toList
    then some (mainTf ++ [{ Name := "b".toList, IsDir := true },
      { Name := "bc".toList, IsDir := true }])
    else if p = "/x".toList then some mainTf
    else if p ∈ ["/a/b".toList, "/a/bc".toList] then some []
    else none

/-! ## The discovery phase: `Analyze` -/

/-- Go `strings.Contains(s, substr)`. -/
def strings.ContainsStr (s substr : GoString) : Bool := s.tails.any (fun t => substr.isPrefixOf t)

/-- A directory tree as `filepath.WalkDir` reads it: files, and directories with
their entries in the order `os.ReadDir` returns them. -/
inductive FsTree where
  | file (name : GoString)
  | dir (name : GoString) (children : List FsTree)

/-- The name of an entry, `d.Name()`. -/
def FsTree.name : FsTree → GoString
  | .file name => name
  | .dir name _ => name

/-- The entry `os.ReadDir` returns for a node of the tree. -/
def FsTree.entry : FsTree → DirEntry
  | .file name => { Name := name, IsDir := false }
  | .dir name _ => { Name := name, IsDir := true }

/-- What `Analyze` uses besides the tree: the parser `tfconfig.LoadModule(path)`,
reduced to the sources of the module calls in the order the loop meets them
(`none` when `diags.HasErrors()`), and `os.IsNotExist(err)` for the `err` of
`os.Stat(path)`. -/
structure AnalyzeEnv where
  LoadModule : GoString → Option (List GoString)
  NotExist : GoString → Bool

/-- The loop "Process module calls" of `Analyze` for the module directory `path`. -/
def processModuleCalls (root path relPath : GoString) (notExist : GoString → Bool) :
    DependencyGraph → List GoString → DependencyGraph
  | g, [] => g
  | g, source :: calls =>
    match ResolveModuleSource path source with
    | .error _ => processModuleCalls root path relPath notExist g calls
    | .ok resolvedPath =>
      if resolvedPath = [] then processModuleCalls root path relPath notExist g calls
      else
        match filepath.Rel root resolvedPath with
        | .error _ => processModuleCalls root path relPath notExist g calls
        | .ok relResolvedPath =>
          if notExist resolvedPath then processModuleCalls root path relPath notExist g calls
          else
            processModuleCalls root path relPath notExist
              (AddDependency g relPath relResolvedPath) calls

/-- The callback of `Analyze` on a directory that is not skipped, from "Check if
directory contains .tf files" on. -/
def analyzeDir (root : GoString) (env : AnalyzeEnv) (path : GoString) (entries : List DirEntry)
    (g : DependencyGraph) : Except GoError DependencyGraph :=
  if !hasTerraformEntry entries then .ok g
  else
    match env.LoadModule path with
    | none => .ok g
    | some calls =>
      match filepath.Rel root path with
      | .error e => .error e
      | .ok relPath => .ok (processModuleCalls root path relPath env.NotExist g calls)

mutual
/-- Go `walkDir(path, d, fn)` with the callback of `Analyze`, on a readable tree. -/
def walkDir (root : GoString) (env : AnalyzeEnv) :
    GoString → FsTree → DependencyGraph → Except GoError DependencyGraph
  | _, .file _, g => .ok g
  | path, .dir name children, g =>
    if name = ".terraform".toList || strings.ContainsStr path ".terragrunt-cache".toList then .ok g
    else
      match analyzeDir root env path (children.map FsTree.entry) g with
      | .error e => .error e
      | .ok g1 => walkEntries root env path children g1
/-- The loop `for _, d1 := range dirs` of `walkDir`. -/
def walkEntries (root : GoString) (env : AnalyzeEnv) :
    GoString → List FsTree → DependencyGraph → Except GoError DependencyGraph
  | _, [], g => .ok g
  | path, d1 :: dirs, g =>
    match walkDir root env (filepath.Join [path, d1.name]) d1 g with
    | .error e => .error e
    | .ok g1 => walkEntries root env path dirs g1
end

/-- The method `Analyze()` on the tree under `a.root`: the graph it builds, or the
error it returns. -/
def Analyze (a : Analyzer) (env : AnalyzeEnv) (tree : FsTree) : Except GoError DependencyGraph :=
  walkDir a.root env a.root tree a.graph

/-- A tree under the analysis root `/r` in the shape of `testdata/terraform`:
`environments/dev/api`, `environments/prod/app`, three modules, and a
`.terraform` directory with a downloaded module inside `modules/database`. -/
def analyzeTree : FsTree :=
  .dir "r".toList
    [ .dir "environments".toList
        [ .dir "dev".toList [.dir "api".toList [.file "main.tf".toList]],
          .dir "prod".toList [.dir "app".toList [.file "main.tf".toList]] ],
      .dir "modules".toList
        [ .dir "common".toList [.file "main.tf".toList],
          .dir "database".toList
            [ .dir ".terraform".toList [.dir "x".toList [.file "main.tf".toList]],
              .file "main.tf".toList ],
          .dir "network".toList [.file "main.tf".toList, .file "README.md".toList] ] ]

/-- The parser and the existence test for `analyzeTree`: `prod/app` calls a
local module, a registry module, a git module and a local module that is
missing on disk. -/
def analyzeEnv : AnalyzeEnv where
  LoadModule := fun path =>
    if path = "/r/environments/dev/api".toList
    then some ["../../../modules/network".toList, "../../../modules/database".toList]
    else if path = "/r/environments/prod/app".toList
    then some ["terraform-aws-modules/vpc/aws".toList, "../../../modules/missing".toList,
      "git::https://example.com/mod.git".toList, "../../../modules/network".toList]
    else if path = "/r/modules/database".toList then some ["../common".toList]
    else if path = "/r/modules/database/.terraform/x".toList
    then some ["../../../network".toList]
    else some []
  NotExist := fun path =>
    !(path ∈ ["/r".toList, "/r/environments".toList, "/r/environments/dev".toList,
      "/r/environments/dev/api".toList, "/r/environments/prod".toList,
      "/r/environments/prod/app".toList, "/r/modules".toList, "/r/modules/common".toList,
      "/r/modules/database".toList, "/r/modules/network".toList])

/-! ## Cycle detection: `DetectCircularDependencies` -/

/-- A Go `map[string]int`. -/
abbrev IntMap := List (GoString × Nat)

/-- The read `m[k]`: the number stored under `k`, `0` if there is none. -/
def IntMap.get : IntMap → GoString → Nat
  | [], _ => 0
  | (k', v) :: rest, k => if k' = k then v else IntMap.get rest k

/-- The write `m[k] = v`. -/
def IntMap.set : IntMap → GoString → Nat → IntMap
  | [], k, v => [(k, v)]
  | (k', v') :: rest, k, v =>
    if k' = k then (k, v) :: rest else (k', v') :: IntMap.set rest k v

/-- The variables captured by the closure `dfs` of `DetectCircularDependencies`:
`visited` (0: unvisited, 1: visiting, 2: visited), `path` and `cycles`. -/
structure CycleState where
  visited : IntMap
  path : List GoString
  cycles : List (List GoString)
deriving DecidableEq, Repr

/-- The loop `for i, n := range path` that sets `cycleStart` to the first index
of `node` in `path[i:]`, counted from `i`; `-1` if there is none. -/
def cycleStartFrom (node : GoString) : Int → List GoString → Int
  | _, [] => -1
  | i, n :: rest => if n = node then i else cycleStartFrom node (i + 1) rest

/-- The closure `dfs` of `DetectCircularDependencies`: the state after the call
and the returned flag; the fuel bounds the depth of the recursion. -/
def cycleDfs (g : DependencyGraph) : Nat → GoString → CycleState → Option (CycleState × Bool)
  | 0, _, _ => none
  | fuel + 1, node, st =>
    if st.visited.get node = 1 then
      -- Found a cycle
      let cycleStart := cycleStartFrom node 0 st.path
      if cycleStart ≥ 0 then
        some ({ st with cycles := st.cycles ++ [st.path.drop cycleStart.toNat] }, true)
      else some (st, true)
    else if st.visited.get node = 2 then some (st, false)
    else
      match forEach (fun dep s => (cycleDfs g fuel dep s).map Prod.fst)
          (g.Dependencies.get node)
          { st with visited := st.visited.set node 1, path := st.path ++ [node] } with
      | none => none
      | some st2 =>
        some ({ st2 with path := st2.path.dropLast, visited := st2.visited.set node 2 }, false)

/-- The loop `for module := range g.Dependencies` over the keys in the order
`order` in which the map yields them. -/
def detectLoop (g : DependencyGraph) (fuel : Nat) : List GoString → CycleState → Option CycleState
  | [], st => some st
  | module :: rest, st =>
    if st.visited.get module = 0 then
      match cycleDfs g fuel module st with
      | none => none
      | some r => detectLoop g fuel rest r.1
    else detectLoop g fuel rest st

/-- A recursion depth that `dfs` cannot exceed: one more than the number of
identifiers it can meet. -/
def cycleFuel (g : DependencyGraph) (order : List GoString) : Nat :=
  (order ++ g.Dependencies.nodes).length + 1

/-- The method `DetectCircularDependencies()`, for the order `order` in which
`range g.Dependencies` yields the keys; the traversal always returns a state
(`detectLoop_top`). -/
def DetectCircularDependencies (g : DependencyGraph) (order : List GoString) :
    List (List GoString) :=
  match detectLoop g (cycleFuel g order) order { visited := [], path := [], cycles := [] } with
  | some st => st.cycles
  | none => []

/-- A graph with the cycle `a → b → c → a`, the self-loop `c → c` and the extra
vertex `d → a`, built by `AddDependency`. -/
def cyclicGraph : DependencyGraph :=
  buildGraph
    [ ("a".toList, "b".toList), ("b".toList, "c".toList), ("c".toList, "a".toList),
      ("c".toList, "c".toList), ("d".toList, "a".toList) ]

/-! ## package internal/resolver: containment -/

/-- The function `IsWithinDirectory(path, dir)`. -/
def IsWithinDirectory (path dir : GoString) : Bool :=
  -- Normalize both paths
  let path := filepath.Clean path
  let dir := filepath.Clean dir
  -- Check if path starts with dir
  match filepath.Rel dir path with
  | .error _ => false
  | .ok rel =>
    -- If the relative path starts with "..", it's outside the directory
    !strings.HasPrefix rel ['.', '.']

/-! ## Notions the properties are stated with -/

/-- The two maps of a graph are transposes of each other. -/
def Transposed (g : DependencyGraph) : Prop :=
  ∀ a b : GoString, a ∈ g.Dependents.get b ↔ b ∈ g.Dependencies.get a

/-- A reverse edge: `b` is listed in `Dependents[a]`. -/
def RevEdge (g : DependencyGraph) (a b : GoString) : Prop := b ∈ g.Dependents.get a

/-- Reachable from `a` by zero or more reverse edges. -/
def RevReach (g : DependencyGraph) (a b : GoString) : Prop :=
  Relation.ReflTransGen (RevEdge g) a b

/-- The number of identifiers of `univ` that are not marked in `st`. -/
def unvisited (univ : List GoString) (st : DfsState) : Nat :=
  (univ.filter (fun x => !contains st.visited x)).length

/-- The link between the two captured variables: `result` lists the marked
identifiers, each once. -/
def DfsInv (st : DfsState) : Prop :=
  (∀ x, x ∈ st.result ↔ x ∈ st.visited) ∧ st.result.Nodup

/-- What one call `dfs(current)` establishes between the state before and after:
marks are kept, `current` is marked, every newly marked vertex has all its
dependents marked and is reachable from `current`, and `result` lists exactly
the new marks after the old entries. -/
structure DfsPost (g : DependencyGraph) (current : GoString) (st st' : DfsState) : Prop where
  mono : ∀ x, x ∈ st.visited → x ∈ st'.visited
  marked : current ∈ st'.visited
  closed : ∀ x, x ∈ st'.visited → x ∉ st.visited → ∀ d, d ∈ g.Dependents.get x → d ∈ st'.visited
  sound : ∀ x, x ∈ st'.visited → x ∉ st.visited → RevReach g current x
  inv : DfsInv st → DfsInv st'


/-- What the loop over the dependents `ds` establishes. -/
structure LoopPost (g : DependencyGraph) (ds : List GoString) (st st' : DfsState) : Prop where
  mono : ∀ x, x ∈ st.visited → x ∈ st'.visited
  marked : ∀ d, d ∈ ds → d ∈ st'.visited
  closed : ∀ x, x ∈ st'.visited → x ∉ st.visited → ∀ d, d ∈ g.Dependents.get x → d ∈ st'.visited
  sound : ∀ x, x ∈ st'.visited → x ∉ st.visited → ∃ d, d ∈ ds ∧ RevReach g d x
  inv : DfsInv st → DfsInv st'


/-- The part of a string after its first separator, if it has one. -/
def afterSep : GoString → Option GoString
  | [] => none
  | c :: s => if c = Separator then some s else afterSep s

/-- The string has exactly one separator. -/
def oneSep (name : GoString) : Bool :=
  match afterSep name with
  | some t => !strings.Contains t Separator
  | none => false

/-- A directory or file name: not empty, without separator, and not `.` or `..`. -/
def validName (s : GoString) : Prop :=
  s ≠ [] ∧ Separator ∉ s ∧ s ≠ ['.'] ∧ s ≠ ['.', '.']

instance instDecidableValidName (s : GoString) : Decidable (validName s) := by
  unfold validName
  infer_instance

/-- The characters `/s₁/s₂.../sₙ` of the absolute path with the elements `segs`. -/
def pathBody (segs : List GoString) : GoString := segs.flatMap (fun s => Separator :: s)

/-- The absolute path with the elements `segs`; the root `/` if there are none. -/
def absPath (segs : List GoString) : GoString :=
  if segs = [] then [Separator] else pathBody segs

/-- The directories from `root/sₙ/.../s₁` up to `root`, deepest first, where
`root` has the elements `rs` and the elements below it come last one first. -/
def dirChainUp (rs : List GoString) : List GoString → List GoString
  | [] => [absPath rs]
  | s :: below => absPath (rs ++ (s :: below).reverse) :: dirChainUp rs below

/-- The chain of directories from the directory `root/ss` up to and including
`root`, deepest first. -/
def dirChain (rs ss : List GoString) : List GoString := dirChainUp rs ss.reverse

/-- The abstract filesystem of the boundary finder: whether the directory `dir`
directly contains a `.tf` file. -/
def hasTf (fs : FileSystem) (dir : GoString) : Bool :=
  match fs.ReadDir dir with
  | some entries => hasTerraformEntry entries
  | none => false

/-- The elements in the buffer of `Clean` are real: not empty and without
separator. -/
def CleanBufOK (b : filepath.CleanBuf) : Prop :=
  ∀ e, e ∈ b.out → e ≠ [] ∧ Separator ∉ e

/-- The number of characters the elements `es` take when each is written with a
separator in front. -/
def bufSize (es : List GoString) : Nat := (es.map (fun e => e.length + 1)).sum

/-- The number of characters a path element can add to the buffer of `Clean`:
none if it is empty. -/
def elemWeight (e : GoString) : Nat := if e = [] then 0 else e.length + 1

/-- The measure that decreases along the walk of `FindParentWithTerraformFiles`:
twice the length of the path, plus one if it ends with a separator. -/
def walkMeasure (p : GoString) : Nat :=
  2 * p.length + (if p.getLast? = some Separator then 1 else 0)

/-- No slice of the two maps of a graph lists an identifier twice. -/
def NodupEdges (g : DependencyGraph) : Prop :=
  (∀ a : GoString, (g.Dependencies.get a).Nodup) ∧ (∀ b : GoString, (g.Dependents.get b).Nodup)

/-- A forward edge: `b` is listed in `Dependencies[a]`. -/
def FwdEdge (g : DependencyGraph) (a b : GoString) : Prop := b ∈ g.Dependencies.get a

/-- The module call with the source `source` in the module directory `path`
yields the target `rel`: the source is Local, its resolved path (the join with
the module directory, cleaned) exists on disk, and `rel` is that path relative
to the analysis root. -/
def callTarget (root path : GoString) (notExist : GoString → Bool) (source rel : GoString) :
    Prop :=
  isLocalPath source = true ∧
    notExist (filepath.Clean (filepath.Join [path, source])) = false ∧
    filepath.Rel root (filepath.Clean (filepath.Join [path, source])) = .ok rel

mutual
/-- The module directories the walk of `Analyze` parses, with the sources of
their module calls: the directories that are not skipped, contain a `.tf` file
and parse without error. -/
def parsedModules (env : AnalyzeEnv) : GoString → FsTree → List (GoString × List GoString)
  | _, .file _ => []
  | path, .dir name children =>
    if name = ".terraform".toList || strings.ContainsStr path ".terragrunt-cache".toList then []
    else
      (if hasTerraformEntry (children.map FsTree.entry) then
        match env.LoadModule path with
        | some calls => [(path, calls)]
        | none => []
      else []) ++ parsedModulesIn env path children
/-- The parsed module directories below the entries of the directory `path`. -/
def parsedModulesIn (env : AnalyzeEnv) : GoString → List FsTree → List (GoString × List GoString)
  | _, [] => []
  | path, d1 :: dirs =>
    parsedModules env (filepath.Join [path, d1.name]) d1 ++ parsedModulesIn env path dirs
end

/-- The edge `a → b` comes from a module call of one of the modules `mods`. -/
def edgeFromCalls (root : GoString) (notExist : GoString → Bool)
    (mods : List (GoString × List GoString)) (a b : GoString) : Prop :=
  ∃ path calls relPath source rel, (path, calls) ∈ mods ∧ filepath.Rel root path = .ok relPath ∧
    a = filepath.Clean relPath ∧ source ∈ calls ∧ callTarget root path notExist source rel ∧
    b = filepath.Clean rel

/-- What every call of the closure `dfs` of `DetectCircularDependencies` keeps,
between the state before and after: the stack `path` is restored, marks other
than 0 are never changed, an unvisited identifier is left unvisited or becomes
visited (2), `cycles` is only appended to, and no mark exceeds 2. -/
structure CycleFrame (st st' : CycleState) : Prop where
  le_two : ∀ x, st'.visited.get x ≤ 2
  path_eq : st'.path = st.path
  keep : ∀ x, st.visited.get x ≠ 0 → st'.visited.get x = st.visited.get x
  fresh : ∀ x, st.visited.get x = 0 → st'.visited.get x = 0 ∨ st'.visited.get x = 2
  cycles_ext : ∃ new, st'.cycles = st.cycles ++ new

/-- The state of the cycle detection is well formed: the identifiers marked 1
(visiting) are those on the stack `path`, the stack has no repetition and
follows forward edges, and no mark exceeds 2. -/
structure CycleWF (g : DependencyGraph) (st : CycleState) : Prop where
  gray : ∀ x, st.visited.get x = 1 ↔ x ∈ st.path
  nodup : st.path.Nodup
  chain : List.Chain' (FwdEdge g) st.path
  le_two : ∀ x, st.visited.get x ≤ 2

/-- The sequence `c` is a cycle of the graph: its vertices are pairwise distinct,
consecutive vertices are joined by forward edges, and there is a forward edge
from its last vertex to its first (so it is not empty). -/
def IsCycle (g : DependencyGraph) (c : List GoString) : Prop :=
  c.Nodup ∧ List.Chain' (FwdEdge g) c ∧
    ∃ first last, c.head? = some first ∧ c.getLast? = some last ∧ FwdEdge g last first

/-- As long as no cycle is recorded, the visited (2) identifiers are closed under
forward edges and ranked so that every edge between them decreases the rank. -/
def RankInv (g : DependencyGraph) (st : CycleState) : Prop :=
  st.cycles = [] → ∃ rank : GoString → Nat, ∀ x, st.visited.get x = 2 →
    ∀ d, FwdEdge g x d → st.visited.get d = 2 ∧ rank d < rank x

/-- The condition under which `dfs(node)` is called: from the loop over the
dependencies of the identifier on top of the stack, if there is one. -/
def CallPre (g : DependencyGraph) (st : CycleState) (node : GoString) : Prop :=
  ∀ l, st.path.getLast? = some l → FwdEdge g l node

/-- The invariant of the cycle detection: the state is well formed, every
recorded cycle is a cycle of the graph, and the rank invariant holds. -/
structure CycleInv (g : DependencyGraph) (st : CycleState) : Prop where
  wf : CycleWF g st
  sound : ∀ c, c ∈ st.cycles → IsCycle g c
  rank : RankInv g st

/-- The number of identifiers of `univ` that are unvisited (0) in `st`. -/
def unvisitedCount (univ : List GoString) (st : CycleState) : Nat :=
  (univ.filter (fun x => st.visited.get x == 0)).length

/-- The forward-edge relation has a directed cycle, self-loops included. -/
def HasCycle (g : DependencyGraph) : Prop := ∃ v, Relation.TransGen (FwdEdge g) v v

/-- The error of a result, if there is one: the part of a result of `matchChunk`
or `Match` that says whether the pattern was rejected. -/
def errOf {α : Type} : Except GoError α → Option GoError
  | .error e => some e
  | .ok _ => none

/-- The edges of the simple cycle through the vertices `c` in this order: every
vertex with the next one, and the last vertex with the first. -/
def cycleEdges (c : List GoString) : List (GoString × GoString) := c.zip (c.rotate 1)

/-- The forward edges of `g` form the pairwise vertex-disjoint simple cycles `cs`
and nothing else: no vertex occurs twice, no cycle is empty, every vertex of a
cycle has the next vertex of the cycle as its one dependency, and every key of
`Dependencies` is a vertex of a cycle. -/
def CycleGraph (g : DependencyGraph) (cs : List (List GoString)) : Prop :=
  cs.flatten.Nodup ∧ (∀ c, c ∈ cs → c ≠ []) ∧
    (∀ c, c ∈ cs → ∀ e, e ∈ cycleEdges c → g.Dependencies.get e.1 = [e.2]) ∧
    (∀ k, k ∈ g.Dependencies.keys → k ∈ cs.flatten)

instance instDecidableCycleGraph (g : DependencyGraph) (cs : List (List GoString)) :
    Decidable (CycleGraph g cs) := by
  unfold CycleGraph
  infer_instance

/-- The state of the loop over the keys on a graph of disjoint cycles: the
cycles `done` have been walked, each is reported once, as a rotation, their
vertices are visited (2), and the vertices of the other cycles are unvisited. -/
structure CyclesDone (cs done : List (List GoString)) (st : CycleState) : Prop where
  path_nil : st.path = []
  sub : ∀ c, c ∈ done → c ∈ cs
  nodup : done.Nodup
  marked : ∀ c, c ∈ done → ∀ x, x ∈ c → st.visited.get x = 2
  unmarked : ∀ c, c ∈ cs → c ∉ done → ∀ x, x ∈ c → st.visited.get x = 0
  length_eq : st.cycles.length = done.length
  rep_of_done : ∀ c, c ∈ done → ∃ r, r ∈ st.cycles ∧ r.IsRotated c
  done_of_rep : ∀ r, r ∈ st.cycles → ∃ c, c ∈ done ∧ r.IsRotated c
  disjoint : st.cycles.Pairwise List.Disjoint

/-- A graph of three disjoint cycles, `a → b → a`, `c → d → e → c` and the
self-loop `f → f`, built by `AddDependency`. -/
def threeCycles : DependencyGraph :=
  buildGraph
    [ ("a".toList, "b".toList), ("c".toList, "d".toList), ("b".toList, "a".toList),
      ("d".toList, "e".toList), ("f".toList, "f".toList), ("e".toList, "c".toList) ]

/-- The path element `..`. -/
def dotDot : GoString := ['.', '.']

/-- A path in canonical form: rooted, `/` followed by the names joined by
separators; otherwise `k` elements `..` followed by the names, joined by
separators, or `.` if there is no element at all. -/
def canonPath (rooted : Bool) (k : Nat) (names : List GoString) : GoString :=
  if rooted then Separator :: [Separator].intercalate names
  else if List.replicate k dotDot ++ names = [] then ['.']
  else [Separator].intercalate (List.replicate k dotDot ++ names)

/-- The shape of the buffer of `Clean`: real names, last one first, on top of
`dotdot` elements `..`, none of them in a rooted path. -/
def CleanBufCanon (rooted : Bool) (b : filepath.CleanBuf) : Prop :=
  ∃ names : List GoString, b.out = names ++ List.replicate b.dotdot dotDot ∧
    (∀ s, s ∈ names → validName s) ∧ (rooted = true → b.dotdot = 0)

/-- Every key and every element of the two maps is a fixed point of
`filepath.Clean`. -/
def CanonicalGraph (g : DependencyGraph) : Prop :=
  (∀ k, k ∈ g.Dependencies.keys → filepath.Clean k = k) ∧
  (∀ k, k ∈ g.Dependents.keys → filepath.Clean k = k) ∧
  (∀ x d, d ∈ g.Dependencies.get x → filepath.Clean d = d) ∧
  (∀ x d, d ∈ g.Dependents.get x → filepath.Clean d = d)

/-- The chunks of a pattern, as `scanChunk` cuts them one after the other; the
fuel bounds their number. -/
def chunksOf : Nat → GoString → List GoString
  | _, [] => []
  | 0, _ :: _ => []
  | fuel + 1, pattern =>
    (filepath.scanChunk pattern).2.1 :: chunksOf fuel (filepath.scanChunk pattern).2.2

/-- A pattern is malformed: `matchChunk` rejects one of its chunks. -/
def Malformed (q : GoString) : Prop :=
  ∃ chunk, chunk ∈ chunksOf q.length q ∧
    errOf (filepath.matchChunk chunk { cont := 0, chars := [] }) ≠ none

/-! # Theorems -/


/-! ## Maps and slices -/

theorem contains_iff (l : List GoString) (x : GoString) : contains l x = true ↔ x ∈ l := by
  induction l with
  | nil => simp [contains]
  | cons s rest ih =>
    unfold contains
    by_cases h : s = x
    · simp [h]
    · simp [h, ih, Ne.symm h]

theorem StrMap.get_set (m : StrMap) (k k' : GoString) (v : List GoString) :
    (m.set k v).get k' = if k = k' then v else m.get k' := by
  induction m with
  | nil => simp [StrMap.set, StrMap.get]
  | cons e rest ih =>
    obtain ⟨k0, v0⟩ := e
    unfold StrMap.set
    by_cases h : k0 = k
    · subst h
      by_cases h' : k0 = k' <;> simp [StrMap.get, h']
    · by_cases h' : k0 = k'
      · subst h'
        simp [StrMap.get, h, Ne.symm h]
      · simp [StrMap.get, h, h', ih]

/-- The forward edges after `AddDependency`: the old ones and the new pair. -/
theorem mem_Dependencies_AddDependency (g : DependencyGraph) (f t a b : GoString) :
    b ∈ (AddDependency g f t).Dependencies.get a ↔
      b ∈ g.Dependencies.get a ∨ (a = filepath.Clean f ∧ b = filepath.Clean t) := by
  unfold AddDependency
  simp only []
  by_cases hc : contains (g.Dependencies.get (filepath.Clean f)) (filepath.Clean t) = true
  · have hm := (contains_iff _ _).1 hc
    simp only [hc, Bool.not_true, Bool.false_eq_true, if_false]
    constructor
    · intro h; exact Or.inl h
    · rintro (h | ⟨rfl, rfl⟩)
      · exact h
      · exact hm
  · simp only [hc, Bool.not_false, if_true]
    rw [StrMap.get_set]
    by_cases ha : filepath.Clean f = a
    · subst ha
      simp [List.mem_append]
    · simp [ha, Ne.symm ha]

/-- The reverse edges after `AddDependency`: the old ones and the new pair. -/
theorem mem_Dependents_AddDependency (g : DependencyGraph) (f t a b : GoString) :
    a ∈ (AddDependency g f t).Dependents.get b ↔
      a ∈ g.Dependents.get b ∨ (a = filepath.Clean f ∧ b = filepath.Clean t) := by
  unfold AddDependency
  simp only []
  by_cases hc : contains (g.Dependents.get (filepath.Clean t)) (filepath.Clean f) = true
  · have hm := (contains_iff _ _).1 hc
    simp only [hc, Bool.not_true, Bool.false_eq_true, if_false]
    constructor
    · intro h; exact Or.inl h
    · rintro (h | ⟨rfl, rfl⟩)
      · exact h
      · exact hm
  · simp only [hc, Bool.not_false, if_true]
    rw [StrMap.get_set]
    by_cases hb : filepath.Clean t = b
    · subst hb
      simp [List.mem_append]
    · simp [hb, Ne.symm hb]

theorem Transposed_new : Transposed NewDependencyGraph := by
  intro a b
  simp [NewDependencyGraph, StrMap.get]

theorem Transposed_AddDependency (g : DependencyGraph) (f t : GoString)
    (h : Transposed g) : Transposed (AddDependency g f t) := by
  intro a b
  rw [mem_Dependents_AddDependency, mem_Dependencies_AddDependency, h a b]

theorem Transposed_foldl (calls : List (GoString × GoString)) :
    ∀ g : DependencyGraph, Transposed g →
      Transposed (calls.foldl (fun g c => AddDependency g c.1 c.2) g) := by
  induction calls with
  | nil => intro g h; exact h
  | cons c cs ih =>
    intro g h
    exact ih _ (Transposed_AddDependency g c.1 c.2 h)

/-- C2: in every graph built from `NewDependencyGraph` by a sequence of
`AddDependency` calls, `a` occurs in `Dependents[b]` if and only if `b` occurs in
`Dependencies[a]`. -/
theorem C2_transpose_invariant (calls : List (GoString × GoString)) (a b : GoString) :
    a ∈ (buildGraph calls).Dependents.get b ↔ b ∈ (buildGraph calls).Dependencies.get a :=
  Transposed_foldl calls NewDependencyGraph Transposed_new a b



/-! ## The traversal of `GetAffectedModules` -/

theorem StrMap.get_subset_nodes (m : StrMap) (k d : GoString) (h : d ∈ m.get k) :
    d ∈ m.nodes := by
  induction m with
  | nil => simp [StrMap.get] at h
  | cons e rest ih =>
    obtain ⟨k0, v0⟩ := e
    unfold StrMap.get at h
    simp only [StrMap.nodes, List.flatMap_cons, List.mem_append, List.mem_cons]
    by_cases hk : k0 = k
    · simp only [hk, if_true] at h
      exact Or.inl (Or.inr h)
    · simp only [hk, if_false] at h
      exact Or.inr (ih h)

theorem forEach_post (g : DependencyGraph) (f : GoString → DfsState → Option DfsState)
    (hf : ∀ d st st', f d st = some st' → DfsPost g d st st') :
    ∀ (ds : List GoString) (st st' : DfsState),
      forEach f ds st = some st' → LoopPost g ds st st' := by
  intro ds
  induction ds with
  | nil =>
    intro st st' h
    simp only [forEach, Option.some.injEq] at h
    subst h
    exact ⟨fun _ h => h, fun _ h => by simp at h, fun x hx hn => absurd hx hn,
      fun x hx hn => absurd hx hn, fun h => h⟩
  | cons d ds ih =>
    intro st st' h
    unfold forEach at h
    cases hfd : f d st with
    | none => simp [hfd] at h
    | some s1 =>
      simp only [hfd] at h
      have p1 := hf d st s1 hfd
      have p2 := ih s1 st' h
      refine ⟨fun x hx => p2.mono x (p1.mono x hx), ?_, ?_, ?_, fun hs => p2.inv (p1.inv hs)⟩
      · intro e he
        rcases List.mem_cons.1 he with rfl | he
        · exact p2.mono _ p1.marked
        · exact p2.marked e he
      · intro x hx hn e he
        by_cases h1 : x ∈ s1.visited
        · exact p2.mono _ (p1.closed x h1 hn e he)
        · exact p2.closed x hx h1 e he
      · intro x hx hn
        by_cases h1 : x ∈ s1.visited
        · exact ⟨d, List.mem_cons_self _ _, p1.sound x h1 hn⟩
        · obtain ⟨e, he, hr⟩ := p2.sound x hx h1
          exact ⟨e, List.mem_cons_of_mem _ he, hr⟩

theorem affectedDfs_post (g : DependencyGraph) :
    ∀ (fuel : Nat) (current : GoString) (st st' : DfsState),
      affectedDfs g fuel current st = some st' → DfsPost g current st st' := by
  intro fuel
  induction fuel with
  | zero => intro current st st' h; simp [affectedDfs] at h
  | succ fuel ih =>
    intro current st st' h
    unfold affectedDfs at h
    by_cases hv : contains st.visited current = true
    · simp only [hv, if_true, Option.some.injEq] at h
      subst h
      exact ⟨fun _ h => h, (contains_iff _ _).1 hv, fun x hx hn => absurd hx hn,
        fun x hx hn => absurd hx hn, fun h => h⟩
    · simp only [hv, if_false] at h
      have hnv : current ∉ st.visited := fun hm => hv ((contains_iff _ _).2 hm)
      have p := forEach_post g (affectedDfs g fuel) ih _ _ _ h
      have hcur : current ∈ st'.visited := p.mono _ (List.mem_cons_self _ _)
      refine ⟨fun x hx => p.mono x (List.mem_cons_of_mem _ hx), hcur, ?_, ?_, ?_⟩
      · intro x hx hn e he
        by_cases hxc : x = current
        · subst hxc
          exact p.marked e he
        · exact p.closed x hx (by simp [hxc, hn]) e he
      · intro x hx hn
        by_cases hxc : x = current
        · subst hxc
          exact Relation.ReflTransGen.refl
        · obtain ⟨e, he, hr⟩ := p.sound x hx (by simp [hxc, hn])
          exact Relation.ReflTransGen.head he hr
      · intro hs
        apply p.inv
        refine ⟨fun x => ?_, ?_⟩
        · rw [List.mem_append, hs.1 x, List.mem_singleton, List.mem_cons]
          exact or_comm
        · refine List.Nodup.append hs.2 (List.nodup_singleton _) ?_
          intro x hx hx'
          rw [List.mem_singleton] at hx'
          subst hx'
          exact hnv ((hs.1 x).1 hx)

theorem unvisited_le (univ : List GoString) (st st' : DfsState)
    (h : ∀ x, x ∈ st.visited → x ∈ st'.visited) : unvisited univ st' ≤ unvisited univ st := by
  unfold unvisited
  apply List.Sublist.length_le
  apply List.monotone_filter_right
  intro x hx
  simp only [Bool.not_eq_true', ← Bool.not_eq_true, contains_iff] at hx ⊢
  exact fun hm => hx (h x hm)

theorem contains_cons (s item : GoString) (rest : List GoString) :
    contains (s :: rest) item = if s = item then true else contains rest item := by
  rw [contains]

theorem length_filter_unmarked_lt (vis : List GoString) (c : GoString) (hn : c ∉ vis) :
    ∀ us : List GoString, c ∈ us →
      (us.filter (fun x => !contains (c :: vis) x)).length <
        (us.filter (fun x => !contains vis x)).length := by
  intro us
  induction us with
  | nil => intro hc; simp at hc
  | cons u us ih =>
    intro hc
    have hle : (us.filter (fun x => !contains (c :: vis) x)).length ≤
        (us.filter (fun x => !contains vis x)).length := by
      apply List.Sublist.length_le
      apply List.monotone_filter_right
      intro x hx
      rw [contains_cons] at hx
      by_cases hcx : c = x
      · simp [hcx] at hx
      · simpa [hcx] using hx
    by_cases huc : c = u
    · subst huc
      have h2 : contains vis c = false := by
        rw [← Bool.not_eq_true, contains_iff]; exact hn
      have h1 : contains (c :: vis) c = true := (contains_iff _ _).2 (List.mem_cons_self _ _)
      simp only [List.filter_cons, h1, h2, if_true, Bool.not_true, Bool.not_false,
        Bool.false_eq_true, if_false, List.length_cons]
      omega
    · have hc' : c ∈ us := by
        rcases List.mem_cons.1 hc with h | h
        · exact absurd h huc
        · exact h
      have := ih hc'
      have hcu : contains (c :: vis) u = contains vis u := by
        rw [contains_cons]; simp [huc]
      simp only [List.filter_cons, hcu]
      cases hu : contains vis u <;>
        simp only [Bool.not_true, Bool.not_false, Bool.false_eq_true, if_true, if_false,
          List.length_cons] <;> omega

theorem unvisited_lt (univ : List GoString) (st : DfsState) (c : GoString) (r : List GoString)
    (hc : c ∈ univ) (hn : c ∉ st.visited) :
    unvisited univ { visited := c :: st.visited, result := r } < unvisited univ st :=
  length_filter_unmarked_lt st.visited c hn univ hc

theorem forEach_terminates (g : DependencyGraph) (univ : List GoString) (n : Nat)
    (f : GoString → DfsState → Option DfsState)
    (hpost : ∀ d st st', f d st = some st' → DfsPost g d st st')
    (hf : ∀ d st, d ∈ univ → unvisited univ st < n → ∃ st', f d st = some st') :
    ∀ (ds : List GoString) (st : DfsState), (∀ d, d ∈ ds → d ∈ univ) →
      unvisited univ st < n → ∃ st', forEach f ds st = some st' := by
  intro ds
  induction ds with
  | nil => intro st _ _; exact ⟨st, rfl⟩
  | cons d ds ih =>
    intro st hds hn
    obtain ⟨s1, h1⟩ := hf d st (hds d (List.mem_cons_self _ _)) hn
    have hle := unvisited_le univ st s1 (hpost d st s1 h1).mono
    obtain ⟨s2, h2⟩ := ih s1 (fun e he => hds e (List.mem_cons_of_mem _ he)) (by omega)
    exact ⟨s2, by simp [forEach, h1, h2]⟩

/-- The recursion of `dfs` ends: with more fuel than there are unmarked
identifiers the call returns a state. -/
theorem affectedDfs_terminates (g : DependencyGraph) (univ : List GoString)
    (huniv : ∀ x d, d ∈ g.Dependents.get x → d ∈ univ) :
    ∀ (fuel : Nat) (current : GoString) (st : DfsState), current ∈ univ →
      unvisited univ st < fuel → ∃ st', affectedDfs g fuel current st = some st' := by
  intro fuel
  induction fuel with
  | zero => intro _ _ _ h; omega
  | succ fuel ih =>
    intro current st hc hn
    unfold affectedDfs
    by_cases hv : contains st.visited current = true
    · exact ⟨st, by simp [hv]⟩
    · simp only [hv, if_false]
      have hnv : current ∉ st.visited := fun hm => hv ((contains_iff _ _).2 hm)
      have hlt := unvisited_lt univ st current (st.result ++ [current]) hc hnv
      exact forEach_terminates g univ fuel (affectedDfs g fuel) (affectedDfs_post g fuel)
        (fun d s hd hs => ih d s hd hs) _ _ (fun d hd => huniv current d hd) (by omega)

theorem affectedDfs_top (g : DependencyGraph) (path : GoString) :
    ∃ st', affectedDfs g (affectedFuel g path) path { visited := [], result := [] } = some st' := by
  apply affectedDfs_terminates g (path :: g.Dependents.nodes)
  · intro x d hd
    exact List.mem_cons_of_mem _ (StrMap.get_subset_nodes _ x d hd)
  · exact List.mem_cons_self _ _
  · unfold affectedFuel unvisited
    exact Nat.lt_succ_of_le (List.length_filter_le _ _)

/-- The elements of `GetAffectedModules(path)` are the vertices reachable from the
cleaned `path` by reverse edges. -/
theorem mem_GetAffectedModules (g : DependencyGraph) (path x : GoString) :
    x ∈ GetAffectedModules g path ↔ RevReach g (filepath.Clean path) x := by
  obtain ⟨st', h⟩ := affectedDfs_top g (filepath.Clean path)
  have p := affectedDfs_post g _ _ _ _ h
  have hs : ∀ x, x ∈ st'.result ↔ x ∈ st'.visited :=
    (p.inv ⟨fun x => by simp, List.nodup_nil⟩).1
  have hres : GetAffectedModules g path = st'.result := by
    unfold GetAffectedModules
    simp only [h]
  rw [hres, hs]
  constructor
  · intro hx
    exact p.sound x hx (by simp)
  · intro hr
    induction hr with
    | refl => exact p.marked
    | tail _ hbc ih => exact p.closed _ ih (by simp) _ hbc


/-- No identifier occurs twice in `GetAffectedModules(path)`. -/
theorem nodup_GetAffectedModules (g : DependencyGraph) (path : GoString) :
    (GetAffectedModules g path).Nodup := by
  obtain ⟨st', h⟩ := affectedDfs_top g (filepath.Clean path)
  have p := affectedDfs_post g _ _ _ _ h
  have hres : GetAffectedModules g path = st'.result := by
    unfold GetAffectedModules
    simp only [h]
  rw [hres]
  exact (p.inv ⟨fun x => by simp, List.nodup_nil⟩).2

/-- In the scenario graph the traversal from `common` visits `common`, `auth`,
`database`, `env/dev/api`, in this order. -/
theorem scenarioGraph_affected :
    GetAffectedModules scenarioGraph "common".toList =
      ["common".toList, "auth".toList, "database".toList, "env/dev/api".toList] := by
  decide!

/-- C1: for every graph (in particular every graph built by `AddDependency`
calls) and every start identifier `v`, the elements of `GetAffectedModules(v)`
are exactly the vertices reachable from the canonical form of `v` by zero or
more reverse (`Dependents`) edges; the canonical form of `v` is among them,
cycles or not; and in the scenario graph `GetAffectedModules(common)` has
exactly the elements `common`, `auth`, `database`, `env/dev/api`. -/
theorem C1_affected_is_reverse_closure :
    (∀ (g : DependencyGraph) (v x : GoString),
        x ∈ GetAffectedModules g v ↔ RevReach g (filepath.Clean v) x) ∧
    (∀ (calls : List (GoString × GoString)) (v x : GoString),
        x ∈ GetAffectedModules (buildGraph calls) v ↔
          RevReach (buildGraph calls) (filepath.Clean v) x) ∧
    (∀ (g : DependencyGraph) (v : GoString), filepath.Clean v ∈ GetAffectedModules g v) ∧
    (∀ x : GoString, x ∈ GetAffectedModules scenarioGraph "common".toList ↔
        x ∈ ["common".toList, "auth".toList, "database".toList, "env/dev/api".toList]) := by
  refine ⟨mem_GetAffectedModules, fun calls => mem_GetAffectedModules _, ?_, ?_⟩
  · intro g v
    exact (mem_GetAffectedModules g v _).2 Relation.ReflTransGen.refl
  · intro x
    rw [scenarioGraph_affected]

/-! ## The query `GetAffectedRootModules` -/

theorem StrMap.mem_keys_set (m : StrMap) (k k' : GoString) (v : List GoString) :
    k' ∈ (m.set k v).keys ↔ k' ∈ m.keys ∨ k' = k := by
  induction m with
  | nil => simp [StrMap.set, StrMap.keys]
  | cons e rest ih =>
    obtain ⟨k0, v0⟩ := e
    unfold StrMap.set
    by_cases h : k0 = k
    · subst h
      simp only [if_true, StrMap.keys, List.map_cons, List.mem_cons]
      exact ⟨fun h => h.elim (fun h => Or.inr h) (fun h => Or.inl (Or.inr h)),
        fun h => h.elim (fun h => h.elim Or.inl Or.inr) Or.inl⟩
    · simp only [h, if_false]
      simp only [StrMap.keys, List.map_cons, List.mem_cons] at ih ⊢
      rw [ih]
      exact or_assoc.symm

theorem StrMap.hasKey_iff (m : StrMap) (k : GoString) : m.hasKey k = true ↔ k ∈ m.keys := by
  simp only [StrMap.hasKey, StrMap.keys, List.any_eq_true, List.mem_map, beq_iff_eq]

theorem StrMap.get_of_not_mem_keys (m : StrMap) (k : GoString) (h : k ∉ m.keys) :
    m.get k = [] := by
  induction m with
  | nil => rfl
  | cons e rest ih =>
    obtain ⟨k0, v0⟩ := e
    simp only [StrMap.keys, List.map_cons, List.mem_cons, not_or] at h ih
    unfold StrMap.get
    simp only [Ne.symm h.1, if_false]
    exact ih h.2

/-- One recording step of the filter loop, read at the key `r`. -/
theorem StrMap.get_record (m : StrMap) (module rel r : GoString) :
    ((if !m.hasKey module then m.set module [] else m).set module
        ((if !m.hasKey module then m.set module [] else m).get module ++ [rel])).get r =
      if module = r then m.get r ++ [rel] else m.get r := by
  have h1 : ∀ x, (if !m.hasKey module then m.set module [] else m).get x = m.get x := by
    intro x
    by_cases hk : m.hasKey module = true
    · simp [hk]
    · simp only [hk, Bool.not_false, if_true]
      rw [StrMap.get_set]
      by_cases hx : module = x
      · subst hx
        simp only [if_true]
        exact (StrMap.get_of_not_mem_keys m _ (fun hm => hk ((StrMap.hasKey_iff m _).2 hm))).symm
      · simp [hx]
  rw [StrMap.get_set, h1, h1]
  by_cases hx : module = r
  · subst hx; simp
  · simp [hx]

theorem StrMap.mem_keys_record (m : StrMap) (module r : GoString) (v : List GoString) :
    r ∈ ((if !m.hasKey module then m.set module [] else m).set module v).keys ↔
      r ∈ m.keys ∨ r = module := by
  rw [StrMap.mem_keys_set]
  by_cases hk : m.hasKey module = true
  · simp [hk]
  · simp only [hk, Bool.not_false, if_true]
    rw [StrMap.mem_keys_set]
    exact ⟨fun h => h.elim id Or.inr, fun h => h.elim (fun h => Or.inl (Or.inl h)) Or.inr⟩

/-- The slice under `r` after the filter loop: `rel` is appended once for every
occurrence of `r` among the affected modules, if `r` is a root module. -/
theorem get_recordAffected (pats : List GoString) (rel r : GoString) :
    ∀ (affected : List GoString) (m : StrMap),
      (recordAffected pats rel m affected).get r =
        m.get r ++ List.replicate (if isRootModule r pats then affected.count r else 0) rel := by
  intro affected
  induction affected with
  | nil => intro m; simp [recordAffected]
  | cons x xs ih =>
    intro m
    unfold recordAffected
    by_cases hx : isRootModule x pats = true
    · simp only [hx, if_true]
      rw [ih, StrMap.get_record]
      by_cases hxr : x = r
      · subst hxr
        simp only [hx, if_true, List.count_cons_self, List.append_assoc, List.replicate_succ,
          List.singleton_append]

      · simp [hxr, List.count_cons]
    · simp only [hx, if_false, Bool.false_eq_true]
      rw [ih]
      by_cases hxr : x = r
      · subst hxr
        simp [hx]
      · simp [hxr, List.count_cons]

theorem mem_keys_recordAffected (pats : List GoString) (rel r : GoString) :
    ∀ (affected : List GoString) (m : StrMap),
      r ∈ (recordAffected pats rel m affected).keys ↔
        r ∈ m.keys ∨ (isRootModule r pats = true ∧ r ∈ affected) := by
  intro affected
  induction affected with
  | nil => intro m; simp [recordAffected]
  | cons x xs ih =>
    intro m
    unfold recordAffected
    by_cases hx : isRootModule x pats = true
    · simp only [hx, if_true]
      rw [ih, StrMap.mem_keys_record, List.mem_cons]
      constructor
      · rintro ((h | h) | h)
        · exact Or.inl h
        · exact Or.inr ⟨h ▸ hx, Or.inl h⟩
        · exact Or.inr ⟨h.1, Or.inr h.2⟩
      · rintro (h | ⟨h1, h2 | h2⟩)
        · exact Or.inl (Or.inl h)
        · exact Or.inl (Or.inr h2)
        · exact Or.inr ⟨h1, h2⟩
    · simp only [hx, if_false, Bool.false_eq_true]
      rw [ih, List.mem_cons]
      constructor
      · rintro (h | h)
        · exact Or.inl h
        · exact Or.inr ⟨h.1, Or.inr h.2⟩
      · rintro (h | ⟨h1, h2 | h2⟩)
        · exact Or.inl h
        · exact absurd (h2 ▸ h1) hx
        · exact Or.inr ⟨h1, h2⟩

theorem count_eq_one_of_nodup :
    ∀ (l : List GoString), l.Nodup → ∀ x, x ∈ l → l.count x = 1 := by
  intro l
  induction l with
  | nil => intro _ x hx; simp at hx
  | cons y ys ih =>
    intro hn x hx
    rw [List.nodup_cons] at hn
    rw [List.count_cons]
    by_cases hyx : y = x
    · subst hyx
      rw [List.count_eq_zero_of_not_mem hn.1]
      simp
    · rcases List.mem_cons.1 hx with h | h
      · exact absurd h.symm hyx
      · rw [ih hn.2 x h]
        simp [hyx]

/-- The filter loop appends `rel` to the slice of `r` exactly when `r` is a root
module among the modules affected by `rel`, and then once. -/
theorem get_recordAffected_affected (g : DependencyGraph) (pats : List GoString)
    (rel r : GoString) (m : StrMap) :
    (recordAffected pats rel m (GetAffectedModules g rel)).get r =
      m.get r ++ [rel].filter
        (fun _ => isRootModule r pats && decide (r ∈ GetAffectedModules g rel)) := by
  rw [get_recordAffected]
  congr 1
  by_cases hr : isRootModule r pats = true
  · by_cases hm : r ∈ GetAffectedModules g rel
    · have h1 : List.count r (GetAffectedModules g rel) = 1 :=
        count_eq_one_of_nodup _ (nodup_GetAffectedModules g rel) r hm
      rw [h1]
      simp [hr, hm]
    · simp [hr, hm, List.count_eq_zero_of_not_mem hm]
  · simp [hr]

/-- The cause list of `r`: the owning modules of the changed paths, in the order
of the paths, that reach the root module `r`. -/
theorem get_affectedLoop (a : Analyzer) (fs : FileSystem) (pats : List GoString) (r : GoString) :
    ∀ (changed : List GoString) (m : StrMap),
      (affectedLoop a fs pats m changed).get r =
        m.get r ++ (changed.filterMap (owningModule a fs)).filter
          (fun c => isRootModule r pats && decide (r ∈ GetAffectedModules a.graph c)) := by
  intro changed
  induction changed with
  | nil => intro m; simp [affectedLoop]
  | cons p ps ih =>
    intro m
    unfold affectedLoop
    cases ho : owningModule a fs p with
    | none =>
      simp only [List.filterMap_cons, ho]
      exact ih m
    | some rel =>
      simp only [List.filterMap_cons, ho]
      rw [ih, get_recordAffected_affected, List.append_assoc]
      congr 1
      by_cases hc : (isRootModule r pats && decide (r ∈ GetAffectedModules a.graph rel)) = true
      · simp only [List.filter_cons, hc, if_true, List.filter_nil, List.singleton_append]
      · simp only [List.filter_cons, hc, if_false, List.filter_nil, List.nil_append,
          Bool.false_eq_true]

theorem mem_keys_affectedLoop (a : Analyzer) (fs : FileSystem) (pats : List GoString)
    (r : GoString) :
    ∀ (changed : List GoString) (m : StrMap),
      r ∈ (affectedLoop a fs pats m changed).keys ↔
        r ∈ m.keys ∨ (isRootModule r pats = true ∧
          ∃ c, c ∈ changed.filterMap (owningModule a fs) ∧ r ∈ GetAffectedModules a.graph c) := by
  intro changed
  induction changed with
  | nil => intro m; simp [affectedLoop]
  | cons p ps ih =>
    intro m
    unfold affectedLoop
    cases ho : owningModule a fs p with
    | none =>
      simp only [List.filterMap_cons, ho]
      exact ih m
    | some rel =>
      simp only [List.filterMap_cons, ho, List.mem_cons]
      rw [ih, mem_keys_recordAffected]
      constructor
      · rintro ((h | ⟨h1, h2⟩) | ⟨h1, c, hc, h2⟩)
        · exact Or.inl h
        · exact Or.inr ⟨h1, rel, Or.inl rfl, h2⟩
        · exact Or.inr ⟨h1, c, Or.inr hc, h2⟩
      · rintro (h | ⟨h1, c, rfl | hc, h2⟩)
        · exact Or.inl (Or.inl h)
        · exact Or.inl (Or.inr ⟨h1, h2⟩)
        · exact Or.inr ⟨h1, c, hc, h2⟩

/-- C3: `GetAffectedRootModules` computes the filtered reverse closure. With
`owner(p) = owningModule a fs p` the boundary finder, `r` is a key of the result
iff `r` matches a root pattern and lies in `GetAffectedModules(owner(p))` for
some changed path `p` that has an owning module; `c` occurs in `result[r]` iff
`c = owner(p)` for such a `p`, so a root reached from several changed modules
lists all of them; and in the scenario a change owned by `common` with the
pattern `env/*/*` gives exactly `{env/dev/api: [common]}`. -/
theorem C3_filtered_reverse_closure :
    (∀ (a : Analyzer) (fs : FileSystem) (changed pats : List GoString) (r : GoString),
      r ∈ (GetAffectedRootModules a fs changed pats).1.keys ↔
        (isRootModule r pats = true ∧
          ∃ p c, p ∈ changed ∧ owningModule a fs p = some c ∧
            r ∈ GetAffectedModules a.graph c)) ∧
    (∀ (a : Analyzer) (fs : FileSystem) (changed pats : List GoString) (r c : GoString),
      c ∈ (GetAffectedRootModules a fs changed pats).1.get r ↔
        (isRootModule r pats = true ∧
          ∃ p, p ∈ changed ∧ owningModule a fs p = some c ∧
            r ∈ GetAffectedModules a.graph c)) ∧
    owningModule scenarioAnalyzer scenarioFS "common/main.tf".toList = some "common".toList ∧
    GetAffectedRootModules scenarioAnalyzer scenarioFS ["common/main.tf".toList]
        ["env/*/*".toList] =
      ([("env/dev/api".toList, ["common".toList])], none) := by
  refine ⟨?_, ?_, by decide!, by decide!⟩
  · intro a fs changed pats r
    unfold GetAffectedRootModules
    rw [mem_keys_affectedLoop]
    simp only [StrMap.keys, List.map_nil, List.not_mem_nil, false_or, List.mem_filterMap]
    constructor
    · rintro ⟨h1, c, ⟨p, hp, ho⟩, h2⟩
      exact ⟨h1, p, c, hp, ho, h2⟩
    · rintro ⟨h1, p, c, hp, ho, h2⟩
      exact ⟨h1, c, ⟨p, hp, ho⟩, h2⟩
  · intro a fs changed pats r c
    unfold GetAffectedRootModules
    rw [get_affectedLoop]
    simp only [StrMap.get, List.nil_append, List.mem_filter, List.mem_filterMap,
      Bool.and_eq_true, decide_eq_true_eq]
    constructor
    · rintro ⟨⟨p, hp, ho⟩, h1, h2⟩
      exact ⟨h1, p, hp, ho, h2⟩
    · rintro ⟨h1, p, hp, ho, h2⟩
      exact ⟨⟨p, hp, ho⟩, h1, h2⟩

/-! ## The caller's `unique` -/

theorem uniqueLoop_spec :
    ∀ (slice seen result : List GoString),
      (∀ x, x ∈ result ↔ x ∈ seen) → result.Nodup →
      (uniqueLoop seen result slice).Nodup ∧
        ∀ x, x ∈ uniqueLoop seen result slice ↔ x ∈ result ∨ x ∈ slice := by
  intro slice
  induction slice with
  | nil => intro seen result _ hn; simp [uniqueLoop, hn]
  | cons s rest ih =>
    intro seen result hs hn
    unfold uniqueLoop
    by_cases hc : contains seen s = true
    · simp only [hc, Bool.not_true, Bool.false_eq_true, if_false]
      obtain ⟨h1, h2⟩ := ih seen result hs hn
      refine ⟨h1, fun x => ?_⟩
      rw [h2, List.mem_cons]
      have hsr : s ∈ result := (hs s).2 ((contains_iff _ _).1 hc)
      constructor
      · rintro (h | h)
        · exact Or.inl h
        · exact Or.inr (Or.inr h)
      · rintro (h | h | h)
        · exact Or.inl h
        · exact Or.inl (h ▸ hsr)
        · exact Or.inr h
    · simp only [hc, Bool.not_false, if_true]
      have hns : s ∉ result := fun h => hc ((contains_iff _ _).2 ((hs s).1 h))
      obtain ⟨h1, h2⟩ := ih (s :: seen) (result ++ [s])
        (fun x => by
          rw [List.mem_append, List.mem_singleton, List.mem_cons, hs x]
          exact or_comm)
        (List.Nodup.append hn (List.nodup_singleton _) (fun x hx hx' => by
          rw [List.mem_singleton] at hx'
          exact hns (hx' ▸ hx)))
      refine ⟨h1, fun x => ?_⟩
      rw [h2, List.mem_append, List.mem_singleton, List.mem_cons, or_assoc]

/-- Two changed paths of one module: the cause list of `env/dev/api` lists the
module twice. -/
theorem C4_duplicate_cause :
    (GetAffectedRootModules scenarioAnalyzer scenarioFS
        ["env/dev/api/main.tf".toList, "env/dev/api/config.yaml".toList]
        ["env/*/*".toList]).1.get "env/dev/api".toList =
      ["env/dev/api".toList, "env/dev/api".toList] ∧
    ¬ ((GetAffectedRootModules scenarioAnalyzer scenarioFS
        ["env/dev/api/main.tf".toList, "env/dev/api/config.yaml".toList]
        ["env/*/*".toList]).1.get "env/dev/api".toList).Nodup := by
  have h : (GetAffectedRootModules scenarioAnalyzer scenarioFS
        ["env/dev/api/main.tf".toList, "env/dev/api/config.yaml".toList]
        ["env/*/*".toList]).1.get "env/dev/api".toList =
      ["env/dev/api".toList, "env/dev/api".toList] := by decide!
  refine ⟨h, ?_⟩
  rw [h]
  decide

/-- C4 (amended): a cause list holds one entry per changed path whose owning
module reaches the root, so it is free of duplicates whenever the changed paths
have pairwise distinct owning modules; and whatever the changed paths, the list
the caller builds from it with `unique` is free of duplicates and has the same
elements. -/
theorem C4_cause_lists_amended (a : Analyzer) (fs : FileSystem)
    (changed pats : List GoString) (r : GoString) :
    ((changed.filterMap (owningModule a fs)).Nodup →
      ((GetAffectedRootModules a fs changed pats).1.get r).Nodup) ∧
    (unique ((GetAffectedRootModules a fs changed pats).1.get r)).Nodup ∧
    (∀ c, c ∈ unique ((GetAffectedRootModules a fs changed pats).1.get r) ↔
      c ∈ (GetAffectedRootModules a fs changed pats).1.get r) := by
  refine ⟨?_, ?_, ?_⟩
  · intro h
    unfold GetAffectedRootModules
    rw [get_affectedLoop]
    simp only [StrMap.get, List.nil_append]
    exact h.filter _
  · exact (uniqueLoop_spec _ [] [] (fun x => Iff.rfl) List.nodup_nil).1
  · intro c
    rw [unique, (uniqueLoop_spec _ [] [] (fun x => Iff.rfl) List.nodup_nil).2]
    simp

/-- C4 (amended), at the scenario with one changed path per module. -/
theorem C4_cause_lists_amended_witness :
    ((["common/main.tf".toList, "auth/main.tf".toList].filterMap
        (owningModule scenarioAnalyzer scenarioFS)).Nodup) ∧
    ((GetAffectedRootModules scenarioAnalyzer scenarioFS
        ["common/main.tf".toList, "auth/main.tf".toList] ["env/*/*".toList]).1.get
          "env/dev/api".toList).Nodup :=
  ⟨by decide!, (C4_cause_lists_amended scenarioAnalyzer scenarioFS
      ["common/main.tf".toList, "auth/main.tf".toList] ["env/*/*".toList]
      "env/dev/api".toList).1 (by decide!)⟩

/-! ## The path classifier -/

theorem filepath.length_splitSep (s : GoString) :
    (filepath.splitSep s).length = strings.Count s Separator + 1 := by
  induction s with
  | nil => simp [filepath.splitSep, strings.Count]
  | cons c cs ih =>
    unfold filepath.splitSep
    by_cases hc : c = Separator
    · subst hc
      simp only [if_true, List.length_cons, ih, strings.Count, List.count_cons_self]
    · simp only [hc, if_false]
      have hcount : strings.Count (c :: cs) Separator = strings.Count cs Separator := by
        simp only [strings.Count]
        rw [List.count_cons_of_ne (Ne.symm hc)]
      rw [hcount, ← ih]
      cases h : filepath.splitSep cs with
      | nil => rw [h] at ih; simp at ih
      | cons seg segs => simp

theorem HasPrefix_cons (c d : Char) (s pre : GoString) :
    strings.HasPrefix (c :: s) (d :: pre) = (decide (d = c) && strings.HasPrefix s pre) := by
  by_cases h : d = c <;> simp [strings.HasPrefix, List.isPrefixOf, h]

theorem HasPrefix_nil_right (s : GoString) : strings.HasPrefix s [] = true := by
  simp [strings.HasPrefix]

theorem HasPrefix_nil_left (d : Char) (pre : GoString) :
    strings.HasPrefix [] (d :: pre) = false := by
  simp [strings.HasPrefix, List.isPrefixOf]

theorem HasPrefix_append (pre rest : GoString) : strings.HasPrefix (pre ++ rest) pre = true := by
  simp [strings.HasPrefix]

/-- A reference that starts with a remote marker is not local. -/
theorem isLocalPath_marker (marker rest : GoString) (h : marker ∈ nonLocalPrefixes) :
    isLocalPath (marker ++ rest) = false := by
  unfold isLocalPath
  have : nonLocalPrefixes.any (fun pre => strings.HasPrefix (marker ++ rest) pre) = true :=
    List.any_eq_true.2 ⟨marker, h, HasPrefix_append marker rest⟩
  simp [this]

/-- A reference with two separators and no path prefix is not local. -/
theorem isLocalPath_registry (source : GoString) (hc : strings.Count source Separator ≥ 2)
    (h1 : strings.HasPrefix source ['.', '/'] = false)
    (h2 : strings.HasPrefix source ['.', '.', '/'] = false)
    (h3 : strings.HasPrefix source ['/'] = false) : isLocalPath source = false := by
  unfold isLocalPath
  simp [h1, h2, h3, hc]

/-- A reference that starts with a dot is local unless the registry test rejects
it: no remote marker starts with a dot. -/
theorem isLocalPath_dot (rest : GoString)
    (h : strings.HasPrefix ('.' :: rest) ['.', '/'] = true ∨
      strings.HasPrefix ('.' :: rest) ['.', '.', '/'] = true) :
    isLocalPath ('.' :: rest) = true := by
  unfold isLocalPath
  have hm : nonLocalPrefixes.any (fun pre => strings.HasPrefix ('.' :: rest) pre) = false := by
    simp [nonLocalPrefixes, HasPrefix_cons]
  rw [hm]
  rcases h with h | h <;> simp [h]

/-- The claim of C5 fails at `modules/vpc`: two segments, no path prefix, and
the reference is Local and resolves to a path. -/
theorem C5_two_segments_local :
    (filepath.splitSep "modules/vpc".toList).length ≥ 2 ∧
    strings.HasPrefix "modules/vpc".toList "./".toList = false ∧
    strings.HasPrefix "modules/vpc".toList "../".toList = false ∧
    strings.HasPrefix "modules/vpc".toList "/".toList = false ∧
    isLocalPath "modules/vpc".toList = true ∧
    ResolveModuleSource "/r/env".toList "modules/vpc".toList =
      .ok "/r/env/modules/vpc".toList := by
  decide

/-- C5 (amended): a reference with three or more separator-delimited segments
that does not begin with `./`, `../` or `/` is Remote and `ResolveModuleSource`
produces no local path for it; a reference with at most two segments is Local
unless it begins with a remote marker. -/
theorem C5_registry_shape_amended (source : GoString) :
    ((filepath.splitSep source).length ≥ 3 →
      strings.HasPrefix source "./".toList = false →
      strings.HasPrefix source "../".toList = false →
      strings.HasPrefix source "/".toList = false →
      isLocalPath source = false ∧
        ∀ callerDir, ResolveModuleSource callerDir source = .ok []) ∧
    ((filepath.splitSep source).length ≤ 2 →
      (∀ marker, marker ∈ nonLocalPrefixes → strings.HasPrefix source marker = false) →
      isLocalPath source = true) := by
  constructor
  · intro hlen h1 h2 h3
    rw [filepath.length_splitSep] at hlen
    have hl : isLocalPath source = false :=
      isLocalPath_registry source (by omega) h1 h2 h3
    exact ⟨hl, fun callerDir => by simp [ResolveModuleSource, hl]⟩
  · intro hlen hm
    rw [filepath.length_splitSep] at hlen
    unfold isLocalPath
    have hany : nonLocalPrefixes.any (fun pre => strings.HasPrefix source pre) = false := by
      rw [List.any_eq_false]
      intro x hx
      simp [hm x hx]
    have hc : ¬ (strings.Count source '/' ≥ 2) := by
      have : strings.Count source Separator ≤ 1 := by omega
      show ¬ (strings.Count source Separator ≥ 2)
      omega
    simp [hany, hc]

/-- C5 (amended), at `org/name/provider` and at `modules/vpc`. -/
theorem C5_registry_shape_amended_witness :
    (isLocalPath "org/name/provider".toList = false ∧
      ∀ callerDir, ResolveModuleSource callerDir "org/name/provider".toList = .ok []) ∧
    isLocalPath "modules/vpc".toList = true :=
  ⟨(C5_registry_shape_amended "org/name/provider".toList).1 (by decide) (by decide) (by decide)
      (by decide),
    (C5_registry_shape_amended "modules/vpc".toList).2 (by decide) (by decide)⟩

/-- C6: a reference that begins with one of the remote markers `git::`,
`github.com/`, `bitbucket.org/`, `http://`, `https://`, `s3::`, `gcs::` is
Remote whatever follows; a reference with at least two `/` that does not begin
with `./`, `../` or `/` is Remote; a reference that begins with `./` or `../` is
Local. -/
theorem C6_markers_and_relative_prefixes :
    (∀ marker rest : GoString,
      marker ∈ ["git::".toList, "github.com/".toList, "bitbucket.org/".toList,
        "http://".toList, "https://".toList, "s3::".toList, "gcs::".toList] →
      isLocalPath (marker ++ rest) = false) ∧
    (∀ source : GoString, strings.Count source '/' ≥ 2 →
      strings.HasPrefix source "./".toList = false →
      strings.HasPrefix source "../".toList = false →
      strings.HasPrefix source "/".toList = false →
      isLocalPath source = false) ∧
    (∀ rest : GoString, isLocalPath ("./".toList ++ rest) = true) ∧
    (∀ rest : GoString, isLocalPath ("../".toList ++ rest) = true) := by
  refine ⟨?_, ?_, ?_, ?_⟩
  · intro marker rest hm
    exact isLocalPath_marker marker rest hm
  · intro source hc h1 h2 h3
    exact isLocalPath_registry source hc h1 h2 h3
  · intro rest
    exact isLocalPath_dot _ (Or.inl (by simp [HasPrefix_cons, HasPrefix_nil_right]))
  · intro rest
    exact isLocalPath_dot _ (Or.inr (by simp [HasPrefix_cons, HasPrefix_nil_right]))

/-- C6 at the references of the scenario: `git::https://example.com/mod.git` is
Remote, `./sibling` and `../parent/mod` are Local, `org/name/provider` is Remote. -/
theorem C6_markers_and_relative_prefixes_witness :
    isLocalPath "git::https://example.com/mod.git".toList = false ∧
    isLocalPath "org/name/provider".toList = false ∧
    isLocalPath "./sibling".toList = true ∧
    isLocalPath "../parent/mod".toList = true :=
  ⟨C6_markers_and_relative_prefixes.1 "git::".toList "https://example.com/mod.git".toList
      (by decide),
    C6_markers_and_relative_prefixes.2.1 "org/name/provider".toList (by decide) (by decide)
      (by decide) (by decide),
    C6_markers_and_relative_prefixes.2.2.1 "sibling".toList,
    C6_markers_and_relative_prefixes.2.2.2 "parent/mod".toList⟩

/-! ## Root patterns: `filepath.Match` on star patterns -/

/-- Once the match has failed, a chunk of plain characters gives no match,
whatever is left of the name. -/
theorem filepath.matchChunkLoop_literal_failed :
    ∀ (chunk : GoString), (∀ c, c ∈ chunk → c ≠ '[' ∧ c ≠ '?' ∧ c ≠ '\\') →
      ∀ (fuel : Nat) (s : filepath.NameRest), chunk.length ≤ fuel →
        filepath.matchChunkLoop fuel chunk s true = some (.ok none) := by
  intro chunk
  induction chunk with
  | nil =>
    intro _ fuel s _
    cases fuel <;> simp [filepath.matchChunkLoop]
  | cons c chunk ih =>
    intro hlit fuel s hfuel
    have hc := hlit c (List.mem_cons_self _ _)
    have hrest : ∀ d, d ∈ chunk → d ≠ '[' ∧ d ≠ '?' ∧ d ≠ '\\' :=
      fun d hd => hlit d (List.mem_cons_of_mem _ hd)
    cases fuel with
    | zero => simp at hfuel
    | succ fuel =>
      have hf : chunk.length ≤ fuel := by simpa using hfuel
      unfold filepath.matchChunkLoop
      simp only [hc.1, hc.2.1, hc.2.2, if_false, Bool.true_or, Bool.not_true, Bool.false_eq_true]
      exact ih hrest fuel s hf

/-- A chunk of plain characters matches the strings it is a prefix of. -/
theorem filepath.matchChunkLoop_literal :
    ∀ (chunk : GoString), (∀ c, c ∈ chunk → c ≠ '[' ∧ c ≠ '?' ∧ c ≠ '\\') →
      ∀ (fuel : Nat) (s : GoString) (failed : Bool), chunk.length ≤ fuel →
        filepath.matchChunkLoop fuel chunk { cont := 0, chars := s } failed =
          some (.ok (if failed = false ∧ chunk.isPrefixOf s = true
            then some { cont := 0, chars := s.drop chunk.length } else none)) := by
  intro chunk
  induction chunk with
  | nil =>
    intro _ fuel s failed _
    cases fuel <;> cases failed <;> simp [filepath.matchChunkLoop]
  | cons c chunk ih =>
    intro hlit fuel s failed hfuel
    have hc := hlit c (List.mem_cons_self _ _)
    have hrest : ∀ d, d ∈ chunk → d ≠ '[' ∧ d ≠ '?' ∧ d ≠ '\\' :=
      fun d hd => hlit d (List.mem_cons_of_mem _ hd)
    cases fuel with
    | zero => simp at hfuel
    | succ fuel =>
      have hf : chunk.length ≤ fuel := by simpa using hfuel
      unfold filepath.matchChunkLoop
      simp only [hc.1, hc.2.1, hc.2.2, if_false]
      cases failed with
      | true =>
        simp only [Bool.true_or, Bool.not_true, Bool.false_eq_true, if_false]
        rw [ih hrest fuel s true hf]
        simp
      | false =>
        cases s with
        | nil =>
          simp only [filepath.NameRest.isEmpty, List.isEmpty_nil, beq_self_eq_true, Bool.and_self,
            Bool.or_true, Bool.not_true, Bool.false_eq_true, if_false]
          rw [ih hrest fuel [] true hf]
          simp [List.isPrefixOf]
        | cons d s =>
          simp only [filepath.NameRest.isEmpty, List.isEmpty_cons, Bool.and_false, Bool.or_false,
            Bool.not_false, if_true, filepath.NameRest.decode, List.tail_cons,
            filepath.NameRest.startsWith, List.head?_cons, beq_self_eq_true, Bool.true_and]
          rw [ih hrest fuel s _ hf]
          by_cases hdc : c = d
          · subst hdc
            simp [List.isPrefixOf]
          · have : ¬ d = c := fun h => hdc h.symm
            simp [List.isPrefixOf, hdc, this]

theorem filepath.matchChunk_literal (chunk s : GoString)
    (hlit : ∀ c, c ∈ chunk → c ≠ '[' ∧ c ≠ '?' ∧ c ≠ '\\') :
    filepath.matchChunk chunk { cont := 0, chars := s } =
      .ok (if chunk.isPrefixOf s = true
        then some { cont := 0, chars := s.drop chunk.length } else none) := by
  unfold filepath.matchChunk
  rw [filepath.matchChunkLoop_literal chunk hlit chunk.length s false (Nat.le_refl _)]
  simp

/-- A chunk that begins with a plain character does not match inside a
character: a continuation byte is not the first byte of a character. -/
theorem filepath.matchChunk_literal_cont (c : Char) (chunk : GoString) (k : Nat) (s : GoString)
    (hlit : ∀ d, d ∈ c :: chunk → d ≠ '[' ∧ d ≠ '?' ∧ d ≠ '\\') :
    filepath.matchChunk (c :: chunk) { cont := k + 1, chars := s } = .ok none := by
  have hc := hlit c (List.mem_cons_self _ _)
  have hrest : ∀ d, d ∈ chunk → d ≠ '[' ∧ d ≠ '?' ∧ d ≠ '\\' :=
    fun d hd => hlit d (List.mem_cons_of_mem _ hd)
  unfold filepath.matchChunk
  rw [List.length_cons]
  unfold filepath.matchChunkLoop
  simp only [hc.1, hc.2.1, hc.2.2, if_false, filepath.NameRest.isEmpty,
    filepath.NameRest.startsWith, Bool.false_or]
  have h0 : (k + 1 == 0) = false := by simp
  simp only [h0, Bool.false_and, Bool.not_false, if_true]
  rw [filepath.matchChunkLoop_literal_failed chunk hrest chunk.length _ (Nat.le_refl _)]

theorem filepath.matchChunk_sep (s : GoString) :
    filepath.matchChunk [Separator] { cont := 0, chars := s } =
      .ok (if s.head? = some Separator then some { cont := 0, chars := s.tail } else none) := by
  rw [filepath.matchChunk_literal [Separator] s
    (by intro c hc; rw [List.mem_singleton] at hc; subst hc; decide)]
  cases s with
  | nil => simp [List.isPrefixOf]
  | cons d s =>
    by_cases h : d = Separator
    · subst h; simp [List.isPrefixOf]
    · have : ¬ Separator = d := fun h' => h h'.symm
      simp [List.isPrefixOf, h, this]

theorem filepath.RuneLen_pos (c : Char) : ∃ k, utf8.RuneLen c = k + 1 := by
  unfold utf8.RuneLen
  split
  · exact ⟨0, rfl⟩
  · split
    · exact ⟨1, rfl⟩
    · split
      · exact ⟨2, rfl⟩
      · exact ⟨3, rfl⟩

/-- The bytes of one character skipped in front of a chunk that begins with a
plain character: only the part after the whole character is tried with a
chance. -/
theorem filepath.starBytes_literal (c : Char) (chunk : GoString) (last : Bool) (s : GoString)
    (hlit : ∀ d, d ∈ c :: chunk → d ≠ '[' ∧ d ≠ '?' ∧ d ≠ '\\') :
    ∀ (k : Nat), filepath.starBytes (c :: chunk) last s (k + 1) =
      filepath.starTry (c :: chunk) last { cont := 0, chars := s } := by
  intro k
  induction k with
  | zero =>
    rw [filepath.starBytes]
    cases filepath.starTry (c :: chunk) last { cont := 0, chars := s } with
    | none => rfl
    | some r => rfl
  | succ k ih =>
    rw [filepath.starBytes]
    have h : filepath.starTry (c :: chunk) last { cont := k + 1, chars := s } = none := by
      unfold filepath.starTry
      rw [filepath.matchChunk_literal_cont c chunk k s hlit]
    rw [h]
    exact ih

/-- The star loop in front of the chunk `/`: it finds the first separator. -/
theorem filepath.starLoop_sep :
    ∀ (name : GoString), name.head? ≠ some Separator →
      filepath.starLoop [Separator] false { cont := 0, chars := name } =
        match afterSep name with
        | some t => filepath.StarResult.found { cont := 0, chars := t }
        | none => filepath.StarResult.exhausted := by
  have hlit : ∀ d, d ∈ [Separator] → d ≠ '[' ∧ d ≠ '?' ∧ d ≠ '\\' := by
    intro c hc
    rw [List.mem_singleton] at hc
    subst hc
    decide
  have hchars : ∀ (name : GoString), name.head? ≠ some Separator →
      filepath.starChars [Separator] false name =
        match afterSep name with
        | some t => filepath.StarResult.found { cont := 0, chars := t }
        | none => filepath.StarResult.exhausted := by
    intro name
    induction name with
    | nil => intro _; simp [filepath.starChars, afterSep]
    | cons c name ih =>
      intro hc
      have hc' : c ≠ Separator := by simpa using hc
      obtain ⟨k, hk⟩ := filepath.RuneLen_pos c
      unfold filepath.starChars
      simp only [hc', if_false, afterSep]
      rw [hk, filepath.starBytes_literal Separator [] false name hlit k, filepath.starTry,
        filepath.matchChunk_sep]
      by_cases hn : name.head? = some Separator
      · cases name with
        | nil => simp at hn
        | cons d name =>
          have hd : d = Separator := by simpa using hn
          subst hd
          simp [afterSep]
      · simp only [hn, if_false]
        exact ih hn
  intro name hn
  unfold filepath.starLoop
  simp only [filepath.starBytes]
  exact hchars name hn

theorem afterSep_of_head (name : GoString) (h : name.head? = some Separator) :
    afterSep name = some name.tail := by
  cases name with
  | nil => simp at h
  | cons d name =>
    have hd : d = Separator := by simpa using h
    subst hd
    simp [afterSep]

/-- `Match` on a pattern whose chunks are a starred `/` and a final star, as
`*/*` and `**/*`: it accepts the names with exactly one separator. -/
theorem filepath.matchLoop_sep_star (c : Char) (p name : GoString) (fuel : Nat)
    (hsc : filepath.scanChunk (c :: p) = (true, [Separator], ['*'])) :
    filepath.matchLoop (fuel + 2) (c :: p) { cont := 0, chars := name } =
      some (.ok (oneSep name)) := by
  have hstar : ∀ t, filepath.matchLoop (fuel + 1) ['*'] { cont := 0, chars := t } =
      some (.ok (!strings.Contains t Separator)) := by
    intro t
    have h1 : filepath.scanChunk ['*'] = (true, [], []) := by decide
    simp [filepath.matchLoop, h1]
  rw [filepath.matchLoop]
  simp only [hsc, List.isEmpty_cons, Bool.and_false, Bool.false_eq_true, if_false,
    Bool.not_false, Bool.or_true, if_true]
  rw [filepath.matchChunk_sep]
  by_cases hn : name.head? = some Separator
  · simp only [hn, if_true]
    rw [hstar, oneSep, afterSep_of_head name hn]
  · simp only [hn, if_false]
    rw [filepath.starLoop_sep name hn, oneSep]
    cases afterSep name with
    | none => rfl
    | some t => simp only [hstar]
  · intro h
    cases h

theorem count_afterSep_none :
    ∀ (name : GoString), afterSep name = none → strings.Count name Separator = 0 := by
  intro name
  induction name with
  | nil => intro _; simp [strings.Count]
  | cons c name ih =>
    intro h
    unfold afterSep at h
    by_cases hc : c = Separator
    · simp [hc] at h
    · simp only [hc, if_false] at h
      have := ih h
      simp only [strings.Count] at this ⊢
      rw [List.count_cons_of_ne (Ne.symm hc)]
      exact this

theorem count_afterSep_some :
    ∀ (name t : GoString), afterSep name = some t →
      strings.Count name Separator = strings.Count t Separator + 1 := by
  intro name
  induction name with
  | nil => intro t h; simp [afterSep] at h
  | cons c name ih =>
    intro t h
    unfold afterSep at h
    by_cases hc : c = Separator
    · simp only [hc, if_true, Option.some.injEq] at h
      subst h
      subst hc
      simp [strings.Count]
    · simp only [hc, if_false] at h
      have := ih t h
      simp only [strings.Count] at this ⊢
      rw [List.count_cons_of_ne (Ne.symm hc)]
      exact this

theorem Contains_eq_false_iff (s : GoString) (c : Char) :
    strings.Contains s c = false ↔ strings.Count s c = 0 := by
  simp [strings.Contains, strings.Count, List.count_eq_zero]

/-- A name has exactly one separator iff it has two elements. -/
theorem oneSep_iff (name : GoString) :
    oneSep name = true ↔ (filepath.splitSep name).length = 2 := by
  rw [filepath.length_splitSep, oneSep]
  cases h : afterSep name with
  | none =>
    have := count_afterSep_none name h
    simp only [Bool.false_eq_true, false_iff]
    omega
  | some t =>
    have := count_afterSep_some name t h
    dsimp only
    rw [Bool.not_eq_true', Contains_eq_false_iff]
    constructor <;> intro h' <;> omega

theorem isRootModule_single (m p : GoString) (b : Bool) (h : filepath.Match p m = .ok b) :
    isRootModule m [p] = b := by
  simp [isRootModule, h]

theorem filepath.Match_doubled_star (m : GoString) :
    filepath.Match "**/*".toList m = .ok (oneSep m) := by
  unfold filepath.Match
  rw [show "**/*".toList.length = 2 + 2 from rfl, show "**/*".toList = '*' :: "*/*".toList from rfl,
    filepath.matchLoop_sep_star _ _ _ _ (by decide)]

theorem filepath.Match_star_sep_star (m : GoString) :
    filepath.Match "*/*".toList m = .ok (oneSep m) := by
  unfold filepath.Match
  rw [show "*/*".toList.length = 1 + 2 from rfl, show "*/*".toList = '*' :: "/*".toList from rfl,
    filepath.matchLoop_sep_star _ _ _ _ (by decide)]

theorem filepath.Match_star (m : GoString) :
    filepath.Match "*".toList m = .ok (!strings.Contains m Separator) := by
  unfold filepath.Match
  rw [show "*".toList.length = 0 + 1 from rfl, show "*".toList = ['*'] from rfl,
    filepath.matchLoop]
  · have h1 : filepath.scanChunk ['*'] = (true, [], []) := by decide
    simp [h1]
  · intro h
    cases h

/-- The claim of C9 fails at `stacks/shared/vpc`: the pattern `**/*` is valid and
does not match the three-segment identifier. -/
theorem C9_doubled_star_no_match :
    filepath.Match "**/*".toList "stacks/shared/vpc".toList = .ok false ∧
    isRootModule "stacks/shared/vpc".toList ["**/*".toList] = false := by
  decide!

/-- C9 (amended): a doubled star in a root pattern matches like a single star,
inside one path segment: for every module identifier `**/*` matches exactly when
`*/*` does, which is when the identifier has exactly two segments (so it matches
`utils/common` and not the three-segment `stacks/shared/vpc`), while a single
`*` matches exactly the identifiers of one segment. -/
theorem C9_doubled_star_amended (m : GoString) :
    isRootModule m ["**/*".toList] = isRootModule m ["*/*".toList] ∧
    (isRootModule m ["**/*".toList] = true ↔ (filepath.splitSep m).length = 2) ∧
    (isRootModule m ["*".toList] = true ↔ (filepath.splitSep m).length = 1) ∧
    isRootModule "utils/common".toList ["**/*".toList] = true ∧
    isRootModule "stacks/shared/vpc".toList ["**/*".toList] = false := by
  refine ⟨?_, ?_, ?_, by decide!, by decide!⟩
  · rw [isRootModule_single m _ _ (filepath.Match_doubled_star m),
      isRootModule_single m _ _ (filepath.Match_star_sep_star m)]
  · rw [isRootModule_single m _ _ (filepath.Match_doubled_star m)]
    exact oneSep_iff m
  · rw [isRootModule_single m _ _ (filepath.Match_star m), filepath.length_splitSep,
      Bool.not_eq_true', Contains_eq_false_iff]
    constructor <;> intro h <;> omega

theorem filepath.splitSep_ne_nil (s : GoString) : filepath.splitSep s ≠ [] := by
  intro h
  have := filepath.length_splitSep s
  rw [h] at this
  simp at this

/-- The elements of `s/t` for a separator-free `s`: `s`, then the elements of `t`. -/
theorem filepath.splitSep_append_sep :
    ∀ (s t : GoString), Separator ∉ s →
      filepath.splitSep (s ++ Separator :: t) = s :: filepath.splitSep t := by
  intro s
  induction s with
  | nil => intro t _; simp [filepath.splitSep]
  | cons c s ih =>
    intro t hs
    have hc : c ≠ Separator := fun h => hs (h ▸ List.mem_cons_self _ _)
    have hs' : Separator ∉ s := fun h => hs (List.mem_cons_of_mem _ h)
    rw [List.cons_append, filepath.splitSep]
    simp only [hc, if_false, ih t hs']

theorem filepath.Match_environments (m : GoString) :
    filepath.Match "environments/*/*".toList m =
      .ok ("environments/".toList.isPrefixOf m && oneSep (m.drop 13)) := by
  unfold filepath.Match
  rw [show "environments/*/*".toList.length = 15 + 1 from rfl,
    show "environments/*/*".toList = 'e' :: "nvironments/*/*".toList from rfl,
    filepath.matchLoop]
  · have h1 : filepath.scanChunk ('e' :: "nvironments/*/*".toList) =
        (false, "environments/".toList, "*/*".toList) := by decide
    have hlit : ∀ c, c ∈ "environments/".toList → c ≠ '[' ∧ c ≠ '?' ∧ c ≠ '\\' := by decide
    simp only [h1, Bool.false_and, Bool.false_eq_true, if_false]
    rw [filepath.matchChunk_literal _ m hlit]
    by_cases hp : "environments/".toList.isPrefixOf m = true
    · simp only [hp, if_true, Bool.true_and]
      have hnil : ("*/*".toList).isEmpty = false := rfl
      simp only [hnil, Bool.not_false, Bool.or_true, if_true]
      rw [show "environments/".toList.length = 13 from rfl, show (15 : Nat) = 13 + 2 from rfl,
        show "*/*".toList = '*' :: "/*".toList from rfl,
        filepath.matchLoop_sep_star _ _ _ _ (by decide)]
    · simp only [hp, if_false, Bool.false_and, Bool.false_eq_true]
  · intro h
    cases h

/-- The graph and the filesystem of `testdata/terraform-complex`: the roots
affected by a change in `utils/common` under the pattern `**/*`. -/
theorem complex_affected_roots :
    (GetAffectedRootModules complexAnalyzer complexFS ["utils/common/main.tf".toList]
        ["**/*".toList]).1.keys =
      ["utils/common".toList, "apps/web-service".toList, "shared-components/logging".toList,
        "team-a/project-x".toList] := by
  decide!

/-- C10: a star in a root pattern never matches a path separator. For every
module identifier `m`, `isRootModule(m, ["environments/*/*"])` is true only if
`m` has exactly three `/`-separated segments and the first is `environments`;
`environments/dev/api` matches and `modules/auth` does not; and with the
pattern `**/*` the affected roots of a change in `utils/common` are exactly
`utils/common`, `shared-components/logging`, `apps/web-service` and
`team-a/project-x`, although `stacks/shared/vpc` and `.` are affected modules. -/
theorem C10_star_stops_at_separator :
    (∀ m : GoString, isRootModule m ["environments/*/*".toList] = true →
      (filepath.splitSep m).length = 3 ∧
        (filepath.splitSep m).head? = some "environments".toList) ∧
    isRootModule "environments/dev/api".toList ["environments/*/*".toList] = true ∧
    isRootModule "modules/auth".toList ["environments/*/*".toList] = false ∧
    (∀ r : GoString,
      r ∈ (GetAffectedRootModules complexAnalyzer complexFS ["utils/common/main.tf".toList]
          ["**/*".toList]).1.keys ↔
        r ∈ ["utils/common".toList, "shared-components/logging".toList,
          "apps/web-service".toList, "team-a/project-x".toList]) ∧
    "stacks/shared/vpc".toList ∈ GetAffectedModules complexGraph "utils/common".toList ∧
    ".".toList ∈ GetAffectedModules complexGraph "utils/common".toList := by
  refine ⟨?_, by decide!, by decide!, ?_, by decide!, by decide!⟩
  · intro m hm
    rw [isRootModule_single m _ _ (filepath.Match_environments m), Bool.and_eq_true] at hm
    obtain ⟨hp, ho⟩ := hm
    have hlen := (oneSep_iff _).1 ho
    obtain ⟨t, ht⟩ := List.isPrefixOf_iff_prefix.1 hp
    have hdrop : m.drop 13 = t := by
      rw [← ht]
      exact List.drop_left' rfl
    rw [hdrop] at hlen
    have hsplit : filepath.splitSep m = "environments".toList :: filepath.splitSep t := by
      rw [← ht]
      exact filepath.splitSep_append_sep "environments".toList t (by decide)
    rw [hsplit]
    simp [hlen]
  · intro r
    rw [complex_affected_roots]
    simp only [List.mem_cons, List.mem_singleton, List.not_mem_nil, or_false]
    tauto

/-- C10 at `environments/dev/api`. -/
theorem C10_star_stops_at_separator_witness :
    isRootModule "environments/dev/api".toList ["environments/*/*".toList] = true ∧
    (filepath.splitSep "environments/dev/api".toList).length = 3 ∧
    (filepath.splitSep "environments/dev/api".toList).head? = some "environments".toList :=
  ⟨by decide!, C10_star_stops_at_separator.1 "environments/dev/api".toList (by decide!)⟩

/-! ## The boundary finder -/

theorem pathBody_append (xs ys : List GoString) :
    pathBody (xs ++ ys) = pathBody xs ++ pathBody ys := by
  simp [pathBody, List.flatMap_append]

theorem pathBody_singleton (s : GoString) : pathBody [s] = Separator :: s := by
  simp [pathBody, List.flatMap]

theorem pathBody_cons (s : GoString) (segs : List GoString) :
    pathBody (s :: segs) = Separator :: (s ++ pathBody segs) := by
  simp [pathBody, List.flatMap_cons]

theorem absPath_snoc (segs : List GoString) (s : GoString) :
    absPath (segs ++ [s]) = pathBody segs ++ Separator :: s := by
  unfold absPath
  simp [pathBody_append, pathBody_singleton]

theorem dropWhile_append_of_all (p : Char → Bool) :
    ∀ (l r : GoString), (∀ c, c ∈ l → p c = true) → (l ++ r).dropWhile p = r.dropWhile p := by
  intro l
  induction l with
  | nil => intro r _; rfl
  | cons c l ih =>
    intro r h
    rw [List.cons_append, List.dropWhile_cons, h c (List.mem_cons_self _ _)]
    exact ih r (fun d hd => h d (List.mem_cons_of_mem _ hd))

/-- The part of `x/s` up to its last separator, for a separator-free `s`. -/
theorem filepath.dirPart_append_sep (x s : GoString) (hs : Separator ∉ s) :
    filepath.dirPart (x ++ Separator :: s) = x ++ [Separator] := by
  unfold filepath.dirPart
  rw [List.reverse_append, List.reverse_cons, List.append_assoc,
    dropWhile_append_of_all _ s.reverse]
  · simp
  · intro c hc
    have hc' : c ∈ s := List.mem_reverse.1 hc
    have : c ≠ Separator := fun h => hs (h ▸ hc')
    simp [this]

/-- The elements of `s₁/s₂/.../sₙ/t`. -/
theorem filepath.splitSep_flatMap (t : GoString) :
    ∀ (segs : List GoString), (∀ s, s ∈ segs → Separator ∉ s) →
      filepath.splitSep (segs.flatMap (fun s => s ++ [Separator]) ++ t) =
        segs ++ filepath.splitSep t := by
  intro segs
  induction segs with
  | nil => intro _; rfl
  | cons s segs ih =>
    intro h
    rw [List.flatMap_cons, List.append_assoc, List.append_assoc, List.singleton_append,
      filepath.splitSep_append_sep s _ (h s (List.mem_cons_self _ _)),
      ih (fun x hx => h x (List.mem_cons_of_mem _ hx))]
    rfl

theorem pathBody_append_sep (segs : List GoString) :
    pathBody segs ++ [Separator] = Separator :: segs.flatMap (fun s => s ++ [Separator]) := by
  induction segs with
  | nil => rfl
  | cons s segs ih =>
    rw [pathBody_cons, List.flatMap_cons, List.cons_append, List.append_assoc, ih]
    simp

/-- Real path elements are pushed onto the buffer of `Clean`. -/
theorem filepath.foldl_cleanStep_names (rooted : Bool) :
    ∀ (names : List GoString) (b : filepath.CleanBuf), (∀ s, s ∈ names → validName s) →
      names.foldl (filepath.cleanStep rooted) b =
        { out := names.reverse ++ b.out, dotdot := b.dotdot } := by
  intro names
  induction names with
  | nil => intro b _; rfl
  | cons s names ih =>
    intro b h
    obtain ⟨h1, _, h3, h4⟩ := h s (List.mem_cons_self _ _)
    rw [List.foldl_cons, ih _ (fun x hx => h x (List.mem_cons_of_mem _ hx))]
    simp [filepath.cleanStep, h1, h3, h4]

theorem intercalate_sep_cons (s : GoString) (segs : List GoString) (h : segs ≠ []) :
    [Separator].intercalate (s :: segs) = s ++ Separator :: [Separator].intercalate segs := by
  cases segs with
  | nil => exact absurd rfl h
  | cons s' segs => simp [List.intercalate, List.intersperse]

theorem sep_cons_intercalate :
    ∀ (segs : List GoString), segs ≠ [] →
      Separator :: [Separator].intercalate segs = pathBody segs := by
  intro segs
  induction segs with
  | nil => intro h; exact absurd rfl h
  | cons s segs ih =>
    intro _
    rw [pathBody_cons]
    by_cases hs : segs = []
    · subst hs
      simp [List.intercalate, pathBody]
    · rw [intercalate_sep_cons s segs hs, ih hs]

/-- A clean absolute path followed by a separator is cleaned to the path. -/
theorem filepath.Clean_pathBody_sep (segs : List GoString) (h : ∀ s, s ∈ segs → validName s) :
    filepath.Clean (pathBody segs ++ [Separator]) = absPath segs := by
  have hsplit : filepath.splitSep (pathBody segs ++ [Separator]) = [] :: (segs ++ [[]]) := by
    rw [pathBody_append_sep, filepath.splitSep]
    simp only [if_true]
    have := filepath.splitSep_flatMap [] segs (fun s hs => (h s hs).2.1)
    rw [List.append_nil] at this
    rw [this]
    rfl
  have hne : pathBody segs ++ [Separator] ≠ [] := by simp
  have hhead : (pathBody segs ++ [Separator]).head? = some Separator := by
    rw [pathBody_append_sep]; rfl
  unfold filepath.Clean
  simp only [hne, if_false, hsplit, hhead, decide_True, if_true, List.foldl_cons,
    List.foldl_append, List.foldl_nil]
  have hstep : ∀ b, filepath.cleanStep true b [] = b := by
    intro b; simp [filepath.cleanStep]
  rw [hstep, filepath.foldl_cleanStep_names true segs _ h, hstep]
  simp only [List.append_nil, List.reverse_reverse]
  unfold absPath
  by_cases hs : segs = []
  · subst hs
    simp [List.intercalate]
  · simp only [hs, if_false]
    exact sep_cons_intercalate segs hs

/-- The parent directory of `/s₁/.../sₙ/s` is `/s₁/.../sₙ`. -/
theorem filepath.Dir_absPath_snoc (segs : List GoString) (s : GoString)
    (h : ∀ x, x ∈ segs → validName x) (hs : validName s) :
    filepath.Dir (absPath (segs ++ [s])) = absPath segs := by
  unfold filepath.Dir
  rw [absPath_snoc, filepath.dirPart_append_sep _ _ hs.2.1, filepath.Clean_pathBody_sep segs h]

theorem absPath_head (segs : List GoString) : ∃ t, absPath segs = Separator :: t := by
  unfold absPath
  cases segs with
  | nil => exact ⟨[], rfl⟩
  | cons s segs => exact ⟨s ++ pathBody segs, by simp [pathBody_cons]⟩

theorem absPath_ne_nil (segs : List GoString) : absPath segs ≠ [] := by
  obtain ⟨t, ht⟩ := absPath_head segs
  rw [ht]
  exact List.cons_ne_nil _ _

theorem filepath.IsAbs_absPath (segs : List GoString) :
    filepath.IsAbs (absPath segs) = true := by
  obtain ⟨t, ht⟩ := absPath_head segs
  rw [ht]
  simp [filepath.IsAbs, HasPrefix_cons, HasPrefix_nil_right]

theorem length_absPath_snoc (segs : List GoString) (s : GoString) (hs : s ≠ []) :
    (absPath segs).length < (absPath (segs ++ [s])).length := by
  rw [absPath_snoc]
  have hpos : 0 < s.length := List.length_pos.2 hs
  unfold absPath
  by_cases h : segs = []
  · subst h
    simp only [if_true, pathBody, List.flatMap_nil, List.nil_append, List.length_cons,
      List.length_nil]
    omega
  · simp only [h, if_false, List.length_append, List.length_cons]
    omega

theorem length_absPath_below (rs : List GoString) :
    ∀ (below : List GoString), (∀ s, s ∈ below → validName s) →
      (absPath rs).length ≤ (absPath (rs ++ below.reverse)).length := by
  intro below
  induction below with
  | nil => intro _; simp
  | cons s below ih =>
    intro h
    have h1 := ih (fun x hx => h x (List.mem_cons_of_mem _ hx))
    have h2 := length_absPath_snoc (rs ++ below.reverse) s (h s (List.mem_cons_self _ _)).1
    rw [List.reverse_cons, ← List.append_assoc]
    omega

theorem HasPrefix_absPath (rs more : List GoString) :
    strings.HasPrefix (absPath (rs ++ more)) (absPath rs) = true := by
  by_cases h : rs = []
  · subst h
    obtain ⟨t, ht⟩ := absPath_head ([] ++ more)
    rw [ht]
    simp [absPath, HasPrefix_cons, HasPrefix_nil_right]
  · have h' : rs ++ more ≠ [] := by simp [h]
    unfold absPath
    simp only [h, h', if_false, pathBody_append]
    exact HasPrefix_append _ _

/-- The walk of `FindParentWithTerraformFiles` from a directory inside the root:
with enough fuel it returns the first directory of the chain up to the root
that holds a `.tf` file, and the empty string if there is none. -/
theorem findParentLoop_chain (fs : FileSystem) (rs : List GoString)
    (hrs : ∀ s, s ∈ rs → validName s) :
    ∀ (below : List GoString) (fuel : Nat), below.length < fuel →
      (∀ s, s ∈ below → validName s) →
      (∀ d, d ∈ dirChainUp rs below → (fs.ReadDir d).isSome = true) →
      findParentLoop fs (absPath rs) fuel (absPath (rs ++ below.reverse)) =
        some (.ok (((dirChainUp rs below).find? (hasTf fs)).getD [])) := by
  intro below
  induction below with
  | nil =>
    intro fuel hfuel _ hread
    cases fuel with
    | zero => omega
    | succ fuel =>
      have hr := hread (absPath rs) (by simp [dirChainUp])
      simp only [List.reverse_nil, List.append_nil, dirChainUp]
      unfold findParentLoop
      cases hrd : fs.ReadDir (absPath rs) with
      | none => rw [hrd] at hr; simp at hr
      | some entries =>
        by_cases htf : hasTerraformEntry entries = true
        · simp [htf, hasTf, hrd, List.find?]
        · simp [htf, hasTf, hrd, List.find?]
  | cons s below ih =>
    intro fuel hfuel hvalid hread
    cases fuel with
    | zero => omega
    | succ fuel =>
      have hs := hvalid s (List.mem_cons_self _ _)
      have hbelow : ∀ x, x ∈ below → validName x := fun x hx => hvalid x (List.mem_cons_of_mem _ hx)
      have hsegs : ∀ x, x ∈ rs ++ below.reverse → validName x := by
        intro x hx
        rcases List.mem_append.1 hx with h | h
        · exact hrs x h
        · exact hbelow x (List.mem_reverse.1 h)
      have hcur : absPath (rs ++ (s :: below).reverse) = absPath ((rs ++ below.reverse) ++ [s]) := by
        rw [List.reverse_cons, List.append_assoc]
      have hr := hread (absPath (rs ++ (s :: below).reverse)) (by simp [dirChainUp])
      have hlen1 := length_absPath_snoc (rs ++ below.reverse) s hs.1
      have hlen2 := length_absPath_below rs below hbelow
      have hne_root : absPath ((rs ++ below.reverse) ++ [s]) ≠ absPath rs := by
        intro h
        rw [h] at hlen1
        omega
      have hne_parent : absPath (rs ++ below.reverse) ≠ absPath ((rs ++ below.reverse) ++ [s]) := by
        intro h
        rw [← h] at hlen1
        omega
      have hpre : strings.HasPrefix (absPath ((rs ++ below.reverse) ++ [s])) (absPath rs) = true := by
        rw [List.append_assoc]
        exact HasPrefix_absPath rs _
      have hdir := filepath.Dir_absPath_snoc (rs ++ below.reverse) s hsegs hs
      have hrec := ih fuel (by simp at hfuel; omega) hbelow
        (fun d hd => hread d (by simp [dirChainUp, hd]))
      simp only [dirChainUp]
      rw [hcur] at hr ⊢
      unfold findParentLoop
      cases hrd : fs.ReadDir (absPath ((rs ++ below.reverse) ++ [s])) with
      | none => rw [hrd] at hr; simp at hr
      | some entries =>
        have hhas : hasTf fs (absPath ((rs ++ below.reverse) ++ [s])) = hasTerraformEntry entries := by
          simp only [hasTf, hrd]
        by_cases htf : hasTerraformEntry entries = true
        · simp only [htf, if_true, List.find?_cons, hhas, Option.getD_some]
        · have htf' : hasTerraformEntry entries = false := by simpa using htf
          simp only [htf', Bool.false_eq_true, if_false, hne_root, hpre, decide_False,
            Bool.not_true, Bool.or_false, hdir, hne_parent, hrec, List.find?_cons, hhas]

theorem length_le_pathBody (segs : List GoString) : segs.length ≤ (pathBody segs).length := by
  induction segs with
  | nil => simp
  | cons s segs ih =>
    rw [pathBody_cons]
    simp only [List.length_cons, List.length_append]
    omega

theorem length_lt_findParentFuel (segs : List GoString) :
    segs.length < findParentFuel (absPath segs) := by
  have h := length_le_pathBody segs
  unfold findParentFuel absPath
  by_cases hs : segs = []
  · subst hs; simp
  · simp only [hs, if_false]
    omega

theorem mem_dirChainUp_ne_nil (rs : List GoString) :
    ∀ (below : List GoString) (d : GoString), d ∈ dirChainUp rs below → d ≠ [] := by
  intro below
  induction below with
  | nil =>
    intro d hd
    simp only [dirChainUp, List.mem_singleton] at hd
    rw [hd]
    exact absPath_ne_nil _
  | cons s below ih =>
    intro d hd
    simp only [dirChainUp, List.mem_cons] at hd
    rcases hd with h | h
    · rw [h]; exact absPath_ne_nil _
    · exact ih d h

/-- C7: over an abstract filesystem in which the directories of the chain can be
read, for an analysis root `/r₁/.../rₙ` and a start path inside it, either a
directory `root/s₁/.../sₖ` or a file `f` in that directory,
`FindParentWithTerraformFiles` returns without error the first directory, from
the start directory up to and including the root, that directly contains a `.tf`
file (the deepest such directory), and the empty string (none) exactly when no
directory of that chain contains one. -/
theorem C7_nearest_ancestor (fs : FileSystem) (rs ss : List GoString) (f : GoString)
    (hrs : ∀ s, s ∈ rs → validName s) (hss : ∀ s, s ∈ ss → validName s) (hf : validName f)
    (hread : ∀ d, d ∈ dirChain rs ss → (fs.ReadDir d).isSome = true) :
    (fs.Stat (absPath (rs ++ ss)) = some true →
      FindParentWithTerraformFiles fs (absPath (rs ++ ss)) (absPath rs) =
        .ok (((dirChain rs ss).find? (hasTf fs)).getD [])) ∧
    (fs.Stat (absPath ((rs ++ ss) ++ [f])) = some false →
      FindParentWithTerraformFiles fs (absPath ((rs ++ ss) ++ [f])) (absPath rs) =
        .ok (((dirChain rs ss).find? (hasTf fs)).getD [])) ∧
    (((dirChain rs ss).find? (hasTf fs)).getD [] = [] ↔
      ∀ d, d ∈ dirChain rs ss → hasTf fs d = false) ∧
    (∀ d, (dirChain rs ss).find? (hasTf fs) = some d →
      hasTf fs d = true ∧
        ∃ deeper above, dirChain rs ss = deeper ++ d :: above ∧
          ∀ x, x ∈ deeper → hasTf fs x = false) := by
  have hloop : findParentLoop fs (absPath rs) (findParentFuel (absPath (rs ++ ss)))
      (absPath (rs ++ ss)) = some (.ok (((dirChain rs ss).find? (hasTf fs)).getD [])) := by
    have h := findParentLoop_chain fs rs hrs ss.reverse (findParentFuel (absPath (rs ++ ss)))
      (by
        rw [List.length_reverse]
        have := length_lt_findParentFuel (rs ++ ss)
        rw [List.length_append] at this
        omega)
      (fun s hs => hss s (List.mem_reverse.1 hs)) hread
    rw [List.reverse_reverse] at h
    exact h
  refine ⟨?_, ?_, ?_, ?_⟩
  · intro hstat
    unfold FindParentWithTerraformFiles
    simp only [filepath.IsAbs_absPath, Bool.not_true, Bool.false_eq_true, if_false, hstat,
      hloop]
  · intro hstat
    have hdir : filepath.Dir (absPath ((rs ++ ss) ++ [f])) = absPath (rs ++ ss) :=
      filepath.Dir_absPath_snoc (rs ++ ss) f
        (fun x hx => (List.mem_append.1 hx).elim (hrs x) (hss x)) hf
    unfold FindParentWithTerraformFiles
    simp only [filepath.IsAbs_absPath, Bool.not_true, Bool.false_eq_true, if_false, hstat,
      Bool.not_false, if_true, hdir, hloop]
  · cases hfind : (dirChain rs ss).find? (hasTf fs) with
    | none =>
      simp only [Option.getD_none, true_iff]
      intro d hd
      have := List.find?_eq_none.1 hfind d hd
      simpa using this
    | some d =>
      have hmem := List.mem_of_find?_eq_some hfind
      have htf := List.find?_some hfind
      simp only [Option.getD_some]
      constructor
      · intro h
        exact absurd h (mem_dirChainUp_ne_nil rs _ d hmem)
      · intro h
        rw [h d hmem] at htf
        exact absurd htf (by simp)
  · intro d hfind
    obtain ⟨h1, deeper, above, h2, h3⟩ := List.find?_eq_some.1 hfind
    exact ⟨h1, deeper, above, h2, fun x hx => by simpa using h3 x hx⟩

/-- C7 at the boundary scenario: `modules/x/nested/deep/file.json` with `.tf`
files only in `modules/x` resolves to `modules/x`. -/
theorem C7_nearest_ancestor_witness :
    nestedFS.Stat "/r/modules/x/nested/deep/file.json".toList = some false ∧
    FindParentWithTerraformFiles nestedFS "/r/modules/x/nested/deep/file.json".toList
      "/r".toList = .ok "/r/modules/x".toList :=
  ⟨by decide,
    (C7_nearest_ancestor nestedFS ["r".toList]
      ["modules".toList, "x".toList, "nested".toList, "deep".toList] "file.json".toList
      (by decide) (by decide) (by decide) (by decide)).2.1 (by decide)⟩

/-- C8, the code at the failing inputs: with the analysis root `/a/b`, the walk
from the sibling directory `/a/bc` passes the test
`strings.HasPrefix(current, rootDir)`, moves up to `/a` and returns it; and the
start directory `/x`, outside the root, is returned because its `.tf` files are
found before the root is looked at. Neither result is the root or below it. -/
theorem C8_walk_leaves_root :
    strings.HasPrefix "/a/bc".toList "/a/b".toList = true ∧
    FindParentWithTerraformFiles siblingFS "/a/bc".toList "/a/b".toList = .ok "/a".toList ∧
    FindParentWithTerraformFiles siblingFS "/x".toList "/a/b".toList = .ok "/x".toList ∧
    filepath.Rel "/a/b".toList "/a".toList = .ok "..".toList ∧
    filepath.Rel "/a/b".toList "/x".toList = .ok "../../x".toList := by
  decide!

/-! ## `filepath.Match` does not run out of fuel -/

theorem filepath.getEsc_length (chunk nchunk : GoString) (r : Char)
    (h : filepath.getEsc chunk = .ok (r, nchunk)) : nchunk.length < chunk.length := by
  unfold filepath.getEsc at h
  cases chunk with
  | nil => simp at h
  | cons c rest =>
    simp only at h
    split at h
    · simp at h
    · split at h
      · cases rest with
        | nil => simp at h
        | cons r' n' =>
          simp only at h
          split at h
          · simp at h
          · simp only [Except.ok.injEq, Prod.mk.injEq] at h
            rw [← h.2]
            simp only [List.length_cons]
            omega
      · split at h
        · simp at h
        · simp only [Except.ok.injEq, Prod.mk.injEq] at h
          rw [← h.2]
          simp

/-- The loop over the ranges of a character class ends, and what it leaves of
the chunk is shorter than the chunk. -/
theorem filepath.classLoop_total (r : Char) :
    ∀ (fuel : Nat) (chunk : GoString) (nrange : Nat) (matched : Bool), chunk.length < fuel →
      ∃ res, filepath.classLoop r fuel chunk nrange matched = some res ∧
        ∀ m c', res = .ok (m, c') → c'.length < chunk.length := by
  intro fuel
  induction fuel with
  | zero => intro chunk _ _ h; omega
  | succ fuel ih =>
    intro chunk nrange matched hfuel
    unfold filepath.classLoop
    split
    · rename_i hcl
      refine ⟨_, rfl, ?_⟩
      intro m c' hres
      simp only [Except.ok.injEq, Prod.mk.injEq] at hres
      rw [← hres.2]
      cases chunk with
      | nil => simp at hcl
      | cons c rest => simp
    · cases hesc : filepath.getEsc chunk with
      | error e => exact ⟨_, rfl, fun m c' h => by simp at h⟩
      | ok p =>
        obtain ⟨lo, chunk1⟩ := p
        have hlen1 := filepath.getEsc_length chunk chunk1 lo hesc
        simp only
        split
        · cases hesc2 : filepath.getEsc chunk1.tail with
          | error e => exact ⟨_, rfl, fun m c' h => by simp at h⟩
          | ok p2 =>
            obtain ⟨hi, chunk2⟩ := p2
            have hlen2 := filepath.getEsc_length chunk1.tail chunk2 hi hesc2
            have htail : chunk1.tail.length ≤ chunk1.length := by simp
            simp only
            obtain ⟨res, hres, hlen⟩ := ih chunk2 (nrange + 1)
              (matched || (decide (lo ≤ r) && decide (r ≤ hi))) (by omega)
            exact ⟨res, hres, fun m c' h => by have := hlen m c' h; omega⟩
        · obtain ⟨res, hres, hlen⟩ := ih chunk1 (nrange + 1)
            (matched || (decide (lo ≤ r) && decide (r ≤ lo))) (by omega)
          exact ⟨res, hres, fun m c' h => by have := hlen m c' h; omega⟩

/-- The loop of `matchChunk` ends within `len(chunk)` iterations. -/
theorem filepath.matchChunkLoop_total :
    ∀ (fuel : Nat) (chunk : GoString) (s : filepath.NameRest) (failed : Bool),
      chunk.length ≤ fuel → ∃ res, filepath.matchChunkLoop fuel chunk s failed = some res := by
  intro fuel
  induction fuel with
  | zero =>
    intro chunk s failed h
    have : chunk = [] := List.length_eq_zero.1 (by omega)
    subst this
    exact ⟨_, by rw [filepath.matchChunkLoop]⟩
  | succ fuel ih =>
    intro chunk s failed hfuel
    cases chunk with
    | nil => exact ⟨_, by rw [filepath.matchChunkLoop]⟩
    | cons c chunk =>
      have hlen : chunk.length ≤ fuel := by simpa using hfuel
      unfold filepath.matchChunkLoop
      simp only
      split
      · -- character class
        have hc : (if (decide (chunk.head? = some '^')) = true then chunk.tail else chunk).length
            ≤ chunk.length := by
          split
          · simp
          · exact Nat.le_refl _
        obtain ⟨res, hres, hl⟩ := filepath.classLoop_total
          (if (!(failed || s.isEmpty)) = true then s.decode.1 else Char.ofNat 0)
          ((if (decide (chunk.head? = some '^')) = true then chunk.tail else chunk).length + 1)
          (if (decide (chunk.head? = some '^')) = true then chunk.tail else chunk) 0 false
          (Nat.lt_succ_self _)
        rw [hres]
        cases res with
        | error e => exact ⟨_, rfl⟩
        | ok p =>
          obtain ⟨m, c'⟩ := p
          have := hl m c' rfl
          exact ih c' _ _ (by omega)
      · split
        · split
          · exact ih chunk _ _ hlen
          · exact ih chunk _ _ hlen
        · split
          · cases chunk with
            | nil => exact ⟨_, rfl⟩
            | cons c2 chunk2 =>
              have hlen2 : chunk2.length ≤ fuel := by
                simp only [List.length_cons] at hlen
                omega
              simp only
              split
              · exact ih chunk2 _ _ hlen2
              · exact ih chunk2 _ _ hlen2
          · split
            · exact ih chunk _ _ hlen
            · exact ih chunk _ _ hlen

theorem filepath.scanLoop_length :
    ∀ (n : Nat) (p : GoString) (inrange : Bool), p.length ≤ n →
      (filepath.scanLoop inrange p).2.length ≤ p.length := by
  intro n
  induction n with
  | zero =>
    intro p inrange h
    have : p = [] := List.length_eq_zero.1 (by omega)
    subst this
    simp [filepath.scanLoop]
  | succ n ih =>
    intro p inrange h
    cases p with
    | nil => simp [filepath.scanLoop]
    | cons c rest =>
      have hrest : rest.length ≤ n := by simpa using h
      unfold filepath.scanLoop
      split
      · cases rest with
        | nil => simp
        | cons c2 rest2 =>
          have h2 : rest2.length ≤ n := by
            simp only [List.length_cons] at hrest
            omega
          have := ih rest2 inrange h2
          simp only [List.length_cons]
          omega
      · split
        · have := ih rest true hrest
          simp only [List.length_cons]
          omega
        · split
          · have := ih rest false hrest
            simp only [List.length_cons]
            omega
          · split
            · split
              · simp
              · have := ih rest inrange hrest
                simp only [List.length_cons]
                omega
            · have := ih rest inrange hrest
              simp only [List.length_cons]
              omega

/-- A non-empty pattern loses at least one character to `scanChunk`. -/
theorem filepath.scanChunk_length (p : GoString) (hp : p ≠ []) :
    (filepath.scanChunk p).2.2.length < p.length := by
  cases p with
  | nil => exact absurd rfl hp
  | cons c rest =>
    unfold filepath.scanChunk
    simp only
    by_cases hc : c = '*'
    · subst hc
      have h1 : ('*' :: rest).dropWhile (fun c => c == '*') = rest.dropWhile (fun c => c == '*') := by
        simp [List.dropWhile_cons]
      rw [h1]
      have h2 := filepath.scanLoop_length _ (rest.dropWhile (fun c => c == '*')) false
        (Nat.le_refl _)
      have h3 : (rest.dropWhile (fun c => c == '*')).length ≤ rest.length :=
        (List.dropWhile_sublist _).length_le
      simp only [List.length_cons]
      omega
    · have h1 : (c :: rest).dropWhile (fun c => c == '*') = c :: rest := by
        simp [List.dropWhile_cons, hc]
      rw [h1]
      have hr := fun b => filepath.scanLoop_length _ rest b (Nat.le_refl _)
      unfold filepath.scanLoop
      simp only [hc, if_false]
      split
      · cases rest with
        | nil => simp
        | cons c2 rest2 =>
          have := filepath.scanLoop_length _ rest2 false (Nat.le_refl _)
          simp only [List.length_cons]
          omega
      · split
        · have := hr true
          simp only [List.length_cons]
          omega
        · split
          · have := hr false
            simp only [List.length_cons]
            omega
          · have := hr false
            simp only [List.length_cons]
            omega

theorem filepath.matchChunk_total (chunk : GoString) (s : filepath.NameRest) :
    ∃ res, filepath.matchChunkLoop chunk.length chunk s false = some res :=
  filepath.matchChunkLoop_total chunk.length chunk s false (Nat.le_refl _)

/-- The loop `Pattern:` of `Match` ends within `len(pattern)` iterations: `Match`
never runs out of fuel. -/
theorem filepath.matchLoop_total :
    ∀ (fuel : Nat) (p : GoString) (name : filepath.NameRest), p.length ≤ fuel →
      ∃ res, filepath.matchLoop fuel p name = some res := by
  intro fuel
  induction fuel with
  | zero =>
    intro p name h
    have : p = [] := List.length_eq_zero.1 (by omega)
    subst this
    exact ⟨_, by rw [filepath.matchLoop]⟩
  | succ fuel ih =>
    intro p name h
    cases p with
    | nil => exact ⟨_, by rw [filepath.matchLoop]⟩
    | cons c rest =>
      have hl := filepath.scanChunk_length (c :: rest) (List.cons_ne_nil _ _)
      have hfuel : (filepath.scanChunk (c :: rest)).2.2.length ≤ fuel := by omega
      rw [filepath.matchLoop]
      · split
        · exact ⟨_, rfl⟩
        · split
          · exact ⟨_, rfl⟩
          · split
            · exact ih _ _ hfuel
            · split
              · exact ih _ _ hfuel
              · exact ⟨_, rfl⟩
              · exact ⟨_, rfl⟩
      · intro h'
        cases h'

theorem filepath.Match_total (pattern name : GoString) :
    ∃ res, filepath.matchLoop pattern.length pattern { cont := 0, chars := name } = some res ∧
      filepath.Match pattern name = res := by
  obtain ⟨res, h⟩ := filepath.matchLoop_total pattern.length pattern
    { cont := 0, chars := name } (Nat.le_refl _)
  exact ⟨res, h, by simp [filepath.Match, h]⟩

/-! ## The shape of a cleaned path -/

theorem filepath.splitSep_sep_free :
    ∀ (s : GoString) (e : GoString), e ∈ filepath.splitSep s → Separator ∉ e := by
  intro s
  induction s with
  | nil => intro e he; simp [filepath.splitSep] at he; subst he; simp
  | cons c cs ih =>
    intro e he
    unfold filepath.splitSep at he
    by_cases hc : c = Separator
    · simp only [hc, if_true, List.mem_cons] at he
      rcases he with h | h
      · subst h; simp
      · exact ih e h
    · simp only [hc, if_false] at he
      cases hs : filepath.splitSep cs with
      | nil => exact absurd hs (filepath.splitSep_ne_nil cs)
      | cons seg segs =>
        rw [hs] at he ih
        simp only [List.mem_cons] at he
        rcases he with h | h
        · subst h
          intro hm
          rcases List.mem_cons.1 hm with h' | h'
          · exact hc h'.symm
          · exact ih seg (List.mem_cons_self _ _) h'
        · exact ih e (List.mem_cons_of_mem _ h)

theorem filepath.cleanStep_ok (rooted : Bool) (b : filepath.CleanBuf) (e : GoString)
    (hb : CleanBufOK b) (he : Separator ∉ e) : CleanBufOK (filepath.cleanStep rooted b e) := by
  unfold filepath.cleanStep
  split
  · exact hb
  · split
    · exact hb
    · split
      · split
        · intro x hx
          exact hb x (List.mem_of_mem_tail hx)
        · split
          · intro x hx
            simp only [List.mem_cons] at hx
            rcases hx with h | h
            · subst h
              exact ⟨by simp, by decide⟩
            · exact hb x h
          · exact hb
      · rename_i h1 _ _
        intro x hx
        simp only [List.mem_cons] at hx
        rcases hx with h | h
        · subst h
          exact ⟨h1, he⟩
        · exact hb x h

theorem filepath.foldl_cleanStep_ok (rooted : Bool) :
    ∀ (es : List GoString) (b : filepath.CleanBuf), CleanBufOK b →
      (∀ e, e ∈ es → Separator ∉ e) → CleanBufOK (es.foldl (filepath.cleanStep rooted) b) := by
  intro es
  induction es with
  | nil => intro b hb _; exact hb
  | cons e es ih =>
    intro b hb hes
    exact ih _ (filepath.cleanStep_ok rooted b e hb (hes e (List.mem_cons_self _ _)))
      (fun x hx => hes x (List.mem_cons_of_mem _ hx))

theorem bufSize_cons (e : GoString) (es : List GoString) :
    bufSize (e :: es) = e.length + 1 + bufSize es := by
  simp [bufSize]

theorem bufSize_tail_le (es : List GoString) : bufSize es.tail ≤ bufSize es := by
  cases es with
  | nil => simp
  | cons e es => rw [List.tail_cons, bufSize_cons]; omega

theorem filepath.cleanStep_size (rooted : Bool) (b : filepath.CleanBuf) (e : GoString) :
    bufSize (filepath.cleanStep rooted b e).out ≤ bufSize b.out + elemWeight e := by
  unfold filepath.cleanStep elemWeight
  split
  · omega
  · split
    · omega
    · split
      · rename_i h1 _ h3
        split
        · have := bufSize_tail_le b.out
          simp only
          omega
        · split
          · simp only [h1, if_false, bufSize_cons, h3, List.length_cons, List.length_nil]
            omega
          · omega
      · rename_i h1 _ _
        simp only [h1, if_false, bufSize_cons]
        omega

theorem filepath.foldl_cleanStep_size (rooted : Bool) :
    ∀ (es : List GoString) (b : filepath.CleanBuf),
      bufSize (es.foldl (filepath.cleanStep rooted) b).out ≤
        bufSize b.out + (es.map elemWeight).sum := by
  intro es
  induction es with
  | nil => intro b; simp
  | cons e es ih =>
    intro b
    have h1 := ih (filepath.cleanStep rooted b e)
    have h2 := filepath.cleanStep_size rooted b e
    simp only [List.foldl_cons, List.map_cons, List.sum_cons]
    omega

theorem elemWeight_le (e : GoString) : elemWeight e ≤ e.length + 1 := by
  unfold elemWeight
  split <;> omega

theorem filepath.sum_length_splitSep (s : GoString) :
    ((filepath.splitSep s).map (fun e => e.length + 1)).sum = s.length + 1 := by
  induction s with
  | nil => simp [filepath.splitSep]
  | cons c cs ih =>
    unfold filepath.splitSep
    by_cases hc : c = Separator
    · simp only [hc, if_true, List.map_cons, List.sum_cons, ih, List.length_nil, List.length_cons]
      omega
    · simp only [hc, if_false]
      cases hs : filepath.splitSep cs with
      | nil => exact absurd hs (filepath.splitSep_ne_nil cs)
      | cons seg segs =>
        rw [hs] at ih
        simp only [List.map_cons, List.sum_cons, List.length_cons] at ih ⊢
        omega

theorem sum_elemWeight_le (es : List GoString) :
    (es.map elemWeight).sum ≤ (es.map (fun e => e.length + 1)).sum := by
  induction es with
  | nil => simp
  | cons e es ih =>
    have := elemWeight_le e
    simp only [List.map_cons, List.sum_cons]
    omega

theorem length_intercalate_sep :
    ∀ (es : List GoString), es ≠ [] →
      ([Separator].intercalate es).length + 1 = bufSize es := by
  intro es
  induction es with
  | nil => intro h; exact absurd rfl h
  | cons e es ih =>
    intro _
    by_cases hs : es = []
    · subst hs
      simp [List.intercalate, bufSize]
    · rw [intercalate_sep_cons e es hs, bufSize_cons]
      have := ih hs
      simp only [List.length_append, List.length_cons]
      omega

theorem bufSize_reverse (es : List GoString) : bufSize es.reverse = bufSize es := by
  unfold bufSize
  rw [List.map_reverse, List.sum_reverse]

/-- The last character of the elements joined by separators is the last
character of the last element. -/
theorem getLast?_intercalate_sep :
    ∀ (es : List GoString), es ≠ [] → (∀ e, e ∈ es → e ≠ [] ∧ Separator ∉ e) →
      [Separator].intercalate es ≠ [] ∧
        ([Separator].intercalate es).getLast? ≠ some Separator := by
  intro es
  induction es with
  | nil => intro h; exact absurd rfl h
  | cons e es ih =>
    intro _ hall
    obtain ⟨hne, hsep⟩ := hall e (List.mem_cons_self _ _)
    by_cases hs : es = []
    · subst hs
      have : [Separator].intercalate [e] = e := by simp [List.intercalate]
      rw [this]
      refine ⟨hne, ?_⟩
      intro hl
      exact hsep (List.mem_of_getLast?_eq_some hl)
    · obtain ⟨h1, h2⟩ := ih hs (fun x hx => hall x (List.mem_cons_of_mem _ hx))
      rw [intercalate_sep_cons e es hs]
      refine ⟨by simp, ?_⟩
      obtain ⟨c, cs, hcs⟩ := List.exists_cons_of_ne_nil h1
      rw [hcs] at h2 ⊢
      rw [List.getLast?_append, List.getLast?_cons_cons]
      cases hl : (c :: cs).getLast? with
      | none => simp at hl
      | some x =>
        rw [hl] at h2
        simpa using h2

theorem CleanBufOK_init : CleanBufOK { out := [], dotdot := 0 } := by
  intro e he
  simp at he

/-- The buffer `Clean` ends with holds real elements only. -/
theorem filepath.Clean_buf_ok (rooted : Bool) (path : GoString) :
    CleanBufOK ((filepath.splitSep path).foldl (filepath.cleanStep rooted)
      { out := [], dotdot := 0 }) :=
  filepath.foldl_cleanStep_ok rooted _ _ CleanBufOK_init (filepath.splitSep_sep_free path)

theorem intercalate_reverse_facts (b : filepath.CleanBuf) (hb : CleanBufOK b)
    (hne : b.out ≠ []) :
    [Separator].intercalate b.out.reverse ≠ [] ∧
      ([Separator].intercalate b.out.reverse).getLast? ≠ some Separator ∧
      ([Separator].intercalate b.out.reverse).length + 1 = bufSize b.out := by
  have hr : b.out.reverse ≠ [] := by simpa using hne
  have h := getLast?_intercalate_sep b.out.reverse hr
    (fun e he => hb e (List.mem_reverse.1 he))
  have hl := length_intercalate_sep b.out.reverse hr
  rw [bufSize_reverse] at hl
  exact ⟨h.1, h.2, hl⟩

/-- A cleaned path is never empty. -/
theorem filepath.Clean_ne_nil (path : GoString) : filepath.Clean path ≠ [] := by
  unfold filepath.Clean
  split
  · simp
  · simp only
    split
    · simp
    · split
      · simp
      · assumption

/-- A cleaned path is `.`, or the root `/`, or does not end with a separator. -/
theorem filepath.Clean_cases (path : GoString) :
    filepath.Clean path = ['.'] ∨ filepath.Clean path = [Separator] ∨
      (filepath.Clean path).getLast? ≠ some Separator := by
  unfold filepath.Clean
  by_cases hp : path = []
  · left
    simp [hp]
  · simp only [hp, if_false]
    generalize decide (path.head? = some Separator) = rooted
    have hok := filepath.Clean_buf_ok rooted path
    generalize (filepath.splitSep path).foldl (filepath.cleanStep rooted)
      { out := [], dotdot := 0 } = b at hok ⊢
    by_cases hout : b.out = []
    · cases rooted
      · left
        simp [hout, List.intercalate]
      · right; left
        simp [hout, List.intercalate]
    · obtain ⟨h1, h2, _⟩ := intercalate_reverse_facts b hok hout
      right; right
      cases rooted
      · simp only [Bool.false_eq_true, if_false, h1]
        exact h2
      · simp only [if_true]
        obtain ⟨c, cs, hcs⟩ := List.exists_cons_of_ne_nil h1
        rw [hcs] at h2 ⊢
        rw [List.getLast?_cons_cons]
        exact h2

/-- A cleaned path ends with a separator only if it is the root `/`. -/
theorem filepath.Clean_getLast (path : GoString)
    (h : (filepath.Clean path).getLast? = some Separator) : filepath.Clean path = [Separator] := by
  rcases filepath.Clean_cases path with h1 | h1 | h1
  · rw [h1] at h
    exact absurd h (by decide)
  · exact h1
  · exact absurd h h1

theorem filepath.sum_elemWeight_splitSep (s : GoString) :
    ((filepath.splitSep s).map elemWeight).sum ≤ s.length + 1 := by
  have h1 := sum_elemWeight_le (filepath.splitSep s)
  have h2 := filepath.sum_length_splitSep s
  omega

/-- Cleaning does not lengthen a non-empty path. -/
theorem filepath.Clean_length (path : GoString) (hp : path ≠ []) :
    (filepath.Clean path).length ≤ path.length := by
  have hpos : 0 < path.length := List.length_pos.2 hp
  unfold filepath.Clean
  simp only [hp, if_false]
  have hsize := fun r => filepath.foldl_cleanStep_size r (filepath.splitSep path)
    { out := [], dotdot := 0 }
  have hok := fun r => filepath.Clean_buf_ok r path
  split
  · rename_i hr
    have hhead : path.head? = some Separator := by simpa using hr
    obtain ⟨c, p', hcp⟩ := List.exists_cons_of_ne_nil hp
    have hc : c = Separator := by
      rw [hcp] at hhead
      simpa using hhead
    have hsplit : filepath.splitSep path = [] :: filepath.splitSep p' := by
      rw [hcp, hc, filepath.splitSep]
      simp
    have hw : ((filepath.splitSep path).map elemWeight).sum ≤ p'.length + 1 := by
      rw [hsplit]
      have := filepath.sum_elemWeight_splitSep p'
      simpa [elemWeight] using this
    have hlen : path.length = p'.length + 1 := by rw [hcp]; simp
    by_cases hout : ((filepath.splitSep path).foldl (filepath.cleanStep
        (decide (path.head? = some Separator))) { out := [], dotdot := 0 }).out = []
    · rw [hout]
      simp only [List.reverse_nil, List.intercalate, List.intersperse_nil, List.flatten_nil,
        List.length_cons, List.length_nil]
      omega
    · obtain ⟨_, _, h3⟩ := intercalate_reverse_facts _ (hok _) hout
      have := hsize (decide (path.head? = some Separator))
      simp only [List.length_cons, bufSize, List.map_nil, List.sum_nil, Nat.zero_add] at this ⊢
      simp only [bufSize] at h3
      omega
  · split
    · simp only [List.length_cons, List.length_nil]
      omega
    · rename_i hbody
      by_cases hout : ((filepath.splitSep path).foldl (filepath.cleanStep
          (decide (path.head? = some Separator))) { out := [], dotdot := 0 }).out = []
      · rw [hout] at hbody
        simp [List.intercalate] at hbody
      · obtain ⟨_, _, h3⟩ := intercalate_reverse_facts _ (hok _) hout
        have := hsize (decide (path.head? = some Separator))
        have hw := filepath.sum_elemWeight_splitSep path
        simp only [bufSize, List.map_nil, List.sum_nil, Nat.zero_add] at this
        simp only [bufSize] at h3
        omega

/-! ## The walk of the boundary finder ends -/

theorem filepath.dirPart_length_le (p : GoString) : (filepath.dirPart p).length ≤ p.length := by
  unfold filepath.dirPart
  rw [List.length_reverse]
  have := (List.dropWhile_sublist (fun c => c != Separator) (l := p.reverse)).length_le
  simpa using this

theorem filepath.dirPart_of_getLast (p : GoString) (h : p.getLast? = some Separator) :
    filepath.dirPart p = p := by
  unfold filepath.dirPart
  rw [List.getLast?_eq_head?_reverse] at h
  cases hr : p.reverse with
  | nil => rw [hr] at h; simp at h
  | cons c r =>
    rw [hr] at h
    have hc : c = Separator := by simpa using h
    subst hc
    rw [List.dropWhile_cons]
    simp only [bne_self_eq_false, Bool.false_eq_true, if_false]
    rw [← hr, List.reverse_reverse]

theorem filepath.dirPart_length_lt (p : GoString) (hp : p ≠ [])
    (h : p.getLast? ≠ some Separator) : (filepath.dirPart p).length < p.length := by
  unfold filepath.dirPart
  rw [List.getLast?_eq_head?_reverse] at h
  rw [List.length_reverse]
  cases hr : p.reverse with
  | nil =>
    have : p = [] := by simpa using hr
    exact absurd this hp
  | cons c r =>
    rw [hr] at h
    have hc : c ≠ Separator := by simpa using h
    rw [List.dropWhile_cons]
    simp only [bne_iff_ne, ne_eq, hc, not_false_eq_true, if_true]
    have h1 := (List.dropWhile_sublist (fun c => c != Separator) (l := r)).length_le
    have h2 : p.length = r.length + 1 := by
      rw [← List.length_reverse, hr]
      simp
    omega

/-- Moving to the parent directory decreases the measure of the walk. -/
theorem walkMeasure_Dir (p : GoString) (hd : filepath.dirPart p ≠ [])
    (hne : filepath.Dir p ≠ p) : walkMeasure (filepath.Dir p) < walkMeasure p := by
  have hlen := filepath.Clean_length (filepath.dirPart p) hd
  have hle := filepath.dirPart_length_le p
  have hp : p ≠ [] := by
    intro h
    subst h
    exact hd rfl
  unfold walkMeasure
  unfold filepath.Dir at hne ⊢
  by_cases hlast : p.getLast? = some Separator
  · have hdp := filepath.dirPart_of_getLast p hlast
    rw [hdp] at hne hlen ⊢
    simp only [hlast, if_true]
    by_cases hq : (filepath.Clean p).getLast? = some Separator
    · have hroot := filepath.Clean_getLast p hq
      rw [hroot] at hne ⊢
      have h2 : 2 ≤ p.length := by
        cases p with
        | nil => exact absurd rfl hp
        | cons c cs =>
          cases cs with
          | nil =>
            have : c = Separator := by simpa using hlast
            subst this
            exact absurd rfl hne
          | cons d ds => simp
      simp only [List.getLast?_singleton, if_true, List.length_cons, List.length_nil]
      omega
    · simp only [hq, if_false]
      omega
  · have hlt := filepath.dirPart_length_lt p hp hlast
    simp only [hlast, if_false]
    split <;> omega

theorem filepath.Dir_of_dirPart_nil (p : GoString) (h : filepath.dirPart p = []) :
    filepath.Dir p = ['.'] := by
  unfold filepath.Dir
  rw [h]
  rfl

/-- From `.` the walk stops at once: `.` is its own parent. -/
theorem findParentLoop_dot (fs : FileSystem) (rootDir : GoString) (fuel : Nat) :
    ∃ r, findParentLoop fs rootDir (fuel + 1) ['.'] = some r := by
  have hd : filepath.Dir ['.'] = ['.'] := by decide
  unfold findParentLoop
  cases fs.ReadDir ['.'] with
  | none => exact ⟨_, rfl⟩
  | some entries =>
    simp only [hd, if_true]
    split
    · exact ⟨_, rfl⟩
    · split <;> exact ⟨_, rfl⟩

/-- The walk of `FindParentWithTerraformFiles` ends from every path: with fuel
beyond the measure of the path it returns. -/
theorem findParentLoop_total (fs : FileSystem) (rootDir : GoString) :
    ∀ (n : Nat) (p : GoString) (fuel : Nat), walkMeasure p ≤ n → n + 2 ≤ fuel →
      ∃ r, findParentLoop fs rootDir fuel p = some r := by
  intro n
  induction n with
  | zero =>
    intro p fuel hm hfuel
    obtain ⟨f, rfl⟩ : ∃ f, fuel = f + 2 := ⟨fuel - 2, by omega⟩
    have hp : p = [] := by
      unfold walkMeasure at hm
      exact List.length_eq_zero.1 (by omega)
    subst hp
    have hd : filepath.Dir [] = ['.'] := by decide
    unfold findParentLoop
    cases fs.ReadDir [] with
    | none => exact ⟨_, rfl⟩
    | some entries =>
      simp only [hd]
      split
      · exact ⟨_, rfl⟩
      · split
        · exact ⟨_, rfl⟩
        · split
          · exact ⟨_, rfl⟩
          · exact findParentLoop_dot fs rootDir f
  | succ n ih =>
    intro p fuel hm hfuel
    obtain ⟨f, rfl⟩ : ∃ f, fuel = f + 2 := ⟨fuel - 2, by omega⟩
    unfold findParentLoop
    cases fs.ReadDir p with
    | none => exact ⟨_, rfl⟩
    | some entries =>
      simp only
      split
      · exact ⟨_, rfl⟩
      · split
        · exact ⟨_, rfl⟩
        · split
          · exact ⟨_, rfl⟩
          · rename_i hne
            by_cases hd : filepath.dirPart p = []
            · rw [filepath.Dir_of_dirPart_nil p hd]
              exact findParentLoop_dot fs rootDir f
            · have := walkMeasure_Dir p hd hne
              exact ih (filepath.Dir p) (f + 1) (by omega) (by omega)

/-- The fuel `FindParentWithTerraformFiles` gives its walk is never used up. -/
theorem findParentLoop_fuel (fs : FileSystem) (rootDir startPath : GoString) :
    ∃ r, findParentLoop fs rootDir (findParentFuel startPath) startPath = some r := by
  apply findParentLoop_total fs rootDir (walkMeasure startPath) startPath _ (Nat.le_refl _)
  unfold findParentFuel walkMeasure
  split <;> omega

/-- Dropping the first element of a path and its separator makes the path
shorter. -/
theorem filepath.dropElem_length (l : GoString) :
    ((l.dropWhile (fun c => c != Separator)).tail).length ≤ l.length ∧
    (l ≠ [] → ((l.dropWhile (fun c => c != Separator)).tail).length < l.length) := by
  have h1 := (List.dropWhile_sublist (fun c => c != Separator) (l := l)).length_le
  have h2 : ((l.dropWhile (fun c => c != Separator)).tail).length =
      (l.dropWhile (fun c => c != Separator)).length - 1 := by
    simp
  constructor
  · omega
  · intro hl
    have h3 : 0 < l.length := List.length_pos.2 hl
    omega

/-- The loop of `Rel` ends within `len(base) + len(targ) + 1` iterations: `Rel`
never runs out of fuel. -/
theorem filepath.relLoop_total :
    ∀ (fuel : Nat) (base targ : GoString), base.length + targ.length < fuel →
      ∃ st, filepath.relLoop fuel base targ = some st := by
  intro fuel
  induction fuel with
  | zero => intro base targ h; omega
  | succ fuel ih =>
    intro base targ h
    unfold filepath.relLoop
    split
    · exact ⟨_, rfl⟩
    · rename_i hne
      simp only
      split
      · exact ⟨_, rfl⟩
      · apply ih
        have hb := filepath.dropElem_length base
        have ht := filepath.dropElem_length targ
        by_cases hbe : base = []
        · have hte : targ ≠ [] := by
            intro hte
            subst hbe
            subst hte
            simp at hne
          have := ht.2 hte
          omega
        · have := hb.2 hbe
          omega

/-- What cannot be done purely lexically is an error: a base that goes up where
the target does not, also when the target is used up first. -/
theorem filepath.Rel_base_up :
    filepath.Rel "../..".toList "..".toList = .error GoError.rel ∧
    filepath.Rel "..".toList ".".toList = .error GoError.rel ∧
    filepath.Rel "..".toList "a".toList = .error GoError.rel ∧
    filepath.Rel ".".toList "..".toList = .ok "..".toList ∧
    filepath.Rel "a/b/c/d".toList "a/b".toList = .ok "../..".toList ∧
    filepath.Rel "a/b".toList "a/b/c/d".toList = .ok "c/d".toList := by
  decide!

/-! ## Edge insertion -/

/-- The slice `Dependencies[a]` after `AddDependency(f, t)`: the cleaned `t` is
appended to the slice of the cleaned `f` unless it is there already. -/
theorem get_Dependencies_AddDependency (g : DependencyGraph) (f t a : GoString) :
    (AddDependency g f t).Dependencies.get a =
      if filepath.Clean f = a ∧ filepath.Clean t ∉ g.Dependencies.get a
      then g.Dependencies.get a ++ [filepath.Clean t] else g.Dependencies.get a := by
  unfold AddDependency
  simp only []
  by_cases hc : contains (g.Dependencies.get (filepath.Clean f)) (filepath.Clean t) = true
  · have hm := (contains_iff _ _).1 hc
    simp only [hc, Bool.not_true, Bool.false_eq_true, if_false]
    by_cases ha : filepath.Clean f = a
    · subst ha
      simp [hm]
    · simp [ha]
  · have hm : filepath.Clean t ∉ g.Dependencies.get (filepath.Clean f) :=
      fun h => hc ((contains_iff _ _).2 h)
    simp only [hc, Bool.not_false, if_true]
    rw [StrMap.get_set]
    by_cases ha : filepath.Clean f = a
    · subst ha
      simp [hm]
    · simp [ha]

/-- The slice `Dependents[b]` after `AddDependency(f, t)`: the cleaned `f` is
appended to the slice of the cleaned `t` unless it is there already. -/
theorem get_Dependents_AddDependency (g : DependencyGraph) (f t b : GoString) :
    (AddDependency g f t).Dependents.get b =
      if filepath.Clean t = b ∧ filepath.Clean f ∉ g.Dependents.get b
      then g.Dependents.get b ++ [filepath.Clean f] else g.Dependents.get b := by
  unfold AddDependency
  simp only []
  by_cases hc : contains (g.Dependents.get (filepath.Clean t)) (filepath.Clean f) = true
  · have hm := (contains_iff _ _).1 hc
    simp only [hc, Bool.not_true, Bool.false_eq_true, if_false]
    by_cases hb : filepath.Clean t = b
    · subst hb
      simp [hm]
    · simp [hb]
  · have hm : filepath.Clean f ∉ g.Dependents.get (filepath.Clean t) :=
      fun h => hc ((contains_iff _ _).2 h)
    simp only [hc, Bool.not_false, if_true]
    rw [StrMap.get_set]
    by_cases hb : filepath.Clean t = b
    · subst hb
      simp [hm]
    · simp [hb]

/-- C11: idempotent edge insertion. For every graph state `g` and all
identifiers `a` and `b`, performing `AddDependency(a, b)` twice leaves exactly
the same `Dependencies` and `Dependents` maps (same keys, same slices in the
same order) as performing it once. -/
theorem C11_AddDependency_idempotent (g : DependencyGraph) (a b : GoString) :
    AddDependency (AddDependency g a b) a b = AddDependency g a b := by
  have h1 : contains ((AddDependency g a b).Dependencies.get (filepath.Clean a))
      (filepath.Clean b) = true :=
    (contains_iff _ _).2 ((mem_Dependencies_AddDependency g a b _ _).2 (Or.inr ⟨rfl, rfl⟩))
  have h2 : contains ((AddDependency g a b).Dependents.get (filepath.Clean b))
      (filepath.Clean a) = true :=
    (contains_iff _ _).2 ((mem_Dependents_AddDependency g a b _ _).2 (Or.inr ⟨rfl, rfl⟩))
  generalize AddDependency g a b = g1 at h1 h2
  unfold AddDependency
  simp only [h1, h2, Bool.not_true, Bool.false_eq_true, if_false]

theorem NodupEdges_new : NodupEdges NewDependencyGraph := by
  constructor <;> intro x <;> simp [NewDependencyGraph, StrMap.get]

theorem nodup_append_singleton (l : List GoString) (x : GoString) (hl : l.Nodup) (hx : x ∉ l) :
    (l ++ [x]).Nodup := by
  refine List.Nodup.append hl (List.nodup_singleton _) ?_
  intro y hy hy'
  rw [List.mem_singleton] at hy'
  exact hx (hy' ▸ hy)

theorem NodupEdges_AddDependency (g : DependencyGraph) (f t : GoString) (h : NodupEdges g) :
    NodupEdges (AddDependency g f t) := by
  constructor
  · intro a
    rw [get_Dependencies_AddDependency]
    split
    · rename_i hc
      exact nodup_append_singleton _ _ (h.1 a) hc.2
    · exact h.1 a
  · intro b
    rw [get_Dependents_AddDependency]
    split
    · rename_i hc
      exact nodup_append_singleton _ _ (h.2 b) hc.2
    · exact h.2 b

theorem NodupEdges_foldl (calls : List (GoString × GoString)) :
    ∀ g : DependencyGraph, NodupEdges g →
      NodupEdges (calls.foldl (fun g c => AddDependency g c.1 c.2) g) := by
  induction calls with
  | nil => intro g h; exact h
  | cons c cs ih =>
    intro g h
    exact ih _ (NodupEdges_AddDependency g c.1 c.2 h)

/-- C12: edges are deduplicated. In every graph built from `NewDependencyGraph`
by `AddDependency` calls no slice `Dependencies[a]` and no slice `Dependents[b]`
contains the same identifier twice, however often a pair was added; adding
`auth → common` three times stores it once in each map. -/
theorem C12_edges_deduplicated :
    (∀ (calls : List (GoString × GoString)) (a : GoString),
      ((buildGraph calls).Dependencies.get a).Nodup ∧
        ((buildGraph calls).Dependents.get a).Nodup) ∧
    buildGraph [("auth".toList, "common".toList), ("auth".toList, "common".toList),
        ("auth/".toList, "./common".toList)] =
      { Dependencies := [("auth".toList, ["common".toList])],
        Dependents := [("common".toList, ["auth".toList])] } := by
  refine ⟨fun calls a => ?_, by decide⟩
  have h := NodupEdges_foldl calls NewDependencyGraph NodupEdges_new
  exact ⟨h.1 a, h.2 a⟩

/-- C13: for every graph, whatever the contents of the `Dependents` map (cycles,
diamonds), and every start identifier, the sequence returned by
`GetAffectedModules` contains no identifier more than once; on the diamond
`b → a`, `c → a`, `d → b`, `d → c` with the cycle `a → d` the traversal from `a`
lists the four vertices once each. -/
theorem C13_affected_nodup :
    (∀ (g : DependencyGraph) (path : GoString), (GetAffectedModules g path).Nodup) ∧
    GetAffectedModules
        (buildGraph [("b".toList, "a".toList), ("c".toList, "a".toList),
          ("d".toList, "b".toList), ("d".toList, "c".toList), ("a".toList, "d".toList)])
        "a".toList =
      ["a".toList, "b".toList, "d".toList, "c".toList] :=
  ⟨nodup_GetAffectedModules, by decide!⟩

/-! ## Termination of the traversal -/

theorem forEach_mono {σ : Type} (f f' : GoString → σ → Option σ)
    (h : ∀ d s s', f d s = some s' → f' d s = some s') :
    ∀ (ds : List GoString) (s s' : σ), forEach f ds s = some s' → forEach f' ds s = some s' := by
  intro ds
  induction ds with
  | nil => intro s s' hs; exact hs
  | cons d ds ih =>
    intro s s' hs
    unfold forEach at hs ⊢
    cases hfd : f d s with
    | none => simp [hfd] at hs
    | some s1 =>
      simp only [hfd] at hs
      simp only [h d s s1 hfd]
      exact ih s1 s' hs

/-- More fuel does not change what `dfs` returns. -/
theorem affectedDfs_fuel_succ (g : DependencyGraph) :
    ∀ (fuel : Nat) (current : GoString) (st st' : DfsState),
      affectedDfs g fuel current st = some st' → affectedDfs g (fuel + 1) current st = some st' := by
  intro fuel
  induction fuel with
  | zero => intro _ _ _ h; simp [affectedDfs] at h
  | succ fuel ih =>
    intro current st st' h
    unfold affectedDfs at h ⊢
    split
    · rename_i hv
      simpa [hv] using h
    · rename_i hv
      simp only [hv, if_false, Bool.false_eq_true] at h
      exact forEach_mono _ _ ih _ _ _ h

theorem affectedDfs_fuel_add (g : DependencyGraph) (fuel : Nat) (current : GoString)
    (st st' : DfsState) (h : affectedDfs g fuel current st = some st') :
    ∀ k : Nat, affectedDfs g (fuel + k) current st = some st' := by
  intro k
  induction k with
  | zero => exact h
  | succ k ih => exact affectedDfs_fuel_succ g (fuel + k) current st st' ih

/-- C14: `GetAffectedModules` terminates on every finite graph, cycles of any
length included. The recursive traversal returns a state whenever its fuel, the
bound on the depth of the recursion, exceeds the number of unvisited vertices,
which every marking call decreases; the fuel `GetAffectedModules` supplies is
enough, more fuel gives the same result, and on the cycles `a→b→a` and `a→a`
the traversal returns. -/
theorem C14_traversal_terminates :
    (∀ (g : DependencyGraph) (path : GoString),
      ∃ st, affectedDfs g (affectedFuel g (filepath.Clean path)) (filepath.Clean path)
          { visited := [], result := [] } = some st ∧
        GetAffectedModules g path = st.result) ∧
    (∀ (g : DependencyGraph) (univ : List GoString),
      (∀ x d, d ∈ g.Dependents.get x → d ∈ univ) →
      ∀ (fuel : Nat) (current : GoString) (st : DfsState), current ∈ univ →
        unvisited univ st < fuel →
        ∃ st', affectedDfs g fuel current st = some st' ∧
          unvisited univ st' ≤ unvisited univ st ∧
          (current ∉ st.visited → unvisited univ st' < unvisited univ st)) ∧
    (∀ (g : DependencyGraph) (fuel k : Nat) (current : GoString) (st st' : DfsState),
      affectedDfs g fuel current st = some st' →
        affectedDfs g (fuel + k) current st = some st') ∧
    GetAffectedModules (buildGraph [("a".toList, "b".toList), ("b".toList, "a".toList)])
        "a".toList = ["a".toList, "b".toList] ∧
    GetAffectedModules (buildGraph [("a".toList, "a".toList)]) "a".toList = ["a".toList] := by
  refine ⟨?_, ?_, ?_, by decide!, by decide!⟩
  · intro g path
    obtain ⟨st, h⟩ := affectedDfs_top g (filepath.Clean path)
    refine ⟨st, h, ?_⟩
    unfold GetAffectedModules
    simp only [h]
  · intro g univ huniv fuel current st hc hlt
    obtain ⟨st', h⟩ := affectedDfs_terminates g univ huniv fuel current st hc hlt
    have p := affectedDfs_post g fuel current st st' h
    refine ⟨st', h, unvisited_le univ st st' p.mono, ?_⟩
    intro hn
    have h1 := unvisited_lt univ st current (st.result ++ [current]) hc hn
    have h2 : unvisited univ st' ≤
        unvisited univ { visited := current :: st.visited, result := st.result ++ [current] } := by
      apply unvisited_le
      intro x hx
      rcases List.mem_cons.1 hx with hx | hx
      · rw [hx]; exact p.marked
      · exact p.mono x hx
    omega
  · intro g fuel k current st st' h
    exact affectedDfs_fuel_add g fuel current st st' h k

/-- C14 at the cycle `a→b→a`: the traversal from `a` with fuel 5 returns. -/
theorem C14_traversal_terminates_witness :
    ∃ st', affectedDfs (buildGraph [("a".toList, "b".toList), ("b".toList, "a".toList)]) 5
        "a".toList { visited := [], result := [] } = some st' ∧
      unvisited (buildGraph [("a".toList, "b".toList), ("b".toList, "a".toList)]).Dependents.nodes
          st' ≤
        unvisited (buildGraph [("a".toList, "b".toList), ("b".toList, "a".toList)]).Dependents.nodes
          { visited := [], result := [] } ∧
      ("a".toList ∉ ({ visited := [], result := [] } : DfsState).visited →
        unvisited (buildGraph [("a".toList, "b".toList), ("b".toList, "a".toList)]).Dependents.nodes
            st' <
          unvisited
            (buildGraph [("a".toList, "b".toList), ("b".toList, "a".toList)]).Dependents.nodes
            { visited := [], result := [] }) :=
  C14_traversal_terminates.2.1
    (buildGraph [("a".toList, "b".toList), ("b".toList, "a".toList)])
    (buildGraph [("a".toList, "b".toList), ("b".toList, "a".toList)]).Dependents.nodes
    (fun x d hd => StrMap.get_subset_nodes _ x d hd) 5 "a".toList
    { visited := [], result := [] } (by decide!) (by decide!)

/-! ## Skipped inputs and root patterns -/

theorem affectedLoop_filter (a : Analyzer) (fs : FileSystem) (pats : List GoString) :
    ∀ (changed : List GoString) (m : StrMap),
      affectedLoop a fs pats m changed =
        affectedLoop a fs pats m (changed.filter (fun p => (owningModule a fs p).isSome)) := by
  intro changed
  induction changed with
  | nil => intro m; rfl
  | cons p ps ih =>
    intro m
    cases ho : owningModule a fs p with
    | none =>
      rw [List.filter_cons]
      simp only [ho, Option.isSome_none, Bool.false_eq_true, if_false]
      rw [affectedLoop]
      simp only [ho]
      exact ih m
    | some rel =>
      rw [List.filter_cons]
      simp only [ho, Option.isSome_some, if_true]
      rw [affectedLoop, affectedLoop]
      simp only [ho]
      exact ih _

/-- C16: the skip policy of the query. `GetAffectedRootModules` never returns an
error; a changed path for which the boundary finder fails or finds no owning
module has no owning module in the query and is skipped without affecting the
others: the result for a list of changed paths equals the result for the same
list with every such path removed. -/
theorem C16_skip_policy (a : Analyzer) (fs : FileSystem) (changed pats : List GoString) :
    (GetAffectedRootModules a fs changed pats).2 = none ∧
    GetAffectedRootModules a fs changed pats =
      GetAffectedRootModules a fs
        (changed.filter (fun p => (owningModule a fs p).isSome)) pats ∧
    (∀ p e, FindParentWithTerraformFiles fs
        (if !filepath.IsAbs p then filepath.Join [a.root, p] else p) a.root = .error e →
      owningModule a fs p = none) ∧
    (∀ p, FindParentWithTerraformFiles fs
        (if !filepath.IsAbs p then filepath.Join [a.root, p] else p) a.root = .ok [] →
      owningModule a fs p = none) ∧
    (∀ p, owningModule a fs p = none →
      GetAffectedRootModules a fs (p :: changed) pats =
        GetAffectedRootModules a fs changed pats) := by
  refine ⟨rfl, ?_, ?_, ?_, ?_⟩
  · unfold GetAffectedRootModules
    rw [affectedLoop_filter]
  · intro p e h
    unfold owningModule
    simp only [h]
  · intro p h
    unfold owningModule
    simp only [h, if_true]
  · intro p h
    unfold GetAffectedRootModules
    rw [affectedLoop]
    simp only [h]

/-- C16 in the scenario: the path `missing/x.tf` does not exist, the boundary
finder fails on it, and the query returns what it returns without it. -/
theorem C16_skip_policy_witness :
    owningModule scenarioAnalyzer scenarioFS "missing/x.tf".toList = none ∧
    GetAffectedRootModules scenarioAnalyzer scenarioFS
        ["missing/x.tf".toList, "common/main.tf".toList] ["env/*/*".toList] =
      GetAffectedRootModules scenarioAnalyzer scenarioFS ["common/main.tf".toList]
        ["env/*/*".toList] :=
  ⟨by decide!,
    (C16_skip_policy scenarioAnalyzer scenarioFS ["common/main.tf".toList]
      ["env/*/*".toList]).2.2.2.2 "missing/x.tf".toList (by decide!)⟩

/-- The function `isRootModule` says whether some pattern of the list matches
without error. -/
theorem isRootModule_iff (m : GoString) :
    ∀ ps : List GoString,
      isRootModule m ps = true ↔ ∃ p, p ∈ ps ∧ filepath.Match p m = .ok true := by
  intro ps
  induction ps with
  | nil => simp [isRootModule]
  | cons p ps ih =>
    unfold isRootModule
    cases hm : filepath.Match p m with
    | error e =>
      simp only [ih, List.mem_cons]
      constructor
      · rintro ⟨q, hq, h⟩
        exact ⟨q, Or.inr hq, h⟩
      · rintro ⟨q, hq | hq, h⟩
        · rw [hq, hm] at h
          cases h
        · exact ⟨q, hq, h⟩
    | ok b =>
      cases b with
      | true =>
        simp only [if_true, true_iff]
        exact ⟨p, List.mem_cons_self _ _, hm⟩
      | false =>
        simp only [Bool.false_eq_true, if_false, ih, List.mem_cons]
        constructor
        · rintro ⟨q, hq, h⟩
          exact ⟨q, Or.inr hq, h⟩
        · rintro ⟨q, hq | hq, h⟩
          · rw [hq, hm] at h
            cases h
          · exact ⟨q, hq, h⟩

theorem isRootModule_congr (m : GoString) (ps ps' : List GoString)
    (h : ∀ p, p ∈ ps ↔ p ∈ ps') : isRootModule m ps = isRootModule m ps' := by
  have h1 := isRootModule_iff m ps
  have h2 := isRootModule_iff m ps'
  have h3 : isRootModule m ps = true ↔ isRootModule m ps' = true := by
    rw [h1, h2]
    constructor
    · rintro ⟨p, hp, hm⟩
      exact ⟨p, (h p).1 hp, hm⟩
    · rintro ⟨p, hp, hm⟩
      exact ⟨p, (h p).2 hp, hm⟩
  cases hb : isRootModule m ps <;> cases hb' : isRootModule m ps' <;> simp_all

/-- C17: `isRootModule` is existential and order-independent. For every module
identifier `m` and pattern list `ps`, `isRootModule(m, ps)` is true if and only
if at least one pattern of `ps` matches `m` without error; hence it has the same
value for every permutation of `ps`; and it is false for the empty list. With
the patterns `modules/*`, `environments/*/*` in either order
`environments/dev/api` is a root module. -/
theorem C17_isRootModule_existential :
    (∀ (m : GoString) (ps : List GoString),
      isRootModule m ps = true ↔ ∃ p, p ∈ ps ∧ filepath.Match p m = .ok true) ∧
    (∀ (m : GoString) (ps ps' : List GoString), ps.Perm ps' →
      isRootModule m ps = isRootModule m ps') ∧
    (∀ m : GoString, isRootModule m [] = false) ∧
    isRootModule "environments/dev/api".toList
      ["modules/*".toList, "environments/*/*".toList] = true ∧
    isRootModule "environments/dev/api".toList
      ["environments/*/*".toList, "modules/*".toList] = true := by
  refine ⟨isRootModule_iff, ?_, fun m => rfl, by decide!, by decide!⟩
  intro m ps ps' hp
  exact isRootModule_congr m ps ps' (fun p => hp.mem_iff)

/-- C17 at the two orders of the patterns `modules/*`, `environments/*/*`. -/
theorem C17_isRootModule_existential_witness :
    isRootModule "environments/dev/api".toList
        ["modules/*".toList, "environments/*/*".toList] =
      isRootModule "environments/dev/api".toList
        ["environments/*/*".toList, "modules/*".toList] :=
  C17_isRootModule_existential.2.1 "environments/dev/api".toList
    ["modules/*".toList, "environments/*/*".toList]
    ["environments/*/*".toList, "modules/*".toList] (List.Perm.swap _ _ _)

theorem isRootModule_insert_error (m q : GoString) (hq : ∃ e, filepath.Match q m = .error e) :
    ∀ (ps₁ ps₂ : List GoString),
      isRootModule m (ps₁ ++ q :: ps₂) = isRootModule m (ps₁ ++ ps₂) := by
  obtain ⟨e, he⟩ := hq
  intro ps₁
  induction ps₁ with
  | nil =>
    intro ps₂
    rw [List.nil_append, List.nil_append, isRootModule]
    simp only [he]
  | cons p ps ih =>
    intro ps₂
    rw [List.cons_append, List.cons_append, isRootModule, isRootModule, ih]

/-- The pattern `[`, an unclosed character class, is malformed for every name. -/
theorem filepath.Match_open_bracket (m : GoString) :
    filepath.Match ['['] m = .error GoError.ErrBadPattern := by
  have hsc : filepath.scanChunk ['['] = (false, ['['], []) := by decide
  have hcl : ∀ r, filepath.classLoop r 1 [] 0 false = some (.error GoError.ErrBadPattern) := by
    intro r
    simp [filepath.classLoop, filepath.getEsc]
  have hmc : filepath.matchChunk ['['] { cont := 0, chars := m } =
      .error GoError.ErrBadPattern := by
    unfold filepath.matchChunk
    rw [show (['['] : GoString).length = 0 + 1 from rfl, filepath.matchChunkLoop]
    simp [hcl]
  unfold filepath.Match
  rw [show (['['] : GoString).length = 0 + 1 from rfl, filepath.matchLoop]
  · simp [hsc, hmc]
  · intro h
    cases h

/-- The loop after a star skips bytes, not characters: it can leave the name
inside a multi-byte character, whose continuation bytes are then read as
`RuneError` of width 1 by `?` and by a character class, and differ from every
plain character. So `*??` matches the one character `€` of three bytes, which
`??` does not, and the star before the class of the replacement character
matches `é`. -/
theorem filepath.Match_inside_character :
    filepath.Match "*??".toList "€".toList = .ok true ∧
    filepath.Match "??".toList "€".toList = .ok false ∧
    filepath.Match "*??".toList "é".toList = .ok false ∧
    filepath.Match ['*', '[', utf8.RuneError, ']'] "é".toList = .ok true ∧
    filepath.Match ['[', utf8.RuneError, ']'] "é".toList = .ok false ∧
    filepath.Match "*é".toList "éé".toList = .ok true ∧
    filepath.Match "*a".toList "éa".toList = .ok true ∧
    isRootModule "é".toList [['*', '[', utf8.RuneError, ']']] = true := by
  decide!

/-! ## A malformed pattern matches no name -/

/-- The parse of a character class does not depend on the character tested: the
same error, or the same rest of the chunk. -/
theorem filepath.classLoop_shape (r r' : Char) :
    ∀ (fuel : Nat) (chunk : GoString) (nrange : Nat) (m m' : Bool),
      (filepath.classLoop r fuel chunk nrange m = none ∧
        filepath.classLoop r' fuel chunk nrange m' = none) ∨
      (∃ e, filepath.classLoop r fuel chunk nrange m = some (.error e) ∧
        filepath.classLoop r' fuel chunk nrange m' = some (.error e)) ∨
      (∃ a b c, filepath.classLoop r fuel chunk nrange m = some (.ok (a, c)) ∧
        filepath.classLoop r' fuel chunk nrange m' = some (.ok (b, c))) := by
  intro fuel
  induction fuel with
  | zero => intro chunk nrange m m'; exact Or.inl ⟨rfl, rfl⟩
  | succ fuel ih =>
    intro chunk nrange m m'
    unfold filepath.classLoop
    by_cases hc : (chunk.head? = some ']' && decide (nrange > 0)) = true
    · simp only [hc, if_true]
      exact Or.inr (Or.inr ⟨_, _, _, rfl, rfl⟩)
    · simp only [hc, if_false, Bool.false_eq_true]
      cases hg : filepath.getEsc chunk with
      | error e => exact Or.inr (Or.inl ⟨e, rfl, rfl⟩)
      | ok p =>
        obtain ⟨lo, chunk1⟩ := p
        simp only
        by_cases hd : chunk1.head? = some '-'
        · simp only [hd, if_true]
          cases hg2 : filepath.getEsc chunk1.tail with
          | error e => exact Or.inr (Or.inl ⟨e, rfl, rfl⟩)
          | ok p2 =>
            obtain ⟨hi, chunk2⟩ := p2
            exact ih chunk2 (nrange + 1) _ _
        · simp only [hd, if_false]
          exact ih chunk1 (nrange + 1) _ _

/-- Whether `matchChunk` rejects the chunk does not depend on the name. -/
theorem filepath.matchChunkLoop_err :
    ∀ (fuel : Nat) (chunk : GoString) (s s' : filepath.NameRest) (failed failed' : Bool),
      (filepath.matchChunkLoop fuel chunk s failed).map errOf =
        (filepath.matchChunkLoop fuel chunk s' failed').map errOf := by
  intro fuel
  induction fuel with
  | zero =>
    intro chunk s s' failed failed'
    cases chunk with
    | nil =>
      rw [filepath.matchChunkLoop, filepath.matchChunkLoop]
      rfl
    | cons c chunk =>
      rw [filepath.matchChunkLoop, filepath.matchChunkLoop]
  | succ fuel ih =>
    intro chunk s s' failed failed'
    cases chunk with
    | nil =>
      rw [filepath.matchChunkLoop, filepath.matchChunkLoop]
      rfl
    | cons c chunk =>
      unfold filepath.matchChunkLoop
      simp only
      by_cases h1 : c = '['
      · rw [if_pos h1, if_pos h1]
        rcases filepath.classLoop_shape
            (if (!(failed || s.isEmpty)) = true then s.decode.1 else Char.ofNat 0)
            (if (!(failed' || s'.isEmpty)) = true then s'.decode.1 else Char.ofNat 0)
            ((if (decide (chunk.head? = some '^')) = true then chunk.tail else chunk).length + 1)
            (if (decide (chunk.head? = some '^')) = true then chunk.tail else chunk) 0 false false with
          ⟨ha, hb⟩ | ⟨e, ha, hb⟩ | ⟨a, b, c', ha, hb⟩
        · rw [ha, hb]
        · rw [ha, hb]
        · rw [ha, hb]
          exact ih _ _ _ _ _
      · rw [if_neg h1, if_neg h1]
        by_cases h2 : c = '?'
        · rw [if_pos h2, if_pos h2]
          split <;> split <;> exact ih _ _ _ _ _
        · rw [if_neg h2, if_neg h2]
          by_cases h3 : c = '\\'
          · rw [if_pos h3, if_pos h3]
            cases chunk with
            | nil => rfl
            | cons c2 chunk2 =>
              simp only
              split <;> split <;> exact ih _ _ _ _ _
          · rw [if_neg h3, if_neg h3]
            split <;> split <;> exact ih _ _ _ _ _

theorem filepath.matchChunk_err (chunk : GoString) (s s' : filepath.NameRest) :
    errOf (filepath.matchChunk chunk s) = errOf (filepath.matchChunk chunk s') := by
  obtain ⟨r, hr⟩ := filepath.matchChunk_total chunk s
  obtain ⟨r', hr'⟩ := filepath.matchChunk_total chunk s'
  have h := filepath.matchChunkLoop_err chunk.length chunk s s' false false
  rw [hr, hr'] at h
  unfold filepath.matchChunk
  rw [hr, hr']
  simpa using h

theorem filepath.scanLoop_nil (p : GoString) (hp : p.head? ≠ some '*')
    (h : (filepath.scanLoop false p).1 = []) : p = [] := by
  cases p with
  | nil => rfl
  | cons c rest =>
    exfalso
    have hc : c ≠ '*' := by
      intro hc
      exact hp (by simp [hc])
    unfold filepath.scanLoop at h
    split at h
    · cases rest with
      | nil => simp at h
      | cons c2 rest2 => simp at h
    · split at h
      · simp at h
      · split at h
        · simp at h
        · simp [hc] at h

/-- An empty chunk ends the pattern: after the stars nothing is left. -/
theorem filepath.scanChunk_nil (p : GoString) (h : (filepath.scanChunk p).2.1 = []) :
    (filepath.scanChunk p).2.2 = [] := by
  unfold filepath.scanChunk at h ⊢
  simp only at h ⊢
  have hd : (p.dropWhile (fun c => c == '*')).head? ≠ some '*' := by
    intro hh
    have := List.head?_dropWhile_not (fun c => c == '*') p
    rw [hh] at this
    simp at this
  rw [filepath.scanLoop_nil _ hd h]
  rfl

/-- One try of the search after a star ends with an error only if `matchChunk`
rejects the chunk, and finds a match only for a chunk that it accepts. -/
theorem filepath.starTry_chunk (chunk : GoString) (last : Bool) (t : filepath.NameRest)
    (r : filepath.StarResult) (h : filepath.starTry chunk last t = some r) :
    (∀ e, r = StarResult.bad e →
      errOf (filepath.matchChunk chunk { cont := 0, chars := [] }) ≠ none) ∧
    (∀ t', r = StarResult.found t' →
      errOf (filepath.matchChunk chunk { cont := 0, chars := [] }) = none) := by
  have hm := filepath.matchChunk_err chunk t { cont := 0, chars := [] }
  unfold filepath.starTry at h
  split at h
  · rename_i r' he
    rw [he] at hm
    split at h
    · cases h
    · simp only [Option.some.injEq] at h
      subst h
      refine ⟨fun e h' => (by cases h'), fun t' _ => ?_⟩
      rw [← hm]
      rfl
  · cases h
  · rename_i e' he
    rw [he] at hm
    simp only [Option.some.injEq] at h
    subst h
    refine ⟨fun e _ => ?_, fun t' h' => (by cases h')⟩
    rw [← hm]
    simp [errOf]

theorem filepath.starBytes_chunk (chunk : GoString) (last : Bool) (chars : GoString) :
    ∀ (k : Nat) (r : filepath.StarResult), filepath.starBytes chunk last chars k = some r →
      (∀ e, r = StarResult.bad e →
        errOf (filepath.matchChunk chunk { cont := 0, chars := [] }) ≠ none) ∧
      (∀ t', r = StarResult.found t' →
        errOf (filepath.matchChunk chunk { cont := 0, chars := [] }) = none) := by
  intro k
  induction k with
  | zero => intro r h; simp [filepath.starBytes] at h
  | succ k ih =>
    intro r h
    rw [filepath.starBytes] at h
    split at h
    · rename_i r' he
      simp only [Option.some.injEq] at h
      subst h
      exact filepath.starTry_chunk chunk last _ _ he
    · exact ih r h

theorem filepath.starChars_chunk (chunk : GoString) (last : Bool) :
    ∀ (name : GoString),
      (∀ e, filepath.starChars chunk last name = StarResult.bad e →
        errOf (filepath.matchChunk chunk { cont := 0, chars := [] }) ≠ none) ∧
      (∀ t', filepath.starChars chunk last name = StarResult.found t' →
        errOf (filepath.matchChunk chunk { cont := 0, chars := [] }) = none) := by
  intro name
  induction name with
  | nil => simp [filepath.starChars]
  | cons c name ih =>
    unfold filepath.starChars
    split
    · exact ⟨fun e h => (by cases h), fun t' h => (by cases h)⟩
    · split
      · rename_i r he
        exact filepath.starBytes_chunk chunk last name _ r he
      · exact ih

/-- The search after a star ends with an error only if `matchChunk` rejects the
chunk. -/
theorem filepath.starLoop_bad (chunk : GoString) (last : Bool) :
    ∀ (name : filepath.NameRest) (e : GoError),
      filepath.starLoop chunk last name = StarResult.bad e →
      errOf (filepath.matchChunk chunk { cont := 0, chars := [] }) ≠ none := by
  intro name e h
  unfold filepath.starLoop at h
  split at h
  · rename_i r he
    exact (filepath.starBytes_chunk chunk last _ _ r he).1 e h
  · exact (filepath.starChars_chunk chunk last _).1 e h

/-- The search after a star finds a match only for a chunk that `matchChunk`
accepts. -/
theorem filepath.starLoop_found (chunk : GoString) (last : Bool) :
    ∀ (name t : filepath.NameRest), filepath.starLoop chunk last name = StarResult.found t →
      errOf (filepath.matchChunk chunk { cont := 0, chars := [] }) = none := by
  intro name t h
  unfold filepath.starLoop at h
  split at h
  · rename_i r he
    exact (filepath.starBytes_chunk chunk last _ _ r he).2 t h
  · exact (filepath.starChars_chunk chunk last _).2 t h

theorem chunksOf_cons (fuel : Nat) (c : Char) (p : GoString) :
    chunksOf (fuel + 1) (c :: p) =
      (filepath.scanChunk (c :: p)).2.1 :: chunksOf fuel (filepath.scanChunk (c :: p)).2.2 := by
  rw [chunksOf]
  intro h
  cases h

/-- An error of `Match` comes from a chunk that `matchChunk` rejects. -/
theorem filepath.matchLoop_error_chunk :
    ∀ (fuel : Nat) (p : GoString) (name : filepath.NameRest) (e : GoError),
      filepath.matchLoop fuel p name = some (.error e) →
      ∃ chunk, chunk ∈ chunksOf fuel p ∧
        errOf (filepath.matchChunk chunk { cont := 0, chars := [] }) ≠ none := by
  intro fuel
  induction fuel with
  | zero =>
    intro p name e h
    cases p with
    | nil => simp [filepath.matchLoop] at h
    | cons c p => simp [filepath.matchLoop] at h
  | succ fuel ih =>
    intro p name e h
    cases p with
    | nil => simp [filepath.matchLoop] at h
    | cons c rest =>
      rw [chunksOf_cons]
      have hm := filepath.matchChunk_err (filepath.scanChunk (c :: rest)).2.1 name
        { cont := 0, chars := [] }
      rw [filepath.matchLoop] at h
      · split at h
        · cases h
        · split at h
          · rename_i e' he
            refine ⟨_, List.mem_cons_self _ _, ?_⟩
            rw [he] at hm
            rw [← hm]
            simp [errOf]
          · split at h
            · obtain ⟨chunk, hc, hbad⟩ := ih _ _ e h
              exact ⟨chunk, List.mem_cons_of_mem _ hc, hbad⟩
            · split at h
              · obtain ⟨chunk, hc, hbad⟩ := ih _ _ e h
                exact ⟨chunk, List.mem_cons_of_mem _ hc, hbad⟩
              · rename_i e' he
                split at he
                · exact ⟨_, List.mem_cons_self _ _, filepath.starLoop_bad _ _ _ _ he⟩
                · cases he
              · cases h
      · intro h'
        cases h'

/-- When `Match` answers true, `matchChunk` has accepted every chunk of the
pattern. -/
theorem filepath.matchLoop_true_chunks :
    ∀ (fuel : Nat) (p : GoString) (name : filepath.NameRest),
      filepath.matchLoop fuel p name = some (.ok true) →
      ∀ chunk, chunk ∈ chunksOf fuel p →
        errOf (filepath.matchChunk chunk { cont := 0, chars := [] }) = none := by
  intro fuel
  induction fuel with
  | zero =>
    intro p name h chunk hc
    cases p with
    | nil => simp [chunksOf] at hc
    | cons c p => simp [chunksOf] at hc
  | succ fuel ih =>
    intro p name h chunk hc
    cases p with
    | nil => simp [chunksOf] at hc
    | cons c rest =>
      rw [chunksOf_cons] at hc
      have hm := filepath.matchChunk_err (filepath.scanChunk (c :: rest)).2.1 name
        { cont := 0, chars := [] }
      rw [filepath.matchLoop] at h
      · split at h
        · rename_i hst
          have hce : (filepath.scanChunk (c :: rest)).2.1 = [] := by
            simp only [Bool.and_eq_true, List.isEmpty_iff] at hst
            exact hst.2
          have hre := filepath.scanChunk_nil _ hce
          rw [hce, hre] at hc
          have hnil : chunksOf fuel [] = [] := by cases fuel <;> rfl
          rw [hnil, List.mem_singleton] at hc
          rw [hc]
          decide
        · split at h
          · cases h
          · rename_i r hr
            have hok : errOf (filepath.matchChunk (filepath.scanChunk (c :: rest)).2.1
                { cont := 0, chars := [] }) = none := by
              rw [hr] at hm
              rw [← hm]
              rfl
            rcases List.mem_cons.1 hc with rfl | hc
            · exact hok
            · split at h
              · exact ih _ _ h chunk hc
              · split at h
                · exact ih _ _ h chunk hc
                · cases h
                · cases h
      · intro h'
        cases h'

/-- A pattern that `Match` rejects for some name is malformed. -/
theorem Malformed_of_error (q m : GoString) (e : GoError)
    (h : filepath.Match q m = .error e) : Malformed q := by
  obtain ⟨r, hr, hM⟩ := filepath.Match_total q m
  rw [hM] at h
  rw [h] at hr
  exact filepath.matchLoop_error_chunk _ _ _ _ hr

/-- A malformed pattern matches no name. -/
theorem Match_ne_true_of_Malformed (q m : GoString) (h : Malformed q) :
    filepath.Match q m ≠ .ok true := by
  intro ht
  obtain ⟨r, hr, hM⟩ := filepath.Match_total q m
  rw [hM] at ht
  rw [ht] at hr
  obtain ⟨chunk, hc, hbad⟩ := h
  exact hbad (filepath.matchLoop_true_chunks _ _ _ hr chunk hc)

/-- A pattern that does not match the name can be put anywhere in the list. -/
theorem isRootModule_insert_ne_true (m q : GoString) (hq : filepath.Match q m ≠ .ok true) :
    ∀ (ps₁ ps₂ : List GoString),
      isRootModule m (ps₁ ++ q :: ps₂) = isRootModule m (ps₁ ++ ps₂) := by
  intro ps₁
  induction ps₁ with
  | nil =>
    intro ps₂
    rw [List.nil_append, List.nil_append, isRootModule]
    cases hm : filepath.Match q m with
    | error e => rfl
    | ok b =>
      cases b with
      | true => exact absurd hm hq
      | false => simp
  | cons p ps ih =>
    intro ps₂
    rw [List.cons_append, List.cons_append, isRootModule, isRootModule, ih]

/-- C18: an invalid glob pattern is skipped, not fatal. A malformed pattern `q`,
one with a chunk that `matchChunk` rejects, as is every pattern that
`filepath.Match` rejects with an error for some name (the unclosed character
class `[` for every name, `a*[` for the names that begin with `a`), matches no
module identifier, whether `Match` returns the error or `false`; so inserting
`q` at any position of a pattern list does not change `isRootModule`, and a
valid pattern placed after an invalid one is still tried. -/
theorem C18_invalid_pattern_skipped :
    (∀ (q : GoString), (Malformed q ∨ ∃ m₀ e, filepath.Match q m₀ = .error e) →
      ∀ (m : GoString) (ps₁ ps₂ : List GoString),
        filepath.Match q m ≠ .ok true ∧
        isRootModule m (ps₁ ++ q :: ps₂) = isRootModule m (ps₁ ++ ps₂)) ∧
    (∀ m : GoString, filepath.Match "[".toList m = .error GoError.ErrBadPattern) ∧
    (∀ (m : GoString) (ps₁ ps₂ : List GoString),
      isRootModule m (ps₁ ++ "[".toList :: ps₂) = isRootModule m (ps₁ ++ ps₂)) ∧
    filepath.Match "a*[".toList "a".toList = .error GoError.ErrBadPattern ∧
    filepath.Match "a*[".toList "b".toList = .ok false ∧
    isRootModule "environments/dev/api".toList ["[".toList, "environments/*/*".toList] = true ∧
    isRootModule "b".toList ["a*[".toList, "*".toList] = true := by
  refine ⟨?_, filepath.Match_open_bracket, ?_, by decide!, by decide!, by decide!, by decide!⟩
  · intro q hq m ps₁ ps₂
    have hmal : Malformed q := by
      rcases hq with h | ⟨m₀, e, h⟩
      · exact h
      · exact Malformed_of_error q m₀ e h
    have hne := Match_ne_true_of_Malformed q m hmal
    exact ⟨hne, isRootModule_insert_ne_true m q hne ps₁ ps₂⟩
  · intro m ps₁ ps₂
    exact isRootModule_insert_error m _ ⟨_, filepath.Match_open_bracket m⟩ ps₁ ps₂

/-- C18 at the pattern `a*[`, rejected for the name `a`, in front of
`environments/*/*`: for `environments/dev/api` it is not an error and does not
match, and the pattern after it is tried. -/
theorem C18_invalid_pattern_skipped_witness :
    (∃ m₀ e, filepath.Match "a*[".toList m₀ = .error e) ∧
    filepath.Match "a*[".toList "environments/dev/api".toList = .ok false ∧
    isRootModule "environments/dev/api".toList
        ([] ++ "a*[".toList :: ["environments/*/*".toList]) =
      isRootModule "environments/dev/api".toList ([] ++ ["environments/*/*".toList]) :=
  ⟨⟨"a".toList, GoError.ErrBadPattern, by decide!⟩, by decide!,
    (C18_invalid_pattern_skipped.1 "a*[".toList
      (Or.inr ⟨"a".toList, GoError.ErrBadPattern, by decide!⟩)
      "environments/dev/api".toList [] ["environments/*/*".toList]).2⟩

/-! ## Edge construction in `Analyze` -/

theorem processModuleCalls_cons_remote (root path relPath source : GoString)
    (notExist : GoString → Bool) (g : DependencyGraph) (calls : List GoString)
    (h : isLocalPath source = false) :
    processModuleCalls root path relPath notExist g (source :: calls) =
      processModuleCalls root path relPath notExist g calls := by
  rw [processModuleCalls]
  simp [ResolveModuleSource, h]

theorem processModuleCalls_cons_local (root path relPath source : GoString)
    (notExist : GoString → Bool) (g : DependencyGraph) (calls : List GoString)
    (h : isLocalPath source = true) :
    processModuleCalls root path relPath notExist g (source :: calls) =
      match filepath.Rel root (filepath.Clean (filepath.Join [path, source])) with
      | .error _ => processModuleCalls root path relPath notExist g calls
      | .ok rel =>
        if notExist (filepath.Clean (filepath.Join [path, source])) then
          processModuleCalls root path relPath notExist g calls
        else processModuleCalls root path relPath notExist (AddDependency g relPath rel) calls := by
  rw [processModuleCalls]
  simp [ResolveModuleSource, h, filepath.Clean_ne_nil]

/-- The forward edges after the loop over the module calls of one module. -/
theorem processModuleCalls_edges (root path relPath : GoString) (notExist : GoString → Bool)
    (a b : GoString) :
    ∀ (calls : List GoString) (g : DependencyGraph),
      FwdEdge (processModuleCalls root path relPath notExist g calls) a b ↔
        FwdEdge g a b ∨
          (a = filepath.Clean relPath ∧
            ∃ source rel, source ∈ calls ∧ callTarget root path notExist source rel ∧
              b = filepath.Clean rel) := by
  intro calls
  induction calls with
  | nil => intro g; simp [processModuleCalls]
  | cons source calls ih =>
    intro g
    by_cases hl : isLocalPath source = true
    · rw [processModuleCalls_cons_local _ _ _ _ _ _ _ hl]
      cases hrel : filepath.Rel root (filepath.Clean (filepath.Join [path, source])) with
      | error e =>
        simp only [ih]
        constructor
        · rintro (h | ⟨ha, s, r, hs, ht, hb⟩)
          · exact Or.inl h
          · exact Or.inr ⟨ha, s, r, List.mem_cons_of_mem _ hs, ht, hb⟩
        · rintro (h | ⟨ha, s, r, hs, ht, hb⟩)
          · exact Or.inl h
          · rcases List.mem_cons.1 hs with hs | hs
            · subst hs
              rw [ht.2.2] at hrel
              cases hrel
            · exact Or.inr ⟨ha, s, r, hs, ht, hb⟩
      | ok rel =>
        by_cases hne : notExist (filepath.Clean (filepath.Join [path, source])) = true
        · simp only [hne, if_true, ih]
          constructor
          · rintro (h | ⟨ha, s, r, hs, ht, hb⟩)
            · exact Or.inl h
            · exact Or.inr ⟨ha, s, r, List.mem_cons_of_mem _ hs, ht, hb⟩
          · rintro (h | ⟨ha, s, r, hs, ht, hb⟩)
            · exact Or.inl h
            · rcases List.mem_cons.1 hs with hs | hs
              · subst hs
                rw [ht.2.1] at hne
                cases hne
              · exact Or.inr ⟨ha, s, r, hs, ht, hb⟩
        · simp only [hne, if_false, ih, Bool.false_eq_true]
          unfold FwdEdge
          rw [mem_Dependencies_AddDependency]
          have hne' : notExist (filepath.Clean (filepath.Join [path, source])) = false := by
            simpa using hne
          constructor
          · rintro ((h | ⟨ha, hb⟩) | ⟨ha, s, r, hs, ht, hb⟩)
            · exact Or.inl h
            · exact Or.inr ⟨ha, source, rel, List.mem_cons_self _ _, ⟨hl, hne', hrel⟩, hb⟩
            · exact Or.inr ⟨ha, s, r, List.mem_cons_of_mem _ hs, ht, hb⟩
          · rintro (h | ⟨ha, s, r, hs, ht, hb⟩)
            · exact Or.inl (Or.inl h)
            · rcases List.mem_cons.1 hs with hs | hs
              · subst hs
                have hr : rel = r := by
                  have := ht.2.2
                  rw [hrel] at this
                  cases this
                  rfl
                subst hr
                exact Or.inl (Or.inr ⟨ha, hb⟩)
              · exact Or.inr ⟨ha, s, r, hs, ht, hb⟩
    · have hl' : isLocalPath source = false := by simpa using hl
      rw [processModuleCalls_cons_remote _ _ _ _ _ _ _ hl', ih]
      constructor
      · rintro (h | ⟨ha, s, r, hs, ht, hb⟩)
        · exact Or.inl h
        · exact Or.inr ⟨ha, s, r, List.mem_cons_of_mem _ hs, ht, hb⟩
      · rintro (h | ⟨ha, s, r, hs, ht, hb⟩)
        · exact Or.inl h
        · rcases List.mem_cons.1 hs with hs | hs
          · subst hs
            rw [ht.1] at hl'
            cases hl'
          · exact Or.inr ⟨ha, s, r, hs, ht, hb⟩

theorem analyzeDir_edges (root : GoString) (env : AnalyzeEnv) (path : GoString)
    (entries : List DirEntry) (g g' : DependencyGraph)
    (h : analyzeDir root env path entries g = .ok g') (a b : GoString) :
    FwdEdge g' a b ↔ FwdEdge g a b ∨
      edgeFromCalls root env.NotExist
        (if hasTerraformEntry entries then
          match env.LoadModule path with
          | some calls => [(path, calls)]
          | none => []
        else []) a b := by
  unfold analyzeDir at h
  by_cases htf : hasTerraformEntry entries = true
  · simp only [htf, Bool.not_true, Bool.false_eq_true, if_false, if_true] at h ⊢
    cases hl : env.LoadModule path with
    | none =>
      simp only [hl, Except.ok.injEq] at h
      subst h
      simp [edgeFromCalls]
    | some calls =>
      simp only [hl] at h
      cases hr : filepath.Rel root path with
      | error e => simp [hr] at h
      | ok relPath =>
        simp only [hr, Except.ok.injEq] at h
        subst h
        rw [processModuleCalls_edges]
        simp only [edgeFromCalls, List.mem_singleton, Prod.mk.injEq]
        constructor
        · rintro (h | ⟨ha, s, r, hs, ht, hb⟩)
          · exact Or.inl h
          · exact Or.inr ⟨path, calls, relPath, s, r, ⟨rfl, rfl⟩, hr, ha, hs, ht, hb⟩
        · rintro (h | ⟨p, c, rp, s, r, ⟨rfl, rfl⟩, hrp, ha, hs, ht, hb⟩)
          · exact Or.inl h
          · rw [hr] at hrp
            cases hrp
            exact Or.inr ⟨ha, s, r, hs, ht, hb⟩
  · simp only [htf, Bool.not_false, if_true, Except.ok.injEq, Bool.false_eq_true, if_false] at h ⊢
    subst h
    simp [edgeFromCalls]

theorem edgeFromCalls_append (root : GoString) (notExist : GoString → Bool)
    (m1 m2 : List (GoString × List GoString)) (a b : GoString) :
    edgeFromCalls root notExist (m1 ++ m2) a b ↔
      edgeFromCalls root notExist m1 a b ∨ edgeFromCalls root notExist m2 a b := by
  unfold edgeFromCalls
  constructor
  · rintro ⟨p, c, rp, s, r, hm, h⟩
    rcases List.mem_append.1 hm with hm | hm
    · exact Or.inl ⟨p, c, rp, s, r, hm, h⟩
    · exact Or.inr ⟨p, c, rp, s, r, hm, h⟩
  · rintro (⟨p, c, rp, s, r, hm, h⟩ | ⟨p, c, rp, s, r, hm, h⟩)
    · exact ⟨p, c, rp, s, r, List.mem_append_left _ hm, h⟩
    · exact ⟨p, c, rp, s, r, List.mem_append_right _ hm, h⟩

mutual
/-- The forward edges after the walk of a tree: the edges before, and one edge for
every module call of a parsed module whose source is Local and exists on disk. -/
theorem walkDir_edges (root : GoString) (env : AnalyzeEnv) (a b : GoString) :
    ∀ (t : FsTree) (path : GoString) (g g' : DependencyGraph),
      walkDir root env path t g = .ok g' →
        (FwdEdge g' a b ↔ FwdEdge g a b ∨
          edgeFromCalls root env.NotExist (parsedModules env path t) a b)
  | .file _, path, g, g', h => by
    rw [walkDir] at h
    cases h
    simp [parsedModules, edgeFromCalls]
  | .dir name children, path, g, g', h => by
    rw [walkDir] at h
    rw [parsedModules]
    by_cases hskip : (decide (name = ".terraform".toList) ||
        strings.ContainsStr path ".terragrunt-cache".toList) = true
    · simp only [hskip, if_true] at h ⊢
      cases h
      simp [edgeFromCalls]
    · simp only [hskip, if_false, Bool.false_eq_true] at h ⊢
      cases hd : analyzeDir root env path (children.map FsTree.entry) g with
      | error e => simp [hd] at h
      | ok g1 =>
        simp only [hd] at h
        rw [walkEntries_edges root env a b children path g1 g' h,
          analyzeDir_edges root env path _ g g1 hd a b, edgeFromCalls_append, or_assoc]
/-- The forward edges after the loop over the entries of a directory. -/
theorem walkEntries_edges (root : GoString) (env : AnalyzeEnv) (a b : GoString) :
    ∀ (ts : List FsTree) (path : GoString) (g g' : DependencyGraph),
      walkEntries root env path ts g = .ok g' →
        (FwdEdge g' a b ↔ FwdEdge g a b ∨
          edgeFromCalls root env.NotExist (parsedModulesIn env path ts) a b)
  | [], path, g, g', h => by
    rw [walkEntries] at h
    cases h
    simp [parsedModulesIn, edgeFromCalls]
  | d1 :: dirs, path, g, g', h => by
    rw [walkEntries] at h
    rw [parsedModulesIn]
    cases hd : walkDir root env (filepath.Join [path, d1.name]) d1 g with
    | error e => simp [hd] at h
    | ok g1 =>
      simp only [hd] at h
      rw [walkEntries_edges root env a b dirs path g1 g' h,
        walkDir_edges root env a b d1 _ g g1 hd, edgeFromCalls_append, or_assoc]
end

theorem processModuleCalls_cons_missing (root path relPath source : GoString)
    (notExist : GoString → Bool) (g : DependencyGraph) (calls : List GoString)
    (h : isLocalPath source = true)
    (hne : notExist (filepath.Clean (filepath.Join [path, source])) = true) :
    processModuleCalls root path relPath notExist g (source :: calls) =
      processModuleCalls root path relPath notExist g calls := by
  rw [processModuleCalls_cons_local _ _ _ _ _ _ _ h]
  cases filepath.Rel root (filepath.Clean (filepath.Join [path, source])) with
  | error e => rfl
  | ok rel => simp [hne]

/-- C15: edge construction in `Analyze`, with the filesystem an existence
predicate and the parser a list of source strings per module directory. In the
loop over the module calls of a module, and in the graph `Analyze` returns, an
edge `module → target` is added if and only if some module call of that (parsed)
module has a Local source whose resolved path, the cleaned join with the module
directory, exists on disk, the target being that path relative to the analysis
root; a Remote source or a Local source that resolves to a path missing on disk
adds no edge and leaves the remaining calls to be processed. On the test tree
`prod/app` keeps its one local module. -/
theorem C15_edge_construction :
    (∀ (root path relPath : GoString) (notExist : GoString → Bool) (calls : List GoString)
        (g : DependencyGraph) (a b : GoString),
      FwdEdge (processModuleCalls root path relPath notExist g calls) a b ↔
        FwdEdge g a b ∨
          (a = filepath.Clean relPath ∧
            ∃ source rel, source ∈ calls ∧ callTarget root path notExist source rel ∧
              b = filepath.Clean rel)) ∧
    (∀ (an : Analyzer) (env : AnalyzeEnv) (tree : FsTree) (g' : DependencyGraph),
      Analyze an env tree = .ok g' →
      ∀ a b : GoString, FwdEdge g' a b ↔ FwdEdge an.graph a b ∨
        edgeFromCalls an.root env.NotExist (parsedModules env an.root tree) a b) ∧
    (∀ (root path relPath source : GoString) (notExist : GoString → Bool)
        (g : DependencyGraph) (calls : List GoString),
      isLocalPath source = false →
      processModuleCalls root path relPath notExist g (source :: calls) =
        processModuleCalls root path relPath notExist g calls) ∧
    (∀ (root path relPath source : GoString) (notExist : GoString → Bool)
        (g : DependencyGraph) (calls : List GoString),
      isLocalPath source = true →
      notExist (filepath.Clean (filepath.Join [path, source])) = true →
      processModuleCalls root path relPath notExist g (source :: calls) =
        processModuleCalls root path relPath notExist g calls) ∧
    Analyze { root := "/r".toList, graph := NewDependencyGraph } analyzeEnv analyzeTree =
      .ok
        { Dependencies :=
            [ ("environments/dev/api".toList,
                ["modules/network".toList, "modules/database".toList]),
              ("environments/prod/app".toList, ["modules/network".toList]),
              ("modules/database".toList, ["modules/common".toList]) ],
          Dependents :=
            [ ("modules/network".toList,
                ["environments/dev/api".toList, "environments/prod/app".toList]),
              ("modules/database".toList, ["environments/dev/api".toList]),
              ("modules/common".toList, ["modules/database".toList]) ] } := by
  refine ⟨?_, ?_, ?_, ?_, by decide!⟩
  · intro root path relPath notExist calls g a b
    exact processModuleCalls_edges root path relPath notExist a b calls g
  · intro an env tree g' h a b
    exact walkDir_edges an.root env a b tree an.root an.graph g' h
  · intro root path relPath source notExist g calls h
    exact processModuleCalls_cons_remote root path relPath source notExist g calls h
  · intro root path relPath source notExist g calls h hne
    exact processModuleCalls_cons_missing root path relPath source notExist g calls h hne

/-- C15 at the calls of `prod/app`: the registry source and the source that is
missing on disk are passed over, the calls after them are processed. -/
theorem C15_edge_construction_witness :
    isLocalPath "terraform-aws-modules/vpc/aws".toList = false ∧
    processModuleCalls "/r".toList "/r/environments/prod/app".toList
        "environments/prod/app".toList analyzeEnv.NotExist NewDependencyGraph
        ["terraform-aws-modules/vpc/aws".toList, "../../../modules/missing".toList,
          "../../../modules/network".toList] =
      processModuleCalls "/r".toList "/r/environments/prod/app".toList
        "environments/prod/app".toList analyzeEnv.NotExist NewDependencyGraph
        ["../../../modules/network".toList] :=
  ⟨by decide,
    (C15_edge_construction.2.2.1 "/r".toList "/r/environments/prod/app".toList
      "environments/prod/app".toList "terraform-aws-modules/vpc/aws".toList analyzeEnv.NotExist
      NewDependencyGraph _ (by decide)).trans
    (C15_edge_construction.2.2.2.1 "/r".toList "/r/environments/prod/app".toList
      "environments/prod/app".toList "../../../modules/missing".toList analyzeEnv.NotExist
      NewDependencyGraph _ (by decide) (by decide!))⟩

/-! ## Cycle detection -/

theorem IntMap.get_set_mark (m : IntMap) (k k' : GoString) (v : Nat) :
    (m.set k v).get k' = if k = k' then v else m.get k' := by
  induction m with
  | nil => simp [IntMap.set, IntMap.get]
  | cons e rest ih =>
    obtain ⟨k0, v0⟩ := e
    unfold IntMap.set
    by_cases h : k0 = k
    · subst h
      by_cases h' : k0 = k' <;> simp [IntMap.get, h']
    · by_cases h' : k0 = k'
      · subst h'
        simp [IntMap.get, h, Ne.symm h]
      · simp [IntMap.get, h, h', ih]

/-- The loop that looks for `node` on the stack finds its first occurrence. -/
theorem cycleStartFrom_mem (node : GoString) :
    ∀ (path : List GoString) (i : Int), node ∈ path →
      ∃ pre post, path = pre ++ node :: post ∧ node ∉ pre ∧
        cycleStartFrom node i path = i + pre.length := by
  intro path
  induction path with
  | nil => intro i h; simp at h
  | cons n rest ih =>
    intro i h
    unfold cycleStartFrom
    by_cases hn : n = node
    · subst hn
      exact ⟨[], rest, rfl, by simp, by simp⟩
    · have hr : node ∈ rest := by
        rcases List.mem_cons.1 h with h | h
        · exact absurd h.symm hn
        · exact h
      obtain ⟨pre, post, hp, hnp, hc⟩ := ih (i + 1) hr
      refine ⟨n :: pre, post, by rw [hp]; rfl, ?_, ?_⟩
      · simp only [List.mem_cons, not_or]
        exact ⟨fun h' => hn h'.symm, hnp⟩
      · simp only [hn, if_false, hc, List.length_cons]
        push_cast
        ring

theorem CycleFrame.refl (st : CycleState) (hle : ∀ x, st.visited.get x ≤ 2) :
    CycleFrame st st :=
  ⟨hle, rfl, fun _ _ => rfl, fun _ h => Or.inl h, ⟨[], by simp⟩⟩

theorem CycleFrame.trans {s1 s2 s3 : CycleState} (h1 : CycleFrame s1 s2) (h2 : CycleFrame s2 s3) :
    CycleFrame s1 s3 := by
  refine ⟨h2.le_two, h2.path_eq.trans h1.path_eq, ?_, ?_, ?_⟩
  · intro x hx
    rw [h2.keep x (by rw [h1.keep x hx]; exact hx), h1.keep x hx]
  · intro x hx
    rcases h1.fresh x hx with h | h
    · exact h2.fresh x h
    · right
      rw [h2.keep x (by rw [h]; decide), h]
  · obtain ⟨n1, e1⟩ := h1.cycles_ext
    obtain ⟨n2, e2⟩ := h2.cycles_ext
    exact ⟨n1 ++ n2, by rw [e2, e1, List.append_assoc]⟩

theorem forEach_frame (f : GoString → CycleState → Option CycleState)
    (hf : ∀ d s s', (∀ x, s.visited.get x ≤ 2) → f d s = some s' → CycleFrame s s') :
    ∀ (ds : List GoString) (s s' : CycleState), (∀ x, s.visited.get x ≤ 2) →
      forEach f ds s = some s' → CycleFrame s s' := by
  intro ds
  induction ds with
  | nil =>
    intro s s' hle h
    simp only [forEach, Option.some.injEq] at h
    subst h
    exact CycleFrame.refl s hle
  | cons d ds ih =>
    intro s s' hle h
    unfold forEach at h
    cases hfd : f d s with
    | none => simp [hfd] at h
    | some s1 =>
      simp only [hfd] at h
      have h1 := hf d s s1 hle hfd
      exact h1.trans (ih s1 s' h1.le_two h)

/-- The state in which `dfs(node)` runs the loop over the dependencies of an
unvisited `node`: `node` is marked 1 and pushed. -/
theorem le_two_push (st : CycleState) (node : GoString) (hle : ∀ x, st.visited.get x ≤ 2) :
    ∀ x, (st.visited.set node 1).get x ≤ 2 := by
  intro x
  rw [IntMap.get_set_mark]
  split
  · omega
  · exact hle x

/-- Every call of `dfs` keeps the frame, and leaves `node` marked. -/
theorem cycleDfs_frame (g : DependencyGraph) :
    ∀ (fuel : Nat) (node : GoString) (st : CycleState) (r : CycleState × Bool),
      (∀ x, st.visited.get x ≤ 2) → cycleDfs g fuel node st = some r →
        CycleFrame st r.1 ∧ r.1.visited.get node ≠ 0 := by
  intro fuel
  induction fuel with
  | zero => intro _ _ _ _ h; simp [cycleDfs] at h
  | succ fuel ih =>
    intro node st r hle h
    unfold cycleDfs at h
    by_cases h1 : st.visited.get node = 1
    · simp only [h1, if_true] at h
      split at h
      · simp only [Option.some.injEq] at h
        subst h
        exact ⟨⟨hle, rfl, fun _ _ => rfl, fun _ hx => Or.inl hx, ⟨_, rfl⟩⟩, by simp [h1]⟩
      · simp only [Option.some.injEq] at h
        subst h
        exact ⟨CycleFrame.refl st hle, by simp [h1]⟩
    · simp only [h1, if_false] at h
      by_cases h2 : st.visited.get node = 2
      · simp only [h2, if_true, Option.some.injEq] at h
        subst h
        exact ⟨CycleFrame.refl st hle, by simp [h2]⟩
      · simp only [h2, if_false] at h
        have h0 : st.visited.get node = 0 := by
          have := hle node
          omega
        cases hloop : forEach (fun dep s => (cycleDfs g fuel dep s).map Prod.fst)
            (g.Dependencies.get node)
            { st with visited := st.visited.set node 1, path := st.path ++ [node] } with
        | none => simp [hloop] at h
        | some st2 =>
          simp only [hloop, Option.some.injEq] at h
          subst h
          have hfr := forEach_frame _ (fun d s s' hs hd => by
            cases hc : cycleDfs g fuel d s with
            | none => simp [hc] at hd
            | some r' =>
              simp only [hc, Option.map_some', Option.some.injEq] at hd
              subst hd
              exact (ih d s r' hs hc).1) _ _ _ (le_two_push st node hle) hloop
          refine ⟨⟨?_, ?_, ?_, ?_, ?_⟩, ?_⟩
          · intro x
            simp only [IntMap.get_set_mark]
            split
            · omega
            · exact hfr.le_two x
          · simp only [hfr.path_eq, List.dropLast_concat]
          · intro x hx
            have hxn : node ≠ x := by
              intro hxn
              subst hxn
              exact hx h0
            simp only [IntMap.get_set_mark, hxn, if_false]
            rw [hfr.keep x (by simp only [IntMap.get_set_mark, hxn, if_false]; exact hx)]
            simp only [IntMap.get_set_mark, hxn, if_false]
          · intro x hx
            simp only [IntMap.get_set_mark]
            by_cases hxn : node = x
            · simp [hxn]
            · simp only [hxn, if_false]
              exact hfr.fresh x (by simp only [IntMap.get_set_mark, hxn, if_false]; exact hx)
          · exact hfr.cycles_ext
          · simp [IntMap.get_set_mark]

theorem lt_succ_sum_map (f : GoString → Nat) :
    ∀ (l : List GoString) (d : GoString), d ∈ l → f d < 1 + (l.map f).sum := by
  intro l
  induction l with
  | nil => intro d h; simp at h
  | cons a l ih =>
    intro d h
    simp only [List.map_cons, List.sum_cons]
    rcases List.mem_cons.1 h with h | h
    · subst h; omega
    · have := ih d h
      omega

theorem cycles_eq_of_ext (c0 n1 n2 : List (List GoString)) (h : c0 ++ n1 ++ n2 = c0) :
    n1 = [] ∧ n2 = [] := by
  have hlen := congrArg List.length h
  simp only [List.length_append] at hlen
  exact ⟨List.length_eq_zero.1 (by omega), List.length_eq_zero.1 (by omega)⟩

/-- The cycle `dfs` records when it meets a `node` marked 1 is a cycle of the
graph. -/
theorem IsCycle_drop (g : DependencyGraph) (st : CycleState) (node : GoString)
    (hwf : CycleWF g st) (hpre : CallPre g st node) (h1 : st.visited.get node = 1) :
    cycleStartFrom node 0 st.path ≥ 0 ∧
      IsCycle g (st.path.drop (cycleStartFrom node 0 st.path).toNat) := by
  have hmem : node ∈ st.path := (hwf.gray node).1 h1
  obtain ⟨pre, post, hp, _, hc⟩ := cycleStartFrom_mem node st.path 0 hmem
  have hc' : cycleStartFrom node 0 st.path = (pre.length : Int) := by simpa using hc
  refine ⟨by rw [hc']; exact Int.ofNat_nonneg _, ?_⟩
  rw [hc', Int.toNat_ofNat]
  have hdrop : st.path.drop pre.length = node :: post := by
    rw [hp]
    exact List.drop_left' rfl
  rw [hdrop]
  have hnd := hwf.nodup
  have hch := hwf.chain
  rw [hp] at hnd hch
  refine ⟨(List.nodup_append.1 hnd).2.1, hch.right_of_append, ?_⟩
  have hlast : st.path.getLast? = (node :: post).getLast? := by
    rw [hp]
    exact List.getLast?_append_cons pre node post
  cases hl : (node :: post).getLast? with
  | none => simp at hl
  | some l =>
    refine ⟨node, l, rfl, rfl, ?_⟩
    exact hpre l (by rw [hlast, hl])

theorem CycleInv_push (g : DependencyGraph) (st : CycleState) (node : GoString)
    (hinv : CycleInv g st) (hpre : CallPre g st node) (h0 : st.visited.get node = 0) :
    CycleInv g { st with visited := st.visited.set node 1, path := st.path ++ [node] } := by
  have hnp : node ∉ st.path := by
    intro hm
    have := (hinv.wf.gray node).2 hm
    omega
  refine ⟨⟨?_, ?_, ?_, le_two_push st node hinv.wf.le_two⟩, hinv.sound, ?_⟩
  · intro x
    simp only [IntMap.get_set_mark, List.mem_append, List.mem_singleton]
    by_cases hx : node = x
    · subst hx
      simp
    · simp only [hx, if_false, hinv.wf.gray x]
      constructor
      · exact Or.inl
      · rintro (h | h)
        · exact h
        · exact absurd h.symm hx
  · exact nodup_append_singleton _ _ hinv.wf.nodup hnp
  · refine List.Chain'.append hinv.wf.chain (List.chain'_singleton _) ?_
    intro x hx y hy
    simp only [List.head?_cons, Option.mem_def, Option.some.injEq] at hy
    subst hy
    exact hpre x hx
  · intro hc
    obtain ⟨rank, hr⟩ := hinv.rank hc
    refine ⟨rank, ?_⟩
    intro x hx d hd
    simp only [IntMap.get_set_mark] at hx ⊢
    have hxn : node ≠ x := by
      intro h
      subst h
      simp at hx
    simp only [hxn, if_false] at hx
    obtain ⟨hd2, hlt⟩ := hr x hx d hd
    have hdn : node ≠ d := by
      intro h
      subst h
      omega
    simp only [hdn, if_false]
    exact ⟨hd2, hlt⟩

theorem CycleInv_pop (g : DependencyGraph) (st st2 : CycleState) (node : GoString)
    (hinv : CycleInv g st2) (hpath : st2.path = st.path ++ [node])
    (hdeps : st2.cycles = [] → ∀ d, FwdEdge g node d → st2.visited.get d = 2) :
    CycleInv g { st2 with path := st2.path.dropLast, visited := st2.visited.set node 2 } := by
  have hnd := hinv.wf.nodup
  have hch := hinv.wf.chain
  rw [hpath] at hnd hch
  have hnp : node ∉ st.path := by
    intro hm
    exact (List.nodup_append.1 hnd).2.2 hm (List.mem_singleton_self _)
  have hgray : st2.visited.get node = 1 :=
    (hinv.wf.gray node).2 (by rw [hpath]; simp)
  refine ⟨⟨?_, ?_, ?_, ?_⟩, hinv.sound, ?_⟩
  · intro x
    simp only [IntMap.get_set_mark, hpath, List.dropLast_concat]
    by_cases hx : node = x
    · subst hx
      simp [hnp]
    · simp only [hx, if_false, hinv.wf.gray x, hpath, List.mem_append, List.mem_singleton]
      constructor
      · rintro (h | h)
        · exact h
        · exact absurd h.symm hx
      · exact Or.inl
  · simp only [hpath, List.dropLast_concat]
    exact (List.nodup_append.1 hnd).1
  · simp only [hpath, List.dropLast_concat]
    exact hch.left_of_append
  · intro x
    simp only [IntMap.get_set_mark]
    split
    · omega
    · exact hinv.wf.le_two x
  · intro hc
    have hc2 : st2.cycles = [] := hc
    obtain ⟨rank, hr⟩ := hinv.rank hc2
    have hblack := hdeps hc2
    refine ⟨fun y => if y = node then 1 + ((g.Dependencies.get node).map rank).sum else rank y, ?_⟩
    intro x hx d hd
    simp only [IntMap.get_set_mark] at hx ⊢
    by_cases hxn : node = x
    · subst hxn
      have hd2 := hblack d hd
      have hdn : node ≠ d := by
        intro h
        subst h
        omega
      have hdn' : ¬ d = node := fun h => hdn h.symm
      simp only [hdn, if_false, hdn', if_true]
      exact ⟨hd2, lt_succ_sum_map rank _ d hd⟩
    · simp only [hxn, if_false] at hx
      obtain ⟨hd2, hlt⟩ := hr x hx d hd
      have hdn : node ≠ d := by
        intro h
        subst h
        omega
      have hdn' : ¬ d = node := fun h => hdn h.symm
      have hxn' : ¬ x = node := fun h => hxn h.symm
      simp only [hdn, if_false, hdn', hxn']
      exact ⟨hd2, hlt⟩

theorem forEach_inv (g : DependencyGraph) (f : GoString → CycleState → Option CycleState)
    (hframe : ∀ d s s', (∀ x, s.visited.get x ≤ 2) → f d s = some s' → CycleFrame s s')
    (hinv : ∀ d s s', CycleInv g s → CallPre g s d → f d s = some s' →
      CycleInv g s' ∧ (s'.cycles = s.cycles → s'.visited.get d = 2)) :
    ∀ (ds : List GoString) (s s' : CycleState), CycleInv g s → (∀ d, d ∈ ds → CallPre g s d) →
      forEach f ds s = some s' →
        CycleInv g s' ∧ (s'.cycles = s.cycles → ∀ d, d ∈ ds → s'.visited.get d = 2) := by
  intro ds
  induction ds with
  | nil =>
    intro s s' hs _ h
    simp only [forEach, Option.some.injEq] at h
    subst h
    exact ⟨hs, fun _ d hd => by simp at hd⟩
  | cons d ds ih =>
    intro s s' hs hpre h
    unfold forEach at h
    cases hfd : f d s with
    | none => simp [hfd] at h
    | some s1 =>
      simp only [hfd] at h
      have hf1 := hframe d s s1 hs.wf.le_two hfd
      obtain ⟨hi1, hb1⟩ := hinv d s s1 hs (hpre d (List.mem_cons_self _ _)) hfd
      have hpre1 : ∀ e, e ∈ ds → CallPre g s1 e := by
        intro e he l hl
        rw [hf1.path_eq] at hl
        exact hpre e (List.mem_cons_of_mem _ he) l hl
      obtain ⟨hi', hb'⟩ := ih s1 s' hi1 hpre1 h
      have hf' := forEach_frame f hframe ds s1 s' hf1.le_two h
      refine ⟨hi', ?_⟩
      intro hc e he
      obtain ⟨n1, e1⟩ := hf1.cycles_ext
      obtain ⟨n2, e2⟩ := hf'.cycles_ext
      have hn : n1 = [] ∧ n2 = [] := by
        apply cycles_eq_of_ext s.cycles
        rw [← e1, ← e2, hc]
      have hc1 : s1.cycles = s.cycles := by rw [e1, hn.1, List.append_nil]
      have hc2 : s'.cycles = s1.cycles := by rw [e2, hn.2, List.append_nil]
      rcases List.mem_cons.1 he with he | he
      · subst he
        have := hb1 hc1
        rw [hf'.keep e (by rw [this]; decide), this]
      · exact hb' hc2 e he

/-- Every call of `dfs` made from a well-formed state keeps the invariant; and if
it records no cycle, it leaves `node` visited (2). -/
theorem cycleDfs_inv (g : DependencyGraph) :
    ∀ (fuel : Nat) (node : GoString) (st : CycleState) (r : CycleState × Bool),
      CycleInv g st → CallPre g st node → cycleDfs g fuel node st = some r →
        CycleInv g r.1 ∧ (r.1.cycles = st.cycles → r.1.visited.get node = 2) := by
  intro fuel
  induction fuel with
  | zero => intro _ _ _ _ _ h; simp [cycleDfs] at h
  | succ fuel ih =>
    intro node st r hinv hpre h
    unfold cycleDfs at h
    by_cases h1 : st.visited.get node = 1
    · simp only [h1, if_true] at h
      obtain ⟨hge, hcyc⟩ := IsCycle_drop g st node hinv.wf hpre h1
      simp only [hge, if_true, Option.some.injEq] at h
      subst h
      refine ⟨⟨⟨hinv.wf.gray, hinv.wf.nodup, hinv.wf.chain, hinv.wf.le_two⟩, ?_, ?_⟩, ?_⟩
      · intro c hc
        rcases List.mem_append.1 hc with hc | hc
        · exact hinv.sound c hc
        · rw [List.mem_singleton] at hc
          rw [hc]
          exact hcyc
      · intro hc
        simp at hc
      · intro hc
        simp at hc
    · simp only [h1, if_false] at h
      by_cases h2 : st.visited.get node = 2
      · simp only [h2, if_true, Option.some.injEq] at h
        subst h
        exact ⟨hinv, fun _ => h2⟩
      · simp only [h2, if_false] at h
        have h0 : st.visited.get node = 0 := by
          have := hinv.wf.le_two node
          omega
        cases hloop : forEach (fun dep s => (cycleDfs g fuel dep s).map Prod.fst)
            (g.Dependencies.get node)
            { st with visited := st.visited.set node 1, path := st.path ++ [node] } with
        | none => simp [hloop] at h
        | some st2 =>
          simp only [hloop, Option.some.injEq] at h
          subst h
          have hframe : ∀ d s s', (∀ x, s.visited.get x ≤ 2) →
              (cycleDfs g fuel d s).map Prod.fst = some s' → CycleFrame s s' := by
            intro d s s' hs hd
            cases hc : cycleDfs g fuel d s with
            | none => simp [hc] at hd
            | some r' =>
              simp only [hc, Option.map_some', Option.some.injEq] at hd
              subst hd
              exact (cycleDfs_frame g fuel d s r' hs hc).1
          have hstep : ∀ d s s', CycleInv g s → CallPre g s d →
              (cycleDfs g fuel d s).map Prod.fst = some s' →
              CycleInv g s' ∧ (s'.cycles = s.cycles → s'.visited.get d = 2) := by
            intro d s s' hs hp hd
            cases hc : cycleDfs g fuel d s with
            | none => simp [hc] at hd
            | some r' =>
              simp only [hc, Option.map_some', Option.some.injEq] at hd
              subst hd
              exact ih d s r' hs hp hc
          have hinv1 := CycleInv_push g st node hinv hpre h0
          have hpre1 : ∀ d, d ∈ g.Dependencies.get node →
              CallPre g { st with visited := st.visited.set node 1, path := st.path ++ [node] }
                d := by
            intro d hd l hl
            simp only [List.getLast?_concat, Option.some.injEq] at hl
            subst hl
            exact hd
          obtain ⟨hinv2, hblack⟩ := forEach_inv g _ hframe hstep _ _ _ hinv1 hpre1 hloop
          have hfr := forEach_frame _ hframe _ _ _ (le_two_push st node hinv.wf.le_two) hloop
          have hpath : st2.path = st.path ++ [node] := hfr.path_eq
          refine ⟨CycleInv_pop g st st2 node hinv2 hpath ?_, fun _ => by simp [IntMap.get_set_mark]⟩
          intro hc d hd
          obtain ⟨n1, e1⟩ := hfr.cycles_ext
          have hst : st.cycles = [] := by
            rw [hc] at e1
            simp only [List.nil_eq, List.append_eq_nil] at e1
            exact e1.1
          exact hblack (by rw [hc]; exact hst.symm) d hd

theorem length_filter_lt_of_imp {α : Type} (p q : α → Bool) (hqp : ∀ x, q x = true → p x = true)
    (c : α) (hp : p c = true) (hq : q c = false) :
    ∀ l : List α, c ∈ l → (l.filter q).length < (l.filter p).length := by
  intro l
  induction l with
  | nil => intro h; simp at h
  | cons a l ih =>
    intro h
    have hle : (l.filter q).length ≤ (l.filter p).length :=
      (List.monotone_filter_right l hqp).length_le
    rw [List.filter_cons, List.filter_cons]
    rcases List.mem_cons.1 h with h | h
    · subst h
      simp only [hp, hq, if_true, Bool.false_eq_true, if_false, List.length_cons]
      omega
    · have := ih h
      cases hqa : q a
      · cases hpa : p a
        · simpa using this
        · simp only [Bool.false_eq_true, if_false, if_true, List.length_cons]
          omega
      · simp only [hqp a hqa, if_true, List.length_cons]
        omega

theorem unvisitedCount_le (univ : List GoString) (st st' : CycleState)
    (h : ∀ x, st.visited.get x ≠ 0 → st'.visited.get x ≠ 0) :
    unvisitedCount univ st' ≤ unvisitedCount univ st := by
  unfold unvisitedCount
  apply List.Sublist.length_le
  apply List.monotone_filter_right
  intro x hx
  simp only [beq_iff_eq] at hx ⊢
  by_contra hne
  exact h x hne hx

theorem CycleFrame.unvisitedCount_mono {st st' : CycleState} (h : CycleFrame st st')
    (univ : List GoString) : unvisitedCount univ st' ≤ unvisitedCount univ st :=
  Tarm.unvisitedCount_le univ st st' (fun x hx => by rw [h.keep x hx]; exact hx)

theorem unvisitedCount_push (univ : List GoString) (st : CycleState) (node : GoString)
    (hn : node ∈ univ) (h0 : st.visited.get node = 0) :
    unvisitedCount univ
        { st with visited := st.visited.set node 1, path := st.path ++ [node] } <
      unvisitedCount univ st := by
  unfold unvisitedCount
  apply length_filter_lt_of_imp _ _ _ node _ _ univ hn
  · intro x hx
    simp only [beq_iff_eq, IntMap.get_set_mark] at hx ⊢
    by_cases hxn : node = x
    · simp [hxn] at hx
    · simpa [hxn] using hx
  · simp [h0]
  · simp [IntMap.get_set_mark]

theorem forEach_cycle_terminates (univ : List GoString) (n : Nat)
    (f : GoString → CycleState → Option CycleState)
    (hframe : ∀ d s s', (∀ x, s.visited.get x ≤ 2) → f d s = some s' → CycleFrame s s')
    (hf : ∀ d s, (∀ x, s.visited.get x ≤ 2) → d ∈ univ → unvisitedCount univ s < n →
      ∃ s', f d s = some s') :
    ∀ (ds : List GoString) (s : CycleState), (∀ x, s.visited.get x ≤ 2) →
      (∀ d, d ∈ ds → d ∈ univ) → unvisitedCount univ s < n →
      ∃ s', forEach f ds s = some s' := by
  intro ds
  induction ds with
  | nil => intro s _ _ _; exact ⟨s, rfl⟩
  | cons d ds ih =>
    intro s hle hds hn
    obtain ⟨s1, h1⟩ := hf d s hle (hds d (List.mem_cons_self _ _)) hn
    have hf1 := hframe d s s1 hle h1
    have hc := hf1.unvisitedCount_mono univ
    obtain ⟨s2, h2⟩ := ih s1 hf1.le_two (fun e he => hds e (List.mem_cons_of_mem _ he))
      (by omega)
    exact ⟨s2, by simp [forEach, h1, h2]⟩

/-- The recursion of `dfs` in `DetectCircularDependencies` ends: with more fuel
than there are unvisited identifiers the call returns. -/
theorem cycleDfs_terminates (g : DependencyGraph) (univ : List GoString)
    (huniv : ∀ x d, d ∈ g.Dependencies.get x → d ∈ univ) :
    ∀ (fuel : Nat) (node : GoString) (st : CycleState), (∀ x, st.visited.get x ≤ 2) →
      node ∈ univ → unvisitedCount univ st < fuel → ∃ r, cycleDfs g fuel node st = some r := by
  intro fuel
  induction fuel with
  | zero => intro _ _ _ _ h; omega
  | succ fuel ih =>
    intro node st hle hn hlt
    unfold cycleDfs
    by_cases h1 : st.visited.get node = 1
    · simp only [h1, if_true]
      split <;> exact ⟨_, rfl⟩
    · simp only [h1, if_false]
      by_cases h2 : st.visited.get node = 2
      · simp only [h2, if_true]
        exact ⟨_, rfl⟩
      · simp only [h2, if_false]
        have h0 : st.visited.get node = 0 := by
          have := hle node
          omega
        have hpush := unvisitedCount_push univ st node hn h0
        have hframe : ∀ d s s', (∀ x, s.visited.get x ≤ 2) →
            (cycleDfs g fuel d s).map Prod.fst = some s' → CycleFrame s s' := by
          intro d s s' hs hd
          cases hc : cycleDfs g fuel d s with
          | none => simp [hc] at hd
          | some r' =>
            simp only [hc, Option.map_some', Option.some.injEq] at hd
            subst hd
            exact (cycleDfs_frame g fuel d s r' hs hc).1
        obtain ⟨s2, hs2⟩ := forEach_cycle_terminates univ fuel _ hframe
          (fun d s hs hd hc => by
            obtain ⟨r, hr⟩ := ih d s hs hd hc
            exact ⟨r.1, by simp [hr]⟩)
          (g.Dependencies.get node)
          { st with visited := st.visited.set node 1, path := st.path ++ [node] }
          (le_two_push st node hle) (fun d hd => huniv node d hd) (by omega)
        simp only [hs2]
        exact ⟨_, rfl⟩

/-- The loop over the keys ends with enough fuel. -/
theorem detectLoop_terminates (g : DependencyGraph) (univ : List GoString)
    (huniv : ∀ x d, d ∈ g.Dependencies.get x → d ∈ univ) (fuel : Nat) :
    ∀ (order : List GoString) (st : CycleState), (∀ x, st.visited.get x ≤ 2) →
      (∀ m, m ∈ order → m ∈ univ) → unvisitedCount univ st < fuel →
      ∃ st', detectLoop g fuel order st = some st' := by
  intro order
  induction order with
  | nil => intro st _ _ _; exact ⟨st, rfl⟩
  | cons m rest ih =>
    intro st hle hmem hlt
    unfold detectLoop
    split
    · obtain ⟨r, hr⟩ := cycleDfs_terminates g univ huniv fuel m st hle
        (hmem m (List.mem_cons_self _ _)) hlt
      have hf := (cycleDfs_frame g fuel m st r hle hr).1
      have hc := hf.unvisitedCount_mono univ
      simp only [hr]
      exact ih r.1 hf.le_two (fun x hx => hmem x (List.mem_cons_of_mem _ hx)) (by omega)
    · exact ih st hle (fun x hx => hmem x (List.mem_cons_of_mem _ hx)) hlt

/-- The traversal of `DetectCircularDependencies` returns a state with the fuel
it is given. -/
theorem detectLoop_top (g : DependencyGraph) (order : List GoString) :
    ∃ st', detectLoop g (cycleFuel g order) order { visited := [], path := [], cycles := [] } =
      some st' := by
  apply detectLoop_terminates g (order ++ g.Dependencies.nodes)
  · intro x d hd
    exact List.mem_append_right _ (StrMap.get_subset_nodes _ x d hd)
  · intro x
    simp [IntMap.get]
  · intro m hm
    exact List.mem_append_left _ hm
  · unfold cycleFuel unvisitedCount
    exact Nat.lt_succ_of_le (List.length_filter_le _ _)

/-- The loop over the keys keeps the invariant and leaves every key marked. -/
theorem detectLoop_inv (g : DependencyGraph) (fuel : Nat) :
    ∀ (order : List GoString) (st st' : CycleState), CycleInv g st → st.path = [] →
      detectLoop g fuel order st = some st' →
        CycleInv g st' ∧ CycleFrame st st' ∧ ∀ m, m ∈ order → st'.visited.get m ≠ 0 := by
  intro order
  induction order with
  | nil =>
    intro st st' hinv hp h
    simp only [detectLoop, Option.some.injEq] at h
    subst h
    exact ⟨hinv, CycleFrame.refl _ hinv.wf.le_two, fun m hm => by simp at hm⟩
  | cons m rest ih =>
    intro st st' hinv hp h
    unfold detectLoop at h
    by_cases h0 : st.visited.get m = 0
    · simp only [h0, if_true] at h
      cases hd : cycleDfs g fuel m st with
      | none => simp [hd] at h
      | some r =>
        simp only [hd] at h
        obtain ⟨hf, hm0⟩ := cycleDfs_frame g fuel m st r hinv.wf.le_two hd
        have hpre : CallPre g st m := by
          intro l hl
          rw [hp] at hl
          simp at hl
        obtain ⟨hinv1, _⟩ := cycleDfs_inv g fuel m st r hinv hpre hd
        have hp1 : r.1.path = [] := by rw [hf.path_eq, hp]
        obtain ⟨hinv', hf', hall⟩ := ih r.1 st' hinv1 hp1 h
        refine ⟨hinv', hf.trans hf', ?_⟩
        intro x hx
        rcases List.mem_cons.1 hx with hx | hx
        · subst hx
          rw [hf'.keep x hm0]
          exact hm0
        · exact hall x hx
    · simp only [h0, if_false] at h
      obtain ⟨hinv', hf', hall⟩ := ih st st' hinv hp h
      refine ⟨hinv', hf', ?_⟩
      intro x hx
      rcases List.mem_cons.1 hx with hx | hx
      · subst hx
        rw [hf'.keep x h0]
        exact h0
      · exact hall x hx

theorem CycleInv_init (g : DependencyGraph) :
    CycleInv g { visited := [], path := [], cycles := [] } := by
  refine ⟨⟨?_, List.nodup_nil, List.chain'_nil, ?_⟩, ?_, ?_⟩
  · intro x
    simp [IntMap.get]
  · intro x
    simp [IntMap.get]
  · intro c hc
    simp at hc
  · intro _
    exact ⟨fun _ => 0, fun x hx => by simp [IntMap.get] at hx⟩

theorem StrMap.mem_keys_of_get (m : StrMap) (k d : GoString) (h : d ∈ m.get k) : k ∈ m.keys := by
  by_contra hk
  rw [StrMap.get_of_not_mem_keys m k hk] at h
  simp at h

/-- Along a chain the first element reaches the last. -/
theorem reflTransGen_of_chain {α : Type} (R : α → α → Prop) :
    ∀ (l : List α) (a last : α), List.Chain' R (a :: l) → (a :: l).getLast? = some last →
      Relation.ReflTransGen R a last := by
  intro l
  induction l with
  | nil =>
    intro a last _ hl
    simp only [List.getLast?_singleton, Option.some.injEq] at hl
    subst hl
    exact Relation.ReflTransGen.refl
  | cons b l ih =>
    intro a last hc hl
    rw [List.chain'_cons] at hc
    rw [List.getLast?_cons_cons] at hl
    exact Relation.ReflTransGen.head hc.1 (ih b last hc.2 hl)

theorem HasCycle_of_IsCycle (g : DependencyGraph) (c : List GoString) (h : IsCycle g c) :
    HasCycle g := by
  obtain ⟨_, hch, first, last, hf, hl, he⟩ := h
  cases c with
  | nil => simp at hf
  | cons a l =>
    simp only [List.head?_cons, Option.some.injEq] at hf
    subst hf
    exact ⟨a, Relation.TransGen.tail' (reflTransGen_of_chain _ l a last hch hl) he⟩

/-- The elements of a chain, read by index: consecutive elements are related. -/
theorem chain_getElem {α : Type} (R : α → α → Prop) :
    ∀ (l : List α), List.Chain' R l →
      ∀ (i : Nat) (x y : α), l[i]? = some x → l[i + 1]? = some y → R x y := by
  intro l
  induction l with
  | nil => intro _ i x y hx; simp at hx
  | cons a l ih =>
    intro hc i x y hx hy
    cases l with
    | nil => simp at hy
    | cons b l =>
      rw [List.chain'_cons] at hc
      cases i with
      | zero =>
        simp only [List.getElem?_cons_zero, Option.some.injEq, Nat.zero_add,
          List.getElem?_cons_succ] at hx hy
        subst hx
        subst hy
        exact hc.1
      | succ i =>
        simp only [List.getElem?_cons_succ] at hx hy
        exact ih hc.2 i x y hx (by simpa using hy)

/-- The state in which the traversal of `DetectCircularDependencies` ends. -/
theorem detect_final (g : DependencyGraph) (order : List GoString) :
    ∃ st, detectLoop g (cycleFuel g order) order { visited := [], path := [], cycles := [] } =
        some st ∧
      DetectCircularDependencies g order = st.cycles ∧ CycleInv g st ∧ st.path = [] ∧
      ∀ m, m ∈ order → st.visited.get m = 2 := by
  obtain ⟨st, h⟩ := detectLoop_top g order
  obtain ⟨hinv, hf, hall⟩ := detectLoop_inv g _ order _ st (CycleInv_init g) rfl h
  have hp : st.path = [] := hf.path_eq
  refine ⟨st, h, ?_, hinv, hp, ?_⟩
  · unfold DetectCircularDependencies
    simp only [h]
  · intro m hm
    have h0 := hall m hm
    have h1 : st.visited.get m ≠ 1 := by
      intro h1
      have := (hinv.wf.gray m).1 h1
      rw [hp] at this
      simp at this
    have := hinv.wf.le_two m
    omega

/-- Every cycle `DetectCircularDependencies` reports is a cycle of the graph. -/
theorem IsCycle_of_mem_Detect (g : DependencyGraph) (order : List GoString)
    (c : List GoString) (h : c ∈ DetectCircularDependencies g order) : IsCycle g c := by
  obtain ⟨st, _, hd, hinv, _, _⟩ := detect_final g order
  rw [hd] at h
  exact hinv.sound c h

/-- If the graph has a cycle and the loop meets every key, a cycle is reported. -/
theorem Detect_ne_nil_of_HasCycle (g : DependencyGraph) (order : List GoString)
    (hkeys : ∀ k, k ∈ g.Dependencies.keys → k ∈ order) (hc : HasCycle g) :
    DetectCircularDependencies g order ≠ [] := by
  obtain ⟨st, _, hd, hinv, _, hall⟩ := detect_final g order
  rw [hd]
  intro hnil
  obtain ⟨rank, hr⟩ := hinv.rank hnil
  obtain ⟨v, hv⟩ := hc
  have hstep : ∀ x y, Relation.TransGen (FwdEdge g) x y → st.visited.get x = 2 →
      st.visited.get y = 2 ∧ rank y < rank x := by
    intro x y hxy
    induction hxy with
    | single h =>
      intro hx
      exact hr x hx _ h
    | tail _ h ih =>
      intro hx
      obtain ⟨hb, hlt⟩ := ih hx
      obtain ⟨hc2, hlt2⟩ := hr _ hb _ h
      exact ⟨hc2, by omega⟩
  have hvk : v ∈ g.Dependencies.keys := by
    obtain ⟨d, hd, _⟩ := Relation.TransGen.head'_iff.1 hv
    exact StrMap.mem_keys_of_get _ v d hd
  have := hstep v v hv (hall v (hkeys v hvk))
  omega

/-- C19: `DetectCircularDependencies` reports a cycle exactly when one exists.
For every graph, in particular every graph built by `AddDependency` calls, and
every order in which the loop over the `Dependencies` map meets its keys, the
returned list is non-empty if and only if the forward-edge relation has a
directed cycle, self-loops included; on an acyclic graph it returns no cycles. -/
theorem C19_cycle_reported_iff_exists :
    (∀ (g : DependencyGraph) (order : List GoString),
      (∀ k, k ∈ g.Dependencies.keys → k ∈ order) →
      (DetectCircularDependencies g order ≠ [] ↔ HasCycle g)) ∧
    (∀ (calls : List (GoString × GoString)) (order : List GoString),
      order.Perm (buildGraph calls).Dependencies.keys →
      (DetectCircularDependencies (buildGraph calls) order ≠ [] ↔
        HasCycle (buildGraph calls))) ∧
    (∀ (g : DependencyGraph) (order : List GoString), ¬ HasCycle g →
      DetectCircularDependencies g order = []) ∧
    DetectCircularDependencies scenarioGraph scenarioGraph.Dependencies.keys = [] ∧
    DetectCircularDependencies (buildGraph [("a".toList, "a".toList)]) ["a".toList] =
      [["a".toList]] := by
  have h1 : ∀ (g : DependencyGraph) (order : List GoString),
      (∀ k, k ∈ g.Dependencies.keys → k ∈ order) →
      (DetectCircularDependencies g order ≠ [] ↔ HasCycle g) := by
    intro g order hkeys
    constructor
    · intro hne
      obtain ⟨c, l, hcl⟩ := List.exists_cons_of_ne_nil hne
      exact HasCycle_of_IsCycle g c
        (IsCycle_of_mem_Detect g order c (by rw [hcl]; exact List.mem_cons_self _ _))
    · exact Detect_ne_nil_of_HasCycle g order hkeys
  refine ⟨h1, ?_, ?_, by decide!, by decide!⟩
  · intro calls order hp
    exact h1 _ order (fun k hk => hp.mem_iff.2 hk)
  · intro g order hn
    by_contra hne
    obtain ⟨c, l, hcl⟩ := List.exists_cons_of_ne_nil hne
    exact hn (HasCycle_of_IsCycle g c
      (IsCycle_of_mem_Detect g order c (by rw [hcl]; exact List.mem_cons_self _ _)))

/-- C19 at the graph with the cycle `a → b → c → a`: a cycle is reported, so the
graph has one. -/
theorem C19_cycle_reported_iff_exists_witness :
    DetectCircularDependencies cyclicGraph cyclicGraph.Dependencies.keys ≠ [] ∧
    HasCycle cyclicGraph :=
  ⟨by decide!,
    (C19_cycle_reported_iff_exists.1 cyclicGraph cyclicGraph.Dependencies.keys
      (fun _ hk => hk)).1 (by decide!)⟩

/-- C20: every cycle reported by `DetectCircularDependencies` is a genuine cycle
of the graph. Each reported sequence is non-empty, its vertices are pairwise
distinct, every consecutive pair is a forward edge (the later vertex occurs in
`Dependencies` of the earlier one), and the closing pair, from the last vertex
to the first, is a forward edge. -/
theorem C20_reported_cycles_genuine (g : DependencyGraph) (order cyc : List GoString)
    (h : cyc ∈ DetectCircularDependencies g order) :
    cyc ≠ [] ∧ cyc.Nodup ∧
    (∀ (i : Nat) (x y : GoString), cyc[i]? = some x → cyc[i + 1]? = some y →
      y ∈ g.Dependencies.get x) ∧
    (∃ first last, cyc.head? = some first ∧ cyc.getLast? = some last ∧
      first ∈ g.Dependencies.get last) := by
  obtain ⟨hnd, hch, first, last, hf, hl, he⟩ := IsCycle_of_mem_Detect g order cyc h
  refine ⟨?_, hnd, chain_getElem (FwdEdge g) cyc hch, first, last, hf, hl, he⟩
  intro hc
  rw [hc] at hf
  simp at hf

/-- C20 at the graph with the cycle `a → b → c → a`: the reported cycle
`a, b, c`. -/
theorem C20_reported_cycles_genuine_witness :
    ["a".toList, "b".toList, "c".toList] ∈
        DetectCircularDependencies cyclicGraph cyclicGraph.Dependencies.keys ∧
    ["a".toList, "b".toList, "c".toList].Nodup ∧
    "a".toList ∈ cyclicGraph.Dependencies.get "c".toList :=
  ⟨by decide!,
    (C20_reported_cycles_genuine cyclicGraph cyclicGraph.Dependencies.keys
      ["a".toList, "b".toList, "c".toList] (by decide!)).2.1,
    by decide!⟩

/-! ## Disjoint cycles are each reported once -/

theorem cycleEdges_cons (h : GoString) (t : List GoString) :
    cycleEdges (h :: t) = (h :: t).zip (t ++ [h]) := by
  unfold cycleEdges
  rw [List.rotate_cons_succ, List.rotate_zero]

theorem mem_zip_consecutive (h : GoString) :
    ∀ (pre l : List GoString) (a b : GoString) (post : List GoString),
      l = pre ++ a :: b :: post → (a, b) ∈ l.zip (l.tail ++ [h]) := by
  intro pre
  induction pre with
  | nil =>
    intro l a b post hl
    subst hl
    simp
  | cons p pre ih =>
    intro l a b post hl
    subst hl
    have := ih (pre ++ a :: b :: post) a b post rfl
    cases hl' : pre ++ a :: b :: post with
    | nil => simp at hl'
    | cons c l'' =>
      rw [hl'] at this
      simp only [List.cons_append, List.tail_cons, hl', List.zip_cons_cons, List.mem_cons]
      right
      simpa using this

theorem mem_zip_last (h : GoString) :
    ∀ (pre l : List GoString) (a : GoString),
      l = pre ++ [a] → (a, h) ∈ l.zip (l.tail ++ [h]) := by
  intro pre
  induction pre with
  | nil =>
    intro l a hl
    subst hl
    simp
  | cons p pre ih =>
    intro l a hl
    subst hl
    have := ih (pre ++ [a]) a rfl
    cases hl' : pre ++ [a] with
    | nil => simp at hl'
    | cons c l'' =>
      rw [hl'] at this
      simp only [List.cons_append, List.tail_cons, hl', List.zip_cons_cons, List.mem_cons]
      right
      simpa using this

/-- In the cycle `pre ++ a :: b :: post` the vertex `a` is followed by `b`. -/
theorem cycleEdges_consecutive (c pre post : List GoString) (a b : GoString)
    (hc : c = pre ++ a :: b :: post) : (a, b) ∈ cycleEdges c := by
  cases c with
  | nil => simp at hc
  | cons h t =>
    rw [cycleEdges_cons]
    exact mem_zip_consecutive h pre (h :: t) a b post hc

/-- In a cycle the last vertex is followed by the first one. -/
theorem cycleEdges_last (c pre : List GoString) (a h : GoString)
    (hc : c = pre ++ [a]) (hh : c.head? = some h) : (a, h) ∈ cycleEdges c := by
  cases c with
  | nil => simp at hh
  | cons h' t =>
    simp only [List.head?_cons, Option.some.injEq] at hh
    subst hh
    rw [cycleEdges_cons]
    exact mem_zip_last h' pre (h' :: t) a hc

/-- A rotation of a cycle has the same edges. -/
theorem mem_cycleEdges_rotate (c : List GoString) (n : Nat) (e : GoString × GoString) :
    e ∈ cycleEdges (c.rotate n) ↔ e ∈ cycleEdges c := by
  unfold cycleEdges
  have h1 : (c.rotate n).rotate 1 = (c.rotate 1).rotate n := by
    rw [List.rotate_rotate, List.rotate_rotate, Nat.add_comm]
  rw [h1]
  have h2 := List.zipWith_rotate_distrib Prod.mk c (c.rotate 1) n (by rw [List.length_rotate])
  have h3 : (c.rotate n).zip ((c.rotate 1).rotate n) = (c.zip (c.rotate 1)).rotate n := by
    unfold List.zip
    exact h2.symm
  rw [h3, List.mem_rotate]

/-- Every vertex of a cycle has an edge of the cycle leaving it. -/
theorem exists_cycleEdge (c : List GoString) (x : GoString) (hx : x ∈ c) :
    ∃ y, (x, y) ∈ cycleEdges c := by
  obtain ⟨pre, post, hc⟩ := List.append_of_mem hx
  cases post with
  | nil =>
    cases hh : c.head? with
    | none =>
      rw [List.head?_eq_none_iff] at hh
      rw [hh] at hx
      simp at hx
    | some h => exact ⟨h, cycleEdges_last c pre x h hc hh⟩
  | cons y post => exact ⟨y, cycleEdges_consecutive c pre post x y hc⟩

/-- The walk of `dfs` along a cycle whose vertices have one dependency each:
from the vertex `x`, with the vertices before it on the stack, it marks the
rest of the cycle, records the cycle once and returns with the stack as
before. -/
theorem cycleDfs_walk (g : DependencyGraph) (h : GoString) (c : List GoString)
    (hnd : c.Nodup) (hh : c.head? = some h)
    (hedge : ∀ e, e ∈ cycleEdges c → g.Dependencies.get e.1 = [e.2]) :
    ∀ (post pre : List GoString) (x : GoString) (st : CycleState) (fuel : Nat),
      c = pre ++ x :: post → st.path = pre → (∀ z, z ∈ pre → st.visited.get z = 1) →
      (∀ z, z ∈ x :: post → st.visited.get z = 0) → post.length + 2 ≤ fuel →
      ∃ st', cycleDfs g fuel x st = some (st', false) ∧ st'.path = pre ∧
        st'.cycles = st.cycles ++ [c] ∧
        ∀ z, st'.visited.get z = if z ∈ x :: post then 2 else st.visited.get z := by
  intro post
  induction post with
  | nil =>
    intro pre x st fuel hc hpath hpre hzero hfuel
    obtain ⟨f, rfl⟩ : ∃ f, fuel = f + 2 := ⟨fuel - 2, by simp at hfuel; omega⟩
    have hx0 : st.visited.get x = 0 := hzero x (List.mem_cons_self _ _)
    have hdep : g.Dependencies.get x = [h] := hedge (x, h) (cycleEdges_last c pre x h hc hh)
    have hh1 : (st.visited.set x 1).get h = 1 := by
      rw [IntMap.get_set_mark]
      by_cases hxh : x = h
      · rw [if_pos hxh]
      · rw [if_neg hxh]
        apply hpre
        have hmem : h ∈ c := by
          cases c with
          | nil => simp at hh
          | cons h' t =>
            simp only [List.head?_cons, Option.some.injEq] at hh
            rw [hh]
            exact List.mem_cons_self _ _
        rw [hc] at hmem
        rcases List.mem_append.1 hmem with hm | hm
        · exact hm
        · simp only [List.mem_singleton] at hm
          exact absurd hm.symm hxh
    have hstart : cycleStartFrom h 0 (pre ++ [x]) = 0 := by
      rw [← hc]
      cases c with
      | nil => simp at hh
      | cons h' t =>
        simp only [List.head?_cons, Option.some.injEq] at hh
        subst hh
        simp [cycleStartFrom]
    have hinner : cycleDfs g (f + 1) h
        { st with visited := st.visited.set x 1, path := pre ++ [x] } =
        some ({ visited := st.visited.set x 1, path := pre ++ [x],
                cycles := st.cycles ++ [c] }, true) := by
      unfold cycleDfs
      simp only [hh1, if_true, hstart, ge_iff_le, le_refl, Int.toNat_zero, List.drop_zero]
      rw [← hc]
    refine ⟨{ visited := (st.visited.set x 1).set x 2, path := pre,
              cycles := st.cycles ++ [c] }, ?_, rfl, rfl, ?_⟩
    · unfold cycleDfs
      simp only [hx0, Nat.zero_ne_one, if_false, OfNat.zero_ne_ofNat, hdep, forEach, hinner,
        Option.map_some', hpath, List.dropLast_concat]
    · intro z
      simp only [IntMap.get_set_mark, List.mem_singleton]
      by_cases hxz : x = z
      · simp [hxz]
      · simp [hxz, Ne.symm hxz]
  | cons y post ih =>
    intro pre x st fuel hc hpath hpre hzero hfuel
    obtain ⟨f, rfl⟩ : ∃ f, fuel = f + 1 := ⟨fuel - 1, by simp at hfuel; omega⟩
    have hx0 : st.visited.get x = 0 := hzero x (List.mem_cons_self _ _)
    have hdep : g.Dependencies.get x = [y] :=
      hedge (x, y) (cycleEdges_consecutive c pre post x y hc)
    have hndc : (pre ++ x :: y :: post).Nodup := hc ▸ hnd
    have hxpre : x ∉ pre := by
      intro hx
      exact (List.nodup_append.1 hndc).2.2 hx (List.mem_cons_self _ _)
    have hxpost : x ∉ y :: post := (List.nodup_cons.1 (List.nodup_append.1 hndc).2.1).1
    obtain ⟨st2, hst2, hp2, hc2, hv2⟩ := ih (pre ++ [x]) y
      { st with visited := st.visited.set x 1, path := st.path ++ [x] } f
      (by rw [hc]; simp) (by simp [hpath])
      (by
        intro z hz
        simp only [IntMap.get_set_mark]
        rcases List.mem_append.1 hz with hz | hz
        · rw [if_neg (fun (hxz : x = z) => hxpre (hxz ▸ hz))]
          exact hpre z hz
        · simp only [List.mem_singleton] at hz
          rw [if_pos hz.symm])
      (by
        intro z hz
        simp only [IntMap.get_set_mark]
        rw [if_neg (fun (hxz : x = z) => hxpost (hxz ▸ hz))]
        exact hzero z (List.mem_cons_of_mem _ hz))
      (by simp at hfuel ⊢; omega)
    refine ⟨{ st2 with path := st2.path.dropLast, visited := st2.visited.set x 2 }, ?_, ?_, hc2, ?_⟩
    · unfold cycleDfs
      simp only [hx0, Nat.zero_ne_one, if_false, OfNat.zero_ne_ofNat, hdep, forEach, hst2,
        Option.map_some']
    · simp [hp2]
    · intro z
      simp only [IntMap.get_set_mark, hv2]
      by_cases hxz : x = z
      · simp [hxz]
      · have hzx : z ≠ x := Ne.symm hxz
        simp only [hxz, if_false, List.mem_cons, hzx, false_or]

/-- Two cycles of a graph of disjoint cycles that share a vertex are the same. -/
theorem CycleGraph.eq_of_mem {g : DependencyGraph} {cs : List (List GoString)}
    (hg : CycleGraph g cs) {c c' : List GoString} (hc : c ∈ cs) (hc' : c' ∈ cs)
    {x : GoString} (hx : x ∈ c) (hx' : x ∈ c') : c = c' := by
  by_contra hne
  have hp := (List.nodup_flatten.1 hg.1).2
  have hd : List.Disjoint c c' :=
    List.Pairwise.forall (fun _ _ h => List.Disjoint.symm h) hp hc hc' hne
  exact hd hx hx'

theorem CycleGraph.nodup_cycles {g : DependencyGraph} {cs : List (List GoString)}
    (hg : CycleGraph g cs) : cs.Nodup := by
  have hp := (List.nodup_flatten.1 hg.1).2
  refine List.Pairwise.imp_of_mem ?_ hp
  intro a b ha _ hd hab
  subst hab
  cases a with
  | nil => exact hg.2.1 [] ha rfl
  | cons x t => exact hd (List.mem_cons_self _ _) (List.mem_cons_self _ _)

/-- Every vertex of a cycle is a key of `Dependencies`. -/
theorem CycleGraph.mem_keys {g : DependencyGraph} {cs : List (List GoString)}
    (hg : CycleGraph g cs) {c : List GoString} (hc : c ∈ cs) {x : GoString} (hx : x ∈ c) :
    x ∈ g.Dependencies.keys := by
  obtain ⟨y, hy⟩ := exists_cycleEdge c x hx
  have := hg.2.2.1 c hc (x, y) hy
  exact StrMap.mem_keys_of_get _ x y (by rw [this]; exact List.mem_singleton_self _)

theorem CyclesDone_init (cs : List (List GoString)) :
    CyclesDone cs [] { visited := [], path := [], cycles := [] } where
  path_nil := rfl
  sub := fun _ hc => absurd hc (List.not_mem_nil _)
  nodup := List.nodup_nil
  marked := fun _ hc => absurd hc (List.not_mem_nil _)
  unmarked := fun _ _ _ _ _ => rfl
  length_eq := rfl
  rep_of_done := fun _ hc => absurd hc (List.not_mem_nil _)
  done_of_rep := fun _ hr => absurd hr (List.not_mem_nil _)
  disjoint := List.Pairwise.nil

/-- The loop over the keys on a graph of disjoint cycles: a key of a cycle that
is not walked yet starts the walk of that cycle, which is reported from this
key on; a key of a walked cycle is passed over. -/
theorem detectLoop_cycles (g : DependencyGraph) (cs : List (List GoString))
    (hg : CycleGraph g cs) (fuel : Nat) (hfuel : ∀ c, c ∈ cs → c.length + 1 ≤ fuel) :
    ∀ (order : List GoString) (st : CycleState) (done : List (List GoString)),
      (∀ m, m ∈ order → m ∈ cs.flatten) → CyclesDone cs done st →
      ∃ st' done', detectLoop g fuel order st = some st' ∧ CyclesDone cs done' st' ∧
        (∀ m, m ∈ order → st'.visited.get m = 2) ∧
        (∀ z, st.visited.get z = 2 → st'.visited.get z = 2) := by
  intro order
  induction order with
  | nil =>
    intro st done _ hd
    exact ⟨st, done, rfl, hd, fun m hm => absurd hm (List.not_mem_nil _), fun _ h => h⟩
  | cons m rest ih =>
    intro st done hmem hd
    obtain ⟨c, hc, hmc⟩ := List.mem_flatten.1 (hmem m (List.mem_cons_self _ _))
    have hrest : ∀ m', m' ∈ rest → m' ∈ cs.flatten :=
      fun m' hm' => hmem m' (List.mem_cons_of_mem _ hm')
    by_cases h0 : st.visited.get m = 0
    · have hcd : c ∉ done := by
        intro hcd
        have := hd.marked c hcd m hmc
        omega
      obtain ⟨pre, post, hcpp⟩ := List.append_of_mem hmc
      have hrot : c.rotate pre.length = m :: post ++ pre := by
        rw [hcpp, List.rotate_append_length_eq]
      have hcnd : c.Nodup :=
        (List.nodup_flatten.1 hg.1).1 c hc
      have hmemrot : ∀ z, z ∈ m :: (post ++ pre) ↔ z ∈ c := by
        intro z
        rw [← List.cons_append, ← hrot, List.mem_rotate]
      obtain ⟨st1, hst1, hp1, hc1, hv1⟩ :=
        cycleDfs_walk g m (m :: (post ++ pre))
          (by rw [← List.cons_append, ← hrot]; exact List.nodup_rotate.2 hcnd) rfl
          (by
            intro e he
            rw [← List.cons_append, ← hrot, mem_cycleEdges_rotate] at he
            exact hg.2.2.1 c hc e he)
          (post ++ pre) [] m st fuel rfl hd.path_nil
          (fun z hz => absurd hz (List.not_mem_nil _))
          (fun z hz => hd.unmarked c hc hcd z ((hmemrot z).1 hz))
          (by
            have := hfuel c hc
            rw [hcpp] at this
            simp only [List.length_append, List.length_cons] at this ⊢
            omega)
      have hrotated : (m :: (post ++ pre)).IsRotated c := by
        refine List.IsRotated.symm ⟨pre.length, ?_⟩
        rw [hrot]
        rfl
      have hd1 : CyclesDone cs (done ++ [c]) st1 := by
        refine ⟨hp1, ?_, ?_, ?_, ?_, ?_, ?_, ?_, ?_⟩
        · intro c' hc'
          rcases List.mem_append.1 hc' with h | h
          · exact hd.sub c' h
          · rw [List.mem_singleton.1 h]
            exact hc
        · refine List.nodup_append.2 ⟨hd.nodup, List.nodup_singleton _, ?_⟩
          intro a ha ha'
          rw [List.mem_singleton.1 ha'] at ha
          exact hcd ha
        · intro c' hc' x hx
          rw [hv1]
          rcases List.mem_append.1 hc' with h | h
          · split
            · rfl
            · exact hd.marked c' h x hx
          · rw [List.mem_singleton.1 h] at hx
            rw [if_pos ((hmemrot x).2 hx)]
        · intro c' hc' hnd x hx
          have hne : c' ≠ c := fun h => hnd (List.mem_append_right _ (h ▸ List.mem_singleton_self _))
          have hnd' : c' ∉ done := fun h => hnd (List.mem_append_left _ h)
          rw [hv1, if_neg]
          · exact hd.unmarked c' hc' hnd' x hx
          · intro hxm
            exact hne (hg.eq_of_mem hc' hc hx ((hmemrot x).1 hxm))
        · rw [hc1, List.length_append, List.length_append, hd.length_eq]
          rfl
        · intro c' hc'
          rcases List.mem_append.1 hc' with h | h
          · obtain ⟨r, hr, hrc⟩ := hd.rep_of_done c' h
            exact ⟨r, by rw [hc1]; exact List.mem_append_left _ hr, hrc⟩
          · rw [List.mem_singleton.1 h]
            exact ⟨_, by rw [hc1]; exact List.mem_append_right _ (List.mem_singleton_self _),
              hrotated⟩
        · intro r hr
          rw [hc1] at hr
          rcases List.mem_append.1 hr with h | h
          · obtain ⟨c', hc', hrc⟩ := hd.done_of_rep r h
            exact ⟨c', List.mem_append_left _ hc', hrc⟩
          · rw [List.mem_singleton.1 h]
            exact ⟨c, List.mem_append_right _ (List.mem_singleton_self _), hrotated⟩
        · rw [hc1]
          refine List.pairwise_append.2 ⟨hd.disjoint, List.pairwise_singleton _ _, ?_⟩
          intro r hr r' hr'
          rw [List.mem_singleton.1 hr']
          obtain ⟨c', hc', hrc⟩ := hd.done_of_rep r hr
          intro x hx hx'
          have h1 : x ∈ c' := hrc.mem_iff.1 hx
          have h2 : x ∈ c := (hmemrot x).1 hx'
          have := hg.eq_of_mem (hd.sub c' hc') hc h1 h2
          exact hcd (this ▸ hc')
      obtain ⟨st', done', hloop, hd', hall, hkeep⟩ := ih st1 (done ++ [c]) hrest hd1
      refine ⟨st', done', ?_, hd', ?_, ?_⟩
      · rw [detectLoop]
        simp only [h0, if_true, hst1]
        exact hloop
      · intro m' hm'
        rcases List.mem_cons.1 hm' with rfl | h
        · apply hkeep
          rw [hv1, if_pos (List.mem_cons_self _ _)]
        · exact hall m' h
      · intro z hz
        apply hkeep
        rw [hv1]
        split
        · rfl
        · exact hz
    · have hm2 : st.visited.get m = 2 := by
        by_cases hcd : c ∈ done
        · exact hd.marked c hcd m hmc
        · exact absurd (hd.unmarked c hc hcd m hmc) h0
      obtain ⟨st', done', hloop, hd', hall, hkeep⟩ := ih st done hrest hd
      refine ⟨st', done', ?_, hd', ?_, hkeep⟩
      · rw [detectLoop]
        simp only [h0, if_false]
        exact hloop
      · intro m' hm'
        rcases List.mem_cons.1 hm' with rfl | h
        · exact hkeep _ hm2
        · exact hall m' h

/-- On a graph of disjoint cycles the reported cycles are, one for one, rotations
of the cycles of the graph. -/
theorem Detect_cycles (g : DependencyGraph) (cs : List (List GoString))
    (order : List GoString) (hg : CycleGraph g cs) (ho : order.Perm g.Dependencies.keys) :
    ∃ dn : List (List GoString), dn.Perm cs ∧
      (DetectCircularDependencies g order).length = dn.length ∧
      (∀ c, c ∈ dn → ∃ r, r ∈ DetectCircularDependencies g order ∧ r.IsRotated c) ∧
      (∀ r, r ∈ DetectCircularDependencies g order → ∃ c, c ∈ dn ∧ r.IsRotated c) ∧
      (DetectCircularDependencies g order).Pairwise List.Disjoint := by
  have hsub : ∀ c, c ∈ cs → ∀ x, x ∈ c → x ∈ order :=
    fun c hc x hx => ho.mem_iff.2 (hg.mem_keys hc hx)
  have hfuel : ∀ c, c ∈ cs → c.length + 1 ≤ cycleFuel g order := by
    intro c hc
    have hcnd : c.Nodup := (List.nodup_flatten.1 hg.1).1 c hc
    have hle : c.length ≤ order.length := (hcnd.subperm (hsub c hc)).length_le
    unfold cycleFuel
    simp only [List.length_append]
    omega
  obtain ⟨st', done', hloop, hd', hall, _⟩ :=
    detectLoop_cycles g cs hg (cycleFuel g order) hfuel order
      { visited := [], path := [], cycles := [] } []
      (fun m hm => hg.2.2.2 m (ho.mem_iff.1 hm)) (CyclesDone_init cs)
  have hres : DetectCircularDependencies g order = st'.cycles := by
    unfold DetectCircularDependencies
    simp only [hloop]
  have hdone : ∀ c, c ∈ cs → c ∈ done' := by
    intro c hc
    by_contra hnd
    cases hce : c with
    | nil => exact hg.2.1 c hc hce
    | cons x t =>
      have hx : x ∈ c := by rw [hce]; exact List.mem_cons_self _ _
      have h0 := hd'.unmarked c hc hnd x hx
      have h2 := hall x (hsub c hc x hx)
      omega
  refine ⟨done', ?_, ?_, ?_, ?_, ?_⟩
  · exact (List.perm_ext_iff_of_nodup hd'.nodup hg.nodup_cycles).2
      (fun c => ⟨hd'.sub c, hdone c⟩)
  · rw [hres]
    exact hd'.length_eq
  · rw [hres]
    exact hd'.rep_of_done
  · rw [hres]
    exact hd'.done_of_rep
  · rw [hres]
    exact hd'.disjoint

/-- C21: disjoint cycles are each reported once. For every graph whose forward
edges form pairwise vertex-disjoint simple cycles `cs` and nothing else, and for
every order in which the loop meets the keys of `Dependencies`,
`DetectCircularDependencies` returns exactly as many cycles as `cs` has; each
cycle of `cs` is reported, as a rotation of it (the same vertices in the same
cyclic order, starting at the key met first), and nothing else is; no two
reported cycles share a vertex, so no cycle is reported twice, neither
identically nor as a rotation. -/
theorem C21_disjoint_cycles_once (g : DependencyGraph) (cs : List (List GoString))
    (order : List GoString) (hg : CycleGraph g cs) (ho : order.Perm g.Dependencies.keys) :
    (DetectCircularDependencies g order).length = cs.length ∧
    (∀ c, c ∈ cs → ∃ r, r ∈ DetectCircularDependencies g order ∧ r.IsRotated c) ∧
    (∀ r, r ∈ DetectCircularDependencies g order →
      ∃ c, c ∈ cs ∧ r.IsRotated c ∧ ∀ x, x ∈ r ↔ x ∈ c) ∧
    (DetectCircularDependencies g order).Pairwise List.Disjoint ∧
    (DetectCircularDependencies g order).Pairwise (fun r r' => ¬ r.IsRotated r') := by
  obtain ⟨dn, hperm, hlen, hrep, hdone, hdisj⟩ := Detect_cycles g cs order hg ho
  refine ⟨by rw [hlen, hperm.length_eq], ?_, ?_, hdisj, ?_⟩
  · intro c hc
    exact hrep c (hperm.mem_iff.2 hc)
  · intro r hr
    obtain ⟨c, hc, hrc⟩ := hdone r hr
    exact ⟨c, hperm.mem_iff.1 hc, hrc, fun x => hrc.mem_iff⟩
  · refine List.Pairwise.imp_of_mem ?_ hdisj
    intro r r' hr _ hd hrr
    obtain ⟨c, hc, hrc⟩ := hdone r hr
    cases hre : r with
    | nil =>
      rw [hre] at hrc
      have : c = [] := (List.isRotated_nil_iff'.1 hrc).symm
      exact hg.2.1 c (hperm.mem_iff.1 hc) this
    | cons x t =>
      have hx : x ∈ r := by rw [hre]; exact List.mem_cons_self _ _
      exact hd hx (hrr.mem_iff.1 hx)

/-- C21 on the graph of the three cycles `a → b → a`, `c → d → e → c` and
`f → f`, with the keys met last one first: three cycles are reported, starting
at `e`, at `f` and at `b`. -/
theorem C21_disjoint_cycles_once_witness :
    CycleGraph threeCycles
      [["a".toList, "b".toList], ["c".toList, "d".toList, "e".toList], ["f".toList]] ∧
    DetectCircularDependencies threeCycles threeCycles.Dependencies.keys.reverse =
      [["e".toList, "c".toList, "d".toList], ["f".toList], ["b".toList, "a".toList]] ∧
    (DetectCircularDependencies threeCycles threeCycles.Dependencies.keys.reverse).length =
      [["a".toList, "b".toList], ["c".toList, "d".toList, "e".toList], ["f".toList]].length :=
  ⟨by decide!, by decide!,
    (C21_disjoint_cycles_once threeCycles
      [["a".toList, "b".toList], ["c".toList, "d".toList, "e".toList], ["f".toList]]
      threeCycles.Dependencies.keys.reverse (by decide!)
      (List.reverse_perm _)).1⟩

/-! ## The canonical form of a path: `Clean` is idempotent -/

theorem filepath.cleanStep_canon (rooted : Bool) (b : filepath.CleanBuf) (e : GoString)
    (he : Separator ∉ e) (hb : CleanBufCanon rooted b) :
    CleanBufCanon rooted (filepath.cleanStep rooted b e) := by
  obtain ⟨names, hout, hnames, hroot⟩ := hb
  unfold filepath.cleanStep
  by_cases h1 : e = []
  · rw [if_pos h1]
    exact ⟨names, hout, hnames, hroot⟩
  · rw [if_neg h1]
    by_cases h2 : e = ['.']
    · rw [if_pos h2]
      exact ⟨names, hout, hnames, hroot⟩
    · rw [if_neg h2]
      by_cases h3 : e = ['.', '.']
      · rw [if_pos h3]
        by_cases hlen : b.out.length > b.dotdot
        · rw [if_pos hlen]
          cases names with
          | nil =>
            rw [hout] at hlen
            simp at hlen
          | cons n ns =>
            refine ⟨ns, ?_, fun s hs => hnames s (List.mem_cons_of_mem _ hs), hroot⟩
            simp only [hout, List.cons_append, List.tail_cons]
        · rw [if_neg hlen]
          have hn : names = [] := by
            rw [hout] at hlen
            simp only [List.length_append, List.length_replicate] at hlen
            exact List.length_eq_zero.1 (by omega)
          subst hn
          cases rooted with
          | true => exact ⟨[], hout, hnames, hroot⟩
          | false =>
            refine ⟨[], ?_, fun s hs => absurd hs (List.not_mem_nil _), fun h => absurd h (by decide)⟩
            simp only [Bool.not_false, if_true, List.nil_append, hout,
              List.length_replicate, List.replicate_succ]
            rfl
      · rw [if_neg h3]
        refine ⟨e :: names, ?_, ?_, hroot⟩
        · simp only [hout, List.cons_append]
        · intro s hs
          rcases List.mem_cons.1 hs with rfl | hs
          · exact ⟨h1, he, h2, h3⟩
          · exact hnames s hs

theorem filepath.foldl_cleanStep_canon (rooted : Bool) :
    ∀ (es : List GoString) (b : filepath.CleanBuf), (∀ e, e ∈ es → Separator ∉ e) →
      CleanBufCanon rooted b → CleanBufCanon rooted (es.foldl (filepath.cleanStep rooted) b) := by
  intro es
  induction es with
  | nil => intro b _ hb; exact hb
  | cons e es ih =>
    intro b hes hb
    exact ih _ (fun e' he' => hes e' (List.mem_cons_of_mem _ he'))
      (filepath.cleanStep_canon rooted b e (hes e (List.mem_cons_self _ _)) hb)

theorem validName_dotDot_or (k : Nat) (names : List GoString)
    (hn : ∀ s, s ∈ names → validName s) :
    ∀ e, e ∈ List.replicate k dotDot ++ names → e ≠ [] ∧ Separator ∉ e := by
  intro e he
  rcases List.mem_append.1 he with h | h
  · rw [List.eq_of_mem_replicate h]
    exact ⟨by decide, by decide⟩
  · exact ⟨(hn e h).1, (hn e h).2.1⟩

/-- The result of `Clean` is in canonical form, rooted if the path is. -/
theorem filepath.Clean_shape (path : GoString) :
    ∃ (k : Nat) (names : List GoString),
      (∀ s, s ∈ names → validName s) ∧
        filepath.Clean path = canonPath (decide (path.head? = some Separator)) k names := by
  unfold filepath.Clean
  by_cases hp : path = []
  · exact ⟨0, [], fun s hs => absurd hs (List.not_mem_nil _), by simp [hp, canonPath]⟩
  · rw [if_neg hp]
    simp only
    generalize decide (path.head? = some Separator) = rooted
    obtain ⟨names, hout, hnames, hroot⟩ :=
      filepath.foldl_cleanStep_canon rooted (filepath.splitSep path) { out := [], dotdot := 0 }
        (filepath.splitSep_sep_free path)
        ⟨[], rfl, fun s hs => absurd hs (List.not_mem_nil _), fun _ => rfl⟩
    have hv : ∀ s, s ∈ names.reverse → validName s := fun s hs => hnames s (List.mem_reverse.1 hs)
    generalize (filepath.splitSep path).foldl (filepath.cleanStep rooted)
      { out := [], dotdot := 0 } = b at hout hroot ⊢
    have hrev : b.out.reverse = List.replicate b.dotdot dotDot ++ names.reverse := by
      rw [hout, List.reverse_append, List.reverse_replicate]
    cases rooted with
    | true =>
      refine ⟨0, names.reverse, hv, ?_⟩
      rw [hrev, hroot rfl]
      simp [canonPath]
    | false =>
      refine ⟨b.dotdot, names.reverse, hv, ?_⟩
      rw [hrev]
      simp only [Bool.false_eq_true, if_false, canonPath]
      by_cases hL : List.replicate b.dotdot dotDot ++ names.reverse = []
      · rw [if_pos hL, hL]
        rfl
      · rw [if_neg hL, if_neg]
        exact (getLast?_intercalate_sep _ hL (validName_dotDot_or _ _ hv)).1

theorem filepath.splitSep_of_sep_free :
    ∀ (s : GoString), Separator ∉ s → filepath.splitSep s = [s] := by
  intro s
  induction s with
  | nil => intro _; rfl
  | cons c s ih =>
    intro h
    have hc : c ≠ Separator := fun hc => h (hc ▸ List.mem_cons_self _ _)
    have hs : Separator ∉ s := fun hs => h (List.mem_cons_of_mem _ hs)
    unfold filepath.splitSep
    rw [if_neg hc, ih hs]

/-- The elements of separator-free elements joined by separators. -/
theorem filepath.splitSep_intercalate :
    ∀ (segs : List GoString), segs ≠ [] → (∀ s, s ∈ segs → Separator ∉ s) →
      filepath.splitSep ([Separator].intercalate segs) = segs := by
  intro segs
  induction segs with
  | nil => intro h; exact absurd rfl h
  | cons s segs ih =>
    intro _ hall
    by_cases hs : segs = []
    · subst hs
      have : [Separator].intercalate [s] = s := by simp [List.intercalate]
      rw [this]
      exact filepath.splitSep_of_sep_free s (hall s (List.mem_cons_self _ _))
    · rw [intercalate_sep_cons s segs hs,
        filepath.splitSep_append_sep _ _ (hall s (List.mem_cons_self _ _)),
        ih hs (fun t ht => hall t (List.mem_cons_of_mem _ ht))]

theorem head?_intercalate_sep (s : GoString) (segs : List GoString) (hs : s ≠ [])
    (hsep : Separator ∉ s) :
    ([Separator].intercalate (s :: segs)).head? ≠ some Separator := by
  cases s with
  | nil => exact absurd rfl hs
  | cons c s =>
    have hc : c ≠ Separator := fun hc => hsep (hc ▸ List.mem_cons_self _ _)
    by_cases hsg : segs = []
    · subst hsg
      simp [List.intercalate, hc]
    · rw [intercalate_sep_cons _ segs hsg]
      simp [hc]

/-- The elements `..` at the beginning of a path that is not rooted are kept. -/
theorem filepath.foldl_cleanStep_dots :
    ∀ (k j : Nat),
      (List.replicate k dotDot).foldl (filepath.cleanStep false)
          { out := List.replicate j dotDot, dotdot := j } =
        { out := List.replicate (j + k) dotDot, dotdot := j + k } := by
  intro k
  induction k with
  | zero => intro j; rfl
  | succ k ih =>
    intro j
    rw [List.replicate_succ, List.foldl_cons]
    have hstep : filepath.cleanStep false { out := List.replicate j dotDot, dotdot := j } dotDot =
        { out := List.replicate (j + 1) dotDot, dotdot := j + 1 } := by
      unfold filepath.cleanStep
      simp [dotDot, List.replicate_succ]
    rw [hstep, ih (j + 1)]
    have hjk : j + 1 + k = j + (k + 1) := by omega
    rw [hjk]

/-- A path in canonical form is a fixed point of `Clean`. -/
theorem filepath.Clean_canonPath (rooted : Bool) (k : Nat) (names : List GoString)
    (hn : ∀ s, s ∈ names → validName s) :
    filepath.Clean (canonPath rooted k names) = canonPath rooted k names := by
  cases rooted with
  | true =>
    simp only [canonPath, if_true]
    unfold filepath.Clean
    rw [if_neg (List.cons_ne_nil _ _)]
    simp only [List.head?_cons, decide_True, if_true]
    rw [filepath.splitSep]
    simp only [if_true]
    by_cases hnames : names = []
    · subst hnames
      rfl
    · rw [filepath.splitSep_intercalate names hnames (fun s hs => (hn s hs).2.1)]
      rw [List.foldl_cons]
      have h0 : filepath.cleanStep true { out := [], dotdot := 0 } [] =
          { out := [], dotdot := 0 } := rfl
      rw [h0, filepath.foldl_cleanStep_names true names _ hn]
      simp
  | false =>
    simp only [canonPath, Bool.false_eq_true, if_false]
    by_cases hL : List.replicate k dotDot ++ names = []
    · rw [if_pos hL]
      rfl
    · rw [if_neg hL]
      have hall := validName_dotDot_or k names hn
      have hne := (getLast?_intercalate_sep _ hL hall).1
      have hhead : ([Separator].intercalate (List.replicate k dotDot ++ names)).head? ≠
          some Separator := by
        cases hLe : List.replicate k dotDot ++ names with
        | nil => exact absurd hLe hL
        | cons s segs =>
          have hs := hall s (by rw [hLe]; exact List.mem_cons_self _ _)
          exact head?_intercalate_sep s segs hs.1 hs.2
      unfold filepath.Clean
      rw [if_neg hne]
      simp only [hhead, decide_False, Bool.false_eq_true, if_false]
      rw [filepath.splitSep_intercalate _ hL (fun s hs => (hall s hs).2), List.foldl_append]
      have hd := filepath.foldl_cleanStep_dots k 0
      simp only [List.replicate_zero, Nat.zero_add] at hd
      rw [hd, filepath.foldl_cleanStep_names false names _ hn]
      simp only [List.reverse_append, List.reverse_reverse, List.reverse_replicate]
      rw [if_neg hne]

/-- Go `Clean` is idempotent. -/
theorem filepath.Clean_idem (path : GoString) :
    filepath.Clean (filepath.Clean path) = filepath.Clean path := by
  obtain ⟨k, names, hn, h⟩ := filepath.Clean_shape path
  rw [h]
  exact filepath.Clean_canonPath _ k names hn

/-! ## Identifiers are canonical -/

theorem CanonicalGraph_new : CanonicalGraph NewDependencyGraph := by
  refine ⟨?_, ?_, ?_, ?_⟩ <;> intros <;> simp_all [NewDependencyGraph, StrMap.keys, StrMap.get]

theorem mem_keys_Dependencies_AddDependency (g : DependencyGraph) (f t k : GoString)
    (h : k ∈ (AddDependency g f t).Dependencies.keys) :
    k ∈ g.Dependencies.keys ∨ k = filepath.Clean f := by
  unfold AddDependency at h
  simp only at h
  split at h
  · exact (StrMap.mem_keys_set _ _ _ _).1 h
  · exact Or.inl h

theorem mem_keys_Dependents_AddDependency (g : DependencyGraph) (f t k : GoString)
    (h : k ∈ (AddDependency g f t).Dependents.keys) :
    k ∈ g.Dependents.keys ∨ k = filepath.Clean t := by
  unfold AddDependency at h
  simp only at h
  split at h
  · exact (StrMap.mem_keys_set _ _ _ _).1 h
  · exact Or.inl h

theorem CanonicalGraph_AddDependency (g : DependencyGraph) (f t : GoString)
    (h : CanonicalGraph g) : CanonicalGraph (AddDependency g f t) := by
  obtain ⟨h1, h2, h3, h4⟩ := h
  refine ⟨?_, ?_, ?_, ?_⟩
  · intro k hk
    rcases mem_keys_Dependencies_AddDependency g f t k hk with hk | rfl
    · exact h1 k hk
    · exact filepath.Clean_idem f
  · intro k hk
    rcases mem_keys_Dependents_AddDependency g f t k hk with hk | rfl
    · exact h2 k hk
    · exact filepath.Clean_idem t
  · intro x d hd
    rcases (mem_Dependencies_AddDependency g f t x d).1 hd with hd | ⟨_, rfl⟩
    · exact h3 x d hd
    · exact filepath.Clean_idem t
  · intro x d hd
    rcases (mem_Dependents_AddDependency g f t d x).1 hd with hd | ⟨rfl, _⟩
    · exact h4 x d hd
    · exact filepath.Clean_idem f

theorem CanonicalGraph_foldl (calls : List (GoString × GoString)) :
    ∀ g : DependencyGraph, CanonicalGraph g →
      CanonicalGraph (calls.foldl (fun g c => AddDependency g c.1 c.2) g) := by
  induction calls with
  | nil => intro g h; exact h
  | cons c cs ih =>
    intro g h
    exact ih _ (CanonicalGraph_AddDependency g c.1 c.2 h)

theorem AddDependency_congr (g : DependencyGraph) (f f' t t' : GoString)
    (hf : filepath.Clean f = filepath.Clean f') (ht : filepath.Clean t = filepath.Clean t') :
    AddDependency g f t = AddDependency g f' t' := by
  unfold AddDependency
  simp only [hf, ht]

/-- C22: identifiers are canonicalized on entry. `filepath.Clean` is idempotent;
for all strings `from` and `to`, `AddDependency(from, to)` has the same effect as
`AddDependency(Clean(from), Clean(to))`, so spellings with the same canonical
form (`modules/common/`, `./modules/common`, `modules/x/../common`) denote one
vertex; every key and every element stored in `Dependencies` and `Dependents` of
a graph built by `AddDependency` calls is a fixed point of path cleaning; and
`GetAffectedModules(p) = GetAffectedModules(Clean(p))`. -/
theorem C22_canonical_on_entry :
    (∀ p : GoString, filepath.Clean (filepath.Clean p) = filepath.Clean p) ∧
    (∀ (g : DependencyGraph) (f t : GoString),
      AddDependency g f t = AddDependency g (filepath.Clean f) (filepath.Clean t)) ∧
    (∀ (g : DependencyGraph) (f f' t t' : GoString),
      filepath.Clean f = filepath.Clean f' → filepath.Clean t = filepath.Clean t' →
      AddDependency g f t = AddDependency g f' t') ∧
    (filepath.Clean "modules/common/".toList = "modules/common".toList ∧
      filepath.Clean "./modules/common".toList = "modules/common".toList ∧
      filepath.Clean "modules/x/../common".toList = "modules/common".toList) ∧
    (∀ calls : List (GoString × GoString),
      (∀ k, k ∈ (buildGraph calls).Dependencies.keys → filepath.Clean k = k) ∧
      (∀ k, k ∈ (buildGraph calls).Dependents.keys → filepath.Clean k = k) ∧
      (∀ x d, d ∈ (buildGraph calls).Dependencies.get x → filepath.Clean d = d) ∧
      (∀ x d, d ∈ (buildGraph calls).Dependents.get x → filepath.Clean d = d)) ∧
    (∀ (g : DependencyGraph) (f t : GoString), CanonicalGraph g →
      CanonicalGraph (AddDependency g f t)) ∧
    (∀ (g : DependencyGraph) (p : GoString),
      GetAffectedModules g p = GetAffectedModules g (filepath.Clean p)) := by
  refine ⟨filepath.Clean_idem, ?_, AddDependency_congr, by decide, ?_,
    CanonicalGraph_AddDependency, ?_⟩
  · intro g f t
    exact AddDependency_congr g f _ t _ (filepath.Clean_idem f).symm (filepath.Clean_idem t).symm
  · intro calls
    exact CanonicalGraph_foldl calls NewDependencyGraph CanonicalGraph_new
  · intro g p
    unfold GetAffectedModules
    simp only [filepath.Clean_idem]

/-- C22 at two spellings of one edge: `./app/` → `modules/x/../common` is the
edge `app` → `modules/common`. -/
theorem C22_canonical_on_entry_witness :
    filepath.Clean "./app/".toList = filepath.Clean "app".toList ∧
    filepath.Clean "modules/x/../common".toList = filepath.Clean "modules/common".toList ∧
    AddDependency scenarioGraph "./app/".toList "modules/x/../common".toList =
      AddDependency scenarioGraph "app".toList "modules/common".toList :=
  ⟨by decide, by decide,
    C22_canonical_on_entry.2.2.1 scenarioGraph "./app/".toList "app".toList
      "modules/x/../common".toList "modules/common".toList (by decide) (by decide)⟩

/-! ## Resolving a local reference -/

theorem ResolveModuleSource_remote (callerDir source : GoString)
    (h : isLocalPath source = false) : ResolveModuleSource callerDir source = .ok [] := by
  unfold ResolveModuleSource
  simp [h]

theorem ResolveModuleSource_local (callerDir source : GoString)
    (h : isLocalPath source = true) :
    ResolveModuleSource callerDir source =
      .ok (filepath.Clean (filepath.Join [callerDir, source])) := by
  unfold ResolveModuleSource
  simp [h]

theorem filepath.Join_pair (callerDir source : GoString) (h : callerDir ≠ []) :
    filepath.Join [callerDir, source] = filepath.Clean (callerDir ++ Separator :: source) := by
  cases callerDir with
  | nil => exact absurd rfl h
  | cons c cs => simp [filepath.Join, List.intercalate]

theorem filepath.Clean_Join_nil_left (source : GoString) :
    filepath.Clean (filepath.Join [[], source]) = filepath.Clean source := by
  cases source with
  | nil => rfl
  | cons c cs =>
    have : filepath.Join [[], c :: cs] = filepath.Clean (c :: cs) := by
      simp [filepath.Join, List.intercalate]
    rw [this, filepath.Clean_idem]

/-- C24: for every Local reference and every caller directory,
`ResolveModuleSource(callerDir, reference)` returns without error (the function
has no access to a filesystem) the cleaned join of the two, which is the
canonical form of `callerDir/reference` (of the reference alone if the caller
directory is empty). The result is a fixed point of path cleaning and the `.`
and `..` elements are collapsed: it is `/` followed by real names joined by
separators if the caller directory is absolute, and in general `..` elements
followed by real names, or `.`; a real name is not empty, not `.` and not `..`. -/
theorem C24_resolve_local (callerDir reference : GoString)
    (h : isLocalPath reference = true) :
    ResolveModuleSource callerDir reference =
      .ok (filepath.Clean (filepath.Join [callerDir, reference])) ∧
    (callerDir ≠ [] → ResolveModuleSource callerDir reference =
      .ok (filepath.Clean (callerDir ++ Separator :: reference))) ∧
    (callerDir = [] → ResolveModuleSource callerDir reference = .ok (filepath.Clean reference)) ∧
    (∃ r, ResolveModuleSource callerDir reference = .ok r ∧ filepath.Clean r = r ∧
      (∃ (rooted : Bool) (k : Nat) (names : List GoString),
        (∀ s, s ∈ names → validName s) ∧ r = canonPath rooted k names) ∧
      (filepath.IsAbs callerDir = true →
        ∃ names : List GoString, (∀ s, s ∈ names → validName s) ∧
          r = Separator :: [Separator].intercalate names)) := by
  have hr := ResolveModuleSource_local callerDir reference h
  refine ⟨hr, ?_, ?_, ?_⟩
  · intro hc
    rw [hr, filepath.Join_pair callerDir reference hc, filepath.Clean_idem]
  · intro hc
    rw [hr, hc, filepath.Clean_Join_nil_left]
  · refine ⟨_, hr, filepath.Clean_idem _, ?_, ?_⟩
    · obtain ⟨k, names, hn, hs⟩ := filepath.Clean_shape (filepath.Join [callerDir, reference])
      exact ⟨_, k, names, hn, hs⟩
    · intro habs
      cases callerDir with
      | nil => simp [filepath.IsAbs, strings.HasPrefix] at habs
      | cons c cs =>
        have hc : c = Separator := by
          have : Separator = c := by simpa [filepath.IsAbs, strings.HasPrefix] using habs
          exact this.symm
        subst hc
        rw [filepath.Join_pair _ reference (List.cons_ne_nil _ _), filepath.Clean_idem]
        obtain ⟨k, names, hn, hs⟩ :=
          filepath.Clean_shape (Separator :: cs ++ Separator :: reference)
        refine ⟨names, hn, ?_⟩
        rw [hs]
        simp [canonPath]

/-- C24 at the caller directory `/r/environments/dev/api` with the reference
`../../../modules/network`: it resolves to `/r/modules/network`. -/
theorem C24_resolve_local_witness :
    isLocalPath "../../../modules/network".toList = true ∧
    ResolveModuleSource "/r/environments/dev/api".toList "../../../modules/network".toList =
      .ok "/r/modules/network".toList ∧
    ResolveModuleSource "/r/environments/dev/api".toList "../../../modules/network".toList =
      .ok (filepath.Clean (filepath.Join
        ["/r/environments/dev/api".toList, "../../../modules/network".toList])) :=
  ⟨by decide, by decide,
    (C24_resolve_local "/r/environments/dev/api".toList "../../../modules/network".toList
      (by decide)).1⟩

/-! ## `AddDependency` is append-only and local -/

theorem prefix_get_Dependencies_AddDependency (g : DependencyGraph) (f t x : GoString) :
    g.Dependencies.get x <+: (AddDependency g f t).Dependencies.get x := by
  rw [get_Dependencies_AddDependency]
  split
  · exact List.prefix_append _ _
  · exact List.prefix_refl _

theorem prefix_get_Dependents_AddDependency (g : DependencyGraph) (f t x : GoString) :
    g.Dependents.get x <+: (AddDependency g f t).Dependents.get x := by
  rw [get_Dependents_AddDependency]
  split
  · exact List.prefix_append _ _
  · exact List.prefix_refl _

theorem prefix_get_foldl_AddDependency (calls : List (GoString × GoString)) :
    ∀ (g : DependencyGraph) (x : GoString),
      g.Dependencies.get x <+:
          (calls.foldl (fun g c => AddDependency g c.1 c.2) g).Dependencies.get x ∧
        g.Dependents.get x <+:
          (calls.foldl (fun g c => AddDependency g c.1 c.2) g).Dependents.get x := by
  induction calls with
  | nil => intro g x; exact ⟨List.prefix_refl _, List.prefix_refl _⟩
  | cons c cs ih =>
    intro g x
    obtain ⟨h1, h2⟩ := ih (AddDependency g c.1 c.2) x
    exact ⟨(prefix_get_Dependencies_AddDependency g c.1 c.2 x).trans h1,
      (prefix_get_Dependents_AddDependency g c.1 c.2 x).trans h2⟩

/-- C23: `AddDependency` is append-only and local. After `AddDependency(from, to)`
on any graph every slice of `Dependencies` and of `Dependents` has its previous
value as a prefix, also after any number of further calls; only
`Dependencies[from]` and `Dependents[to]` (at the canonical identifiers) can
differ from before, and each of them stays as it is when it holds the other
identifier already and otherwise grows by that one identifier, appended at the
end. -/
theorem C23_append_only_local (g : DependencyGraph) (f t : GoString) :
    (∀ x, g.Dependencies.get x <+: (AddDependency g f t).Dependencies.get x) ∧
    (∀ x, g.Dependents.get x <+: (AddDependency g f t).Dependents.get x) ∧
    (∀ x, x ≠ filepath.Clean f →
      (AddDependency g f t).Dependencies.get x = g.Dependencies.get x) ∧
    (∀ x, x ≠ filepath.Clean t →
      (AddDependency g f t).Dependents.get x = g.Dependents.get x) ∧
    (AddDependency g f t).Dependencies.get (filepath.Clean f) =
      (if filepath.Clean t ∈ g.Dependencies.get (filepath.Clean f)
        then g.Dependencies.get (filepath.Clean f)
        else g.Dependencies.get (filepath.Clean f) ++ [filepath.Clean t]) ∧
    (AddDependency g f t).Dependents.get (filepath.Clean t) =
      (if filepath.Clean f ∈ g.Dependents.get (filepath.Clean t)
        then g.Dependents.get (filepath.Clean t)
        else g.Dependents.get (filepath.Clean t) ++ [filepath.Clean f]) ∧
    (∀ (calls : List (GoString × GoString)) (x : GoString),
      g.Dependencies.get x <+:
          (calls.foldl (fun g c => AddDependency g c.1 c.2) g).Dependencies.get x ∧
        g.Dependents.get x <+:
          (calls.foldl (fun g c => AddDependency g c.1 c.2) g).Dependents.get x) := by
  refine ⟨prefix_get_Dependencies_AddDependency g f t, prefix_get_Dependents_AddDependency g f t,
    ?_, ?_, ?_, ?_, fun calls x => prefix_get_foldl_AddDependency calls g x⟩
  · intro x hx
    rw [get_Dependencies_AddDependency, if_neg]
    exact fun h => hx h.1.symm
  · intro x hx
    rw [get_Dependents_AddDependency, if_neg]
    exact fun h => hx h.1.symm
  · rw [get_Dependencies_AddDependency]
    by_cases h : filepath.Clean t ∈ g.Dependencies.get (filepath.Clean f)
    · rw [if_neg (fun h' => h'.2 h), if_pos h]
    · rw [if_pos ⟨rfl, h⟩, if_neg h]
  · rw [get_Dependents_AddDependency]
    by_cases h : filepath.Clean f ∈ g.Dependents.get (filepath.Clean t)
    · rw [if_neg (fun h' => h'.2 h), if_pos h]
    · rw [if_pos ⟨rfl, h⟩, if_neg h]

/-- C23 on the scenario graph: adding `x → common` leaves `Dependencies[auth]` as
it is and appends `x` to `Dependents[common]`. -/
theorem C23_append_only_local_witness :
    "auth".toList ≠ filepath.Clean "x".toList ∧
    (AddDependency scenarioGraph "x".toList "common".toList).Dependencies.get "auth".toList =
      scenarioGraph.Dependencies.get "auth".toList ∧
    (AddDependency scenarioGraph "x".toList "common".toList).Dependents.get "common".toList =
      scenarioGraph.Dependents.get "common".toList ++ ["x".toList] :=
  ⟨by decide,
    (C23_append_only_local scenarioGraph "x".toList "common".toList).2.2.1 "auth".toList
      (by decide),
    by decide⟩

/-! ## The affected set depends on the set of edges only -/

theorem mem_Dependents_foldl (calls : List (GoString × GoString)) :
    ∀ (g : DependencyGraph) (a b : GoString),
      a ∈ (calls.foldl (fun g c => AddDependency g c.1 c.2) g).Dependents.get b ↔
        a ∈ g.Dependents.get b ∨
          ∃ p, p ∈ calls ∧ a = filepath.Clean p.1 ∧ b = filepath.Clean p.2 := by
  induction calls with
  | nil => intro g a b; simp
  | cons c cs ih =>
    intro g a b
    rw [List.foldl_cons, ih, mem_Dependents_AddDependency]
    constructor
    · rintro ((h | h) | ⟨p, hp, h⟩)
      · exact Or.inl h
      · exact Or.inr ⟨c, List.mem_cons_self _ _, h⟩
      · exact Or.inr ⟨p, List.mem_cons_of_mem _ hp, h⟩
    · rintro (h | ⟨p, hp, h⟩)
      · exact Or.inl (Or.inl h)
      · rcases List.mem_cons.1 hp with rfl | hp
        · exact Or.inl (Or.inr h)
        · exact Or.inr ⟨p, hp, h⟩

/-- The reverse edges of a built graph are the canonical forms of the inserted
pairs. -/
theorem RevEdge_buildGraph (calls : List (GoString × GoString)) (b a : GoString) :
    RevEdge (buildGraph calls) b a ↔
      ∃ p, p ∈ calls ∧ a = filepath.Clean p.1 ∧ b = filepath.Clean p.2 := by
  unfold RevEdge buildGraph
  rw [mem_Dependents_foldl]
  simp [NewDependencyGraph, StrMap.get]

theorem RevReach_congr (g₁ g₂ : DependencyGraph)
    (h : ∀ a b, RevEdge g₁ a b ↔ RevEdge g₂ a b) (a b : GoString) :
    RevReach g₁ a b ↔ RevReach g₂ a b := by
  unfold RevReach
  constructor
  · exact Relation.ReflTransGen.mono (fun x y hxy => (h x y).1 hxy)
  · exact Relation.ReflTransGen.mono (fun x y hxy => (h x y).2 hxy)

/-- C25: the affected set depends only on the set of edges. For two sequences of
`AddDependency` calls that insert the same set of pairs, in any order and with
any repetitions (it is enough that the canonical forms of the pairs are the
same), and for every start identifier, `GetAffectedModules` on the two graphs
returns sequences with the same elements, each once: one is a permutation of
the other. -/
theorem C25_affected_set_of_edge_set :
    (∀ (calls₁ calls₂ : List (GoString × GoString)),
      (∀ p, p ∈ calls₁ ↔ p ∈ calls₂) →
      ∀ (v x : GoString), x ∈ GetAffectedModules (buildGraph calls₁) v ↔
        x ∈ GetAffectedModules (buildGraph calls₂) v) ∧
    (∀ (calls₁ calls₂ : List (GoString × GoString)),
      (∀ a b, (∃ p, p ∈ calls₁ ∧ a = filepath.Clean p.1 ∧ b = filepath.Clean p.2) ↔
        (∃ p, p ∈ calls₂ ∧ a = filepath.Clean p.1 ∧ b = filepath.Clean p.2)) →
      ∀ (v : GoString), (GetAffectedModules (buildGraph calls₁) v).Perm
        (GetAffectedModules (buildGraph calls₂) v)) := by
  have key : ∀ (calls₁ calls₂ : List (GoString × GoString)),
      (∀ a b, (∃ p, p ∈ calls₁ ∧ a = filepath.Clean p.1 ∧ b = filepath.Clean p.2) ↔
        (∃ p, p ∈ calls₂ ∧ a = filepath.Clean p.1 ∧ b = filepath.Clean p.2)) →
      ∀ (v x : GoString), x ∈ GetAffectedModules (buildGraph calls₁) v ↔
        x ∈ GetAffectedModules (buildGraph calls₂) v := by
    intro calls₁ calls₂ h v x
    rw [mem_GetAffectedModules, mem_GetAffectedModules]
    apply RevReach_congr
    intro a b
    rw [RevEdge_buildGraph, RevEdge_buildGraph]
    exact h b a
  constructor
  · intro calls₁ calls₂ h v x
    apply key
    intro a b
    constructor
    · rintro ⟨p, hp, hab⟩
      exact ⟨p, (h p).1 hp, hab⟩
    · rintro ⟨p, hp, hab⟩
      exact ⟨p, (h p).2 hp, hab⟩
  · intro calls₁ calls₂ h v
    exact (List.perm_ext_iff_of_nodup (nodup_GetAffectedModules _ _)
      (nodup_GetAffectedModules _ _)).2 (fun x => key calls₁ calls₂ h v x)

/-- C25 at two sequences of calls with the pairs `b → a`, `c → a`, `d → b`: in
another order and with a repetition the traversal from `a` meets the same
identifiers, in another order. -/
theorem C25_affected_set_of_edge_set_witness :
    GetAffectedModules (buildGraph [("b".toList, "a".toList), ("c".toList, "a".toList),
        ("d".toList, "b".toList)]) "a".toList =
      ["a".toList, "b".toList, "d".toList, "c".toList] ∧
    GetAffectedModules (buildGraph [("c".toList, "a".toList), ("d".toList, "b".toList),
        ("b".toList, "a".toList), ("c".toList, "a".toList)]) "a".toList =
      ["a".toList, "c".toList, "b".toList, "d".toList] ∧
    ("d".toList ∈ GetAffectedModules (buildGraph [("b".toList, "a".toList),
        ("c".toList, "a".toList), ("d".toList, "b".toList)]) "a".toList ↔
      "d".toList ∈ GetAffectedModules (buildGraph [("c".toList, "a".toList),
        ("d".toList, "b".toList), ("b".toList, "a".toList), ("c".toList, "a".toList)])
        "a".toList) :=
  ⟨by decide!, by decide!,
    C25_affected_set_of_edge_set.1
      [("b".toList, "a".toList), ("c".toList, "a".toList), ("d".toList, "b".toList)]
      [("c".toList, "a".toList), ("d".toList, "b".toList), ("b".toList, "a".toList),
        ("c".toList, "a".toList)]
      (fun p => by
        simp only [List.mem_cons, List.mem_singleton, List.not_mem_nil, or_false]
        tauto)
      "a".toList "d".toList⟩

/-! ## The empty result of `ResolveModuleSource` -/

/-- C26: `ResolveModuleSource` returns the empty string exactly for Remote
references. It never returns an error; for every caller directory and source
the result is `""` if and only if `isLocalPath(source)` is false, because the
cleaned join of a Local reference is never empty; hence in `Analyze` a Local
reference passes the test `resolvedPath == ""` and goes on to `filepath.Rel`
and the existence test, also the empty source and `.`, which resolve to the
caller directory. -/
theorem C26_empty_iff_remote :
    (∀ callerDir source : GoString, ∃ r, ResolveModuleSource callerDir source = .ok r) ∧
    (∀ callerDir source : GoString,
      ResolveModuleSource callerDir source = .ok [] ↔ isLocalPath source = false) ∧
    (∀ callerDir source : GoString, isLocalPath source = true →
      ResolveModuleSource callerDir source =
          .ok (filepath.Clean (filepath.Join [callerDir, source])) ∧
        filepath.Clean (filepath.Join [callerDir, source]) ≠ []) ∧
    (∀ (root path relPath source rel : GoString) (notExist : GoString → Bool)
        (g : DependencyGraph) (calls : List GoString),
      isLocalPath source = true →
      filepath.Rel root (filepath.Clean (filepath.Join [path, source])) = .ok rel →
      notExist (filepath.Clean (filepath.Join [path, source])) = false →
      processModuleCalls root path relPath notExist g (source :: calls) =
        processModuleCalls root path relPath notExist (AddDependency g relPath rel) calls) ∧
    isLocalPath [] = true ∧ isLocalPath ".".toList = true ∧
    ResolveModuleSource "/r/m".toList [] = .ok "/r/m".toList ∧
    ResolveModuleSource "/r/m".toList ".".toList = .ok "/r/m".toList ∧
    ResolveModuleSource [] [] = .ok ".".toList ∧
    processModuleCalls "/r".toList "/r/m".toList "m".toList (fun _ => false)
        NewDependencyGraph [[]] =
      AddDependency NewDependencyGraph "m".toList "m".toList := by
  refine ⟨?_, ?_, ?_, ?_, by decide, by decide, by decide, by decide, by decide, by decide!⟩
  · intro callerDir source
    cases h : isLocalPath source
    · exact ⟨_, ResolveModuleSource_remote callerDir source h⟩
    · exact ⟨_, ResolveModuleSource_local callerDir source h⟩
  · intro callerDir source
    constructor
    · intro h
      cases hl : isLocalPath source
      · rfl
      · rw [ResolveModuleSource_local callerDir source hl] at h
        exact absurd (Except.ok.inj h) (filepath.Clean_ne_nil _)
    · exact ResolveModuleSource_remote callerDir source
  · intro callerDir source h
    exact ⟨ResolveModuleSource_local callerDir source h, filepath.Clean_ne_nil _⟩
  · intro root path relPath source rel notExist g calls hl hr hn
    rw [processModuleCalls_cons_local root path relPath source notExist g calls hl, hr]
    simp [hn]

/-- C26 at the source `.` in the module directory `/r/m`: it is Local, resolves
to `/r/m`, and the loop of `Analyze` adds the edge `m → m` for it. -/
theorem C26_empty_iff_remote_witness :
    isLocalPath ".".toList = true ∧
    processModuleCalls "/r".toList "/r/m".toList "m".toList (fun _ => false)
        NewDependencyGraph [".".toList] =
      processModuleCalls "/r".toList "/r/m".toList "m".toList (fun _ => false)
        (AddDependency NewDependencyGraph "m".toList "m".toList) [] :=
  ⟨by decide,
    C26_empty_iff_remote.2.2.2.1 "/r".toList "/r/m".toList "m".toList ".".toList "m".toList
      (fun _ => false) NewDependencyGraph [] (by decide) (by decide!) rfl⟩


/-! ## `IsWithinDirectory` on the descendants of a directory -/

theorem pathBody_nil_or_sep (segs : List GoString) :
    pathBody segs = [] ∨ ∃ t, pathBody segs = Separator :: t := by
  cases segs with
  | nil => exact Or.inl rfl
  | cons s segs => exact Or.inr ⟨_, pathBody_cons s segs⟩

theorem takeWhile_name :
    ∀ (d rest : GoString), Separator ∉ d → (rest = [] ∨ ∃ t, rest = Separator :: t) →
      (d ++ rest).takeWhile (fun c => c != Separator) = d ∧
        (d ++ rest).dropWhile (fun c => c != Separator) = rest := by
  intro d
  induction d with
  | nil =>
    intro rest _ hr
    rcases hr with rfl | ⟨t, rfl⟩
    · exact ⟨rfl, rfl⟩
    · simp
  | cons c d ih =>
    intro rest hd hr
    have hc : c ≠ Separator := fun h => hd (h ▸ List.mem_cons_self _ _)
    obtain ⟨h1, h2⟩ := ih rest (fun h => hd (List.mem_cons_of_mem _ h)) hr
    simp only [List.cons_append, List.takeWhile_cons, List.dropWhile_cons, bne_iff_ne, ne_eq, hc,
      not_false_eq_true, decide_True, if_true]
    exact ⟨by rw [h1], h2⟩

/-- With the base used up, the loop of `Rel` stops at once: the next element of
the target, if there is one, is not the empty element. -/
theorem filepath.relLoop_base_done (ns : List GoString) (hns : ∀ s, s ∈ ns → validName s)
    (fuel : Nat) :
    filepath.relLoop (fuel + 1) [] (pathBody ns).tail =
      some { elem := [], base := [], targ := (pathBody ns).tail } := by
  cases ns with
  | nil =>
    have hb : (pathBody []).tail = [] := rfl
    rw [hb, filepath.relLoop]
    rfl
  | cons n ns =>
    have hn := hns n (List.mem_cons_self _ _)
    have ht : (pathBody (n :: ns)).tail = n ++ pathBody ns := by
      rw [pathBody_cons]
      rfl
    obtain ⟨h1, _⟩ := takeWhile_name n (pathBody ns) hn.2.1 (pathBody_nil_or_sep _)
    have hne : (n ++ pathBody ns).isEmpty = false := by
      cases n with
      | nil => exact absurd rfl hn.1
      | cons c n => rfl
    rw [ht, filepath.relLoop]
    simp only [hne, Bool.and_false, Bool.false_eq_true, if_false, h1, List.takeWhile_nil, ne_eq,
      hn.1, not_false_eq_true, if_true]

/-- The loop of `Rel` steps over the elements that the directory and its
descendant share and stops with the rest of the descendant. -/
theorem filepath.relLoop_shared (ns : List GoString) (hns : ∀ s, s ∈ ns → validName s) :
    ∀ (ds : List GoString), (∀ s, s ∈ ds → validName s) →
      ∀ (d : GoString), d ≠ [] → Separator ∉ d → ∀ (fuel : Nat), ds.length + 2 ≤ fuel →
        filepath.relLoop fuel (d ++ pathBody ds) (d ++ pathBody (ds ++ ns)) =
          some { elem := [], base := [], targ := (pathBody ns).tail } := by
  intro ds
  induction ds with
  | nil =>
    intro _ d hd hsep fuel hfuel
    obtain ⟨f, rfl⟩ : ∃ f, fuel = f + 2 := ⟨fuel - 2, by simp at hfuel; omega⟩
    obtain ⟨h1, h2⟩ := takeWhile_name d (pathBody []) hsep (pathBody_nil_or_sep _)
    obtain ⟨h3, h4⟩ := takeWhile_name d (pathBody ns) hsep (pathBody_nil_or_sep _)
    have hne : (d ++ pathBody []).isEmpty = false := by
      cases d with
      | nil => exact absurd rfl hd
      | cons c d => rfl
    have hne' : (d ++ pathBody ns).isEmpty = false := by
      cases d with
      | nil => exact absurd rfl hd
      | cons c d => rfl
    rw [List.nil_append, filepath.relLoop]
    simp only [hne, hne', Bool.and_self, Bool.false_eq_true, if_false, h1, h2, h3, h4, ne_eq,
      not_true_eq_false]
    have hb : (pathBody []).tail = [] := rfl
    rw [hb]
    exact filepath.relLoop_base_done ns hns f
  | cons d' ds ih =>
    intro hv d hd hsep fuel hfuel
    obtain ⟨f, rfl⟩ : ∃ f, fuel = f + 1 := ⟨fuel - 1, by simp at hfuel; omega⟩
    obtain ⟨h1, h2⟩ := takeWhile_name d (pathBody (d' :: ds)) hsep (pathBody_nil_or_sep _)
    obtain ⟨h3, h4⟩ := takeWhile_name d (pathBody (d' :: ds ++ ns)) hsep (pathBody_nil_or_sep _)
    have hne : (d ++ pathBody (d' :: ds)).isEmpty = false := by
      cases d with
      | nil => exact absurd rfl hd
      | cons c d => rfl
    have hne' : (d ++ pathBody (d' :: ds ++ ns)).isEmpty = false := by
      cases d with
      | nil => exact absurd rfl hd
      | cons c d => rfl
    rw [filepath.relLoop]
    simp only [hne, hne', Bool.and_self, Bool.false_eq_true, if_false, h1, h2, h3, h4, ne_eq,
      not_true_eq_false]
    have hd' := hv d' (List.mem_cons_self _ _)
    have := ih (fun s hs => hv s (List.mem_cons_of_mem _ hs)) d' hd'.1 hd'.2.1 f
      (by simp at hfuel ⊢; omega)
    simpa [pathBody_cons] using this

theorem absPath_eq_canonPath (segs : List GoString) : absPath segs = canonPath true 0 segs := by
  unfold absPath canonPath
  by_cases h : segs = []
  · subst h
    rfl
  · rw [if_neg h, if_pos rfl, sep_cons_intercalate segs h]

/-- An absolute path of real names is clean. -/
theorem filepath.Clean_absPath (segs : List GoString) (h : ∀ s, s ∈ segs → validName s) :
    filepath.Clean (absPath segs) = absPath segs := by
  rw [absPath_eq_canonPath]
  exact filepath.Clean_canonPath true 0 segs h

/-- The path of a descendant relative to the directory: the names below the
directory. -/
theorem filepath.Rel_descendant (ds ns : List GoString) (n : GoString)
    (hds : ∀ s, s ∈ ds → validName s) (hns : ∀ s, s ∈ n :: ns → validName s) :
    filepath.Rel (absPath ds) (absPath (ds ++ n :: ns)) = .ok (n ++ pathBody ns) := by
  have hall : ∀ s, s ∈ ds ++ n :: ns → validName s := by
    intro s hs
    rcases List.mem_append.1 hs with h | h
    · exact hds s h
    · exact hns s h
  have hn := hns n (List.mem_cons_self _ _)
  have hne : ds ++ n :: ns ≠ [] := by simp
  have htarg : absPath (ds ++ n :: ns) = pathBody (ds ++ n :: ns) := by
    unfold absPath
    rw [if_neg hne]
  have hlen : (absPath ds).length < (absPath (ds ++ n :: ns)).length := by
    have h1 := length_absPath_snoc ds n hn.1
    have h2 := length_absPath_below (ds ++ [n]) ns.reverse
      (fun s hs => hns s (List.mem_cons_of_mem _ (List.mem_reverse.1 hs)))
    rw [List.reverse_reverse, List.append_assoc] at h2
    exact Nat.lt_of_lt_of_le h1 h2
  have hneq : absPath (ds ++ n :: ns) ≠ absPath ds := by
    intro h
    rw [h] at hlen
    exact Nat.lt_irrefl _ hlen
  obtain ⟨tb, htb⟩ := absPath_head ds
  obtain ⟨tt, htt⟩ := absPath_head (ds ++ n :: ns)
  have hfuel : ds.length + 2 ≤ (absPath ds).length + (absPath (ds ++ n :: ns)).length := by
    have h1 : ds.length ≤ (absPath ds).length := by
      unfold absPath
      split
      · rename_i h
        rw [h]
        simp
      · exact length_le_pathBody ds
    have h2 : 0 < (absPath ds).length := by
      rw [htb]
      simp
    omega
  have hloop : filepath.relLoop ((absPath ds).length + (absPath (ds ++ n :: ns)).length + 1)
      (absPath ds) (absPath (ds ++ n :: ns)) =
      some { elem := [], base := [], targ := n ++ pathBody ns } := by
    obtain ⟨f, hf⟩ : ∃ f, (absPath ds).length + (absPath (ds ++ n :: ns)).length =
        f + ds.length + 2 := ⟨(absPath ds).length + (absPath (ds ++ n :: ns)).length -
          (ds.length + 2), by omega⟩
    rw [hf]
    have htl : (pathBody (n :: ns)).tail = n ++ pathBody ns := by
      rw [pathBody_cons]
      rfl
    cases ds with
    | nil =>
      rw [htarg]
      simp only [absPath, if_true, List.nil_append, pathBody_cons, List.length_nil, Nat.add_zero]
      rw [filepath.relLoop]
      simp only [List.isEmpty_cons, Bool.and_self, Bool.false_eq_true, if_false,
        List.takeWhile_cons, bne_self_eq_false, ne_eq, not_true_eq_false, List.dropWhile_cons,
        List.tail_cons]
      have := filepath.relLoop_base_done (n :: ns) hns (f + 1)
      rw [htl] at this
      exact this
    | cons d ds' =>
      have hd := hds d (List.mem_cons_self _ _)
      have hb : absPath (d :: ds') = Separator :: (d ++ pathBody ds') := by
        unfold absPath
        rw [if_neg (List.cons_ne_nil _ _), pathBody_cons]
      have ht : absPath (d :: ds' ++ n :: ns) = Separator :: (d ++ pathBody (ds' ++ n :: ns)) := by
        rw [htarg, List.cons_append, pathBody_cons]
      rw [hb, ht, filepath.relLoop]
      simp only [List.isEmpty_cons, Bool.and_self, Bool.false_eq_true, if_false,
        List.takeWhile_cons, bne_self_eq_false, ne_eq, not_true_eq_false, List.dropWhile_cons,
        List.tail_cons]
      have hshared := filepath.relLoop_shared (n :: ns) hns ds'
        (fun s hs => hds s (List.mem_cons_of_mem _ hs)) d hd.1 hd.2.1
        (f + (d :: ds').length + 2)
        (by simp only [List.length_cons]; omega)
      rw [htl] at hshared
      exact hshared
  unfold filepath.Rel
  simp only [filepath.Clean_absPath ds hds, filepath.Clean_absPath _ hall, hneq, if_false]
  have hdot : absPath ds ≠ ['.'] := by
    rw [htb]
    intro h
    cases h
  rw [if_neg hdot, hloop]
  simp [htb, htt]

theorem HasPrefix_name_dots (n rest : GoString) (hn : validName n) :
    strings.HasPrefix (n ++ rest) ['.', '.'] = strings.HasPrefix n ['.', '.'] := by
  obtain ⟨h1, _, h3, _⟩ := hn
  cases n with
  | nil => exact absurd rfl h1
  | cons c1 n =>
    cases n with
    | nil =>
      have hc : c1 ≠ '.' := fun h => h3 (by rw [h])
      simp [strings.HasPrefix, List.isPrefixOf, Ne.symm hc]
    | cons c2 n => simp [strings.HasPrefix, List.isPrefixOf]

/-- On the directory itself `IsWithinDirectory` answers true, and on a
descendant it answers true unless the first name below the directory begins
with two dots. -/
theorem IsWithinDirectory_descendant (ds : List GoString)
    (hds : ∀ s, s ∈ ds → validName s) :
    IsWithinDirectory (absPath ds) (absPath ds) = true ∧
    ∀ (n : GoString) (ns : List GoString), (∀ s, s ∈ n :: ns → validName s) →
      IsWithinDirectory (absPath (ds ++ n :: ns)) (absPath ds) =
        !strings.HasPrefix n ['.', '.'] := by
  constructor
  · unfold IsWithinDirectory filepath.Rel
    simp [filepath.Clean_idem, strings.HasPrefix]
  · intro n ns hns
    have hall : ∀ s, s ∈ ds ++ n :: ns → validName s := by
      intro s hs
      rcases List.mem_append.1 hs with h | h
      · exact hds s h
      · exact hns s h
    unfold IsWithinDirectory
    simp only [filepath.Clean_absPath ds hds, filepath.Clean_absPath _ hall,
      filepath.Rel_descendant ds ns n hds hns]
    rw [HasPrefix_name_dots n _ (hns n (List.mem_cons_self _ _))]

/-! ## `IsWithinDirectory` outside the directory -/

/-- The loop of `Rel` steps over the elements that two paths share. -/
theorem filepath.relLoop_common (bs ts : List GoString) :
    ∀ (cs : List GoString), (∀ s, s ∈ cs → validName s) →
      ∀ (d : GoString), d ≠ [] → Separator ∉ d → ∀ (fuel : Nat),
        filepath.relLoop (fuel + cs.length + 1) (d ++ pathBody (cs ++ bs))
            (d ++ pathBody (cs ++ ts)) =
          filepath.relLoop fuel (pathBody bs).tail (pathBody ts).tail := by
  intro cs
  induction cs with
  | nil =>
    intro _ d hd hsep fuel
    obtain ⟨h1, h2⟩ := takeWhile_name d (pathBody bs) hsep (pathBody_nil_or_sep _)
    obtain ⟨h3, h4⟩ := takeWhile_name d (pathBody ts) hsep (pathBody_nil_or_sep _)
    have hne : (d ++ pathBody bs).isEmpty = false := by
      cases d with
      | nil => exact absurd rfl hd
      | cons c d => rfl
    have hne' : (d ++ pathBody ts).isEmpty = false := by
      cases d with
      | nil => exact absurd rfl hd
      | cons c d => rfl
    rw [List.nil_append, List.nil_append, List.length_nil, Nat.add_zero, filepath.relLoop]
    simp only [hne, hne', Bool.and_self, Bool.false_eq_true, if_false, h1, h2, h3, h4, ne_eq,
      not_true_eq_false]
  | cons c cs ih =>
    intro hv d hd hsep fuel
    obtain ⟨h1, h2⟩ := takeWhile_name d (pathBody (c :: cs ++ bs)) hsep (pathBody_nil_or_sep _)
    obtain ⟨h3, h4⟩ := takeWhile_name d (pathBody (c :: cs ++ ts)) hsep (pathBody_nil_or_sep _)
    have hne : (d ++ pathBody (c :: cs ++ bs)).isEmpty = false := by
      cases d with
      | nil => exact absurd rfl hd
      | cons c d => rfl
    have hne' : (d ++ pathBody (c :: cs ++ ts)).isEmpty = false := by
      cases d with
      | nil => exact absurd rfl hd
      | cons c d => rfl
    have hfuel : fuel + (c :: cs).length + 1 = (fuel + cs.length + 1) + 1 := by
      simp only [List.length_cons]
      omega
    rw [hfuel, filepath.relLoop]
    simp only [hne, hne', Bool.and_self, Bool.false_eq_true, if_false, h1, h2, h3, h4, ne_eq,
      not_true_eq_false]
    have hc := hv c (List.mem_cons_self _ _)
    have := ih (fun s hs => hv s (List.mem_cons_of_mem _ hs)) c hc.1 hc.2.1 fuel
    simpa [pathBody_cons] using this

/-- Where the directory has a name that the path does not have at this place,
the loop of `Rel` stops with a part of the directory left, at that name. -/
theorem filepath.relLoop_diverge (b : GoString) (bs ts : List GoString) (hb : validName b)
    (hts : ∀ s, s ∈ ts → validName s) (hdiff : ∀ t ts', ts = t :: ts' → t ≠ b) (fuel : Nat) :
    ∃ st, filepath.relLoop (fuel + 1) (pathBody (b :: bs)).tail (pathBody ts).tail = some st ∧
      st.base ≠ [] ∧ st.elem ≠ ['.', '.'] := by
  have hbase : (pathBody (b :: bs)).tail = b ++ pathBody bs := by
    rw [pathBody_cons]
    rfl
  have hne : (b ++ pathBody bs).isEmpty = false := by
    cases b with
    | nil => exact absurd rfl hb.1
    | cons c b => rfl
  have hbne : b ++ pathBody bs ≠ [] := by
    intro h
    rw [h] at hne
    simp at hne
  obtain ⟨h1, _⟩ := takeWhile_name b (pathBody bs) hb.2.1 (pathBody_nil_or_sep _)
  rw [hbase, filepath.relLoop]
  cases ts with
  | nil =>
    refine ⟨{ elem := b, base := b ++ pathBody bs, targ := [] }, ?_, hbne, hb.2.2.2⟩
    have ht : (pathBody []).tail = [] := rfl
    rw [ht]
    simp only [hne, Bool.false_and, Bool.false_eq_true, if_false, h1, List.takeWhile_nil, ne_eq,
      Ne.symm hb.1, not_false_eq_true, if_true]
  | cons t ts' =>
    have ht := hts t (List.mem_cons_self _ _)
    have htarg : (pathBody (t :: ts')).tail = t ++ pathBody ts' := by
      rw [pathBody_cons]
      rfl
    have hne' : (t ++ pathBody ts').isEmpty = false := by
      cases t with
      | nil => exact absurd rfl ht.1
      | cons c t => rfl
    obtain ⟨h3, _⟩ := takeWhile_name t (pathBody ts') ht.2.1 (pathBody_nil_or_sep _)
    refine ⟨{ elem := b, base := b ++ pathBody bs, targ := t ++ pathBody ts' }, ?_, hbne,
      hb.2.2.2⟩
    rw [htarg]
    simp only [hne, hne', Bool.and_self, Bool.false_eq_true, if_false, h1, h3, ne_eq,
      hdiff t ts' rfl, not_false_eq_true, if_true]

theorem filepath.splitSep_absPath (segs : List GoString) (h : ∀ s, s ∈ segs → validName s) :
    filepath.splitSep (absPath segs) = [] :: (if segs = [] then [[]] else segs) := by
  rw [absPath_eq_canonPath]
  simp only [canonPath, if_true]
  rw [filepath.splitSep]
  simp only [if_true]
  by_cases hs : segs = []
  · subst hs
    rfl
  · rw [if_neg hs, filepath.splitSep_intercalate segs hs (fun s hs' => (h s hs').2.1)]

/-- Absolute paths of real names are equal only if the names are. -/
theorem absPath_injective (xs ys : List GoString) (hx : ∀ s, s ∈ xs → validName s)
    (hy : ∀ s, s ∈ ys → validName s) (h : absPath xs = absPath ys) : xs = ys := by
  have h1 := filepath.splitSep_absPath xs hx
  have h2 := filepath.splitSep_absPath ys hy
  rw [h, h2] at h1
  have h3 := (List.cons.inj h1).2
  by_cases hxs : xs = [] <;> by_cases hys : ys = []
  · rw [hxs, hys]
  · rw [if_neg hys, if_pos hxs] at h3
    rw [h3] at hy
    exact absurd rfl (hy [] (List.mem_singleton_self _)).1
  · rw [if_pos hys, if_neg hxs] at h3
    rw [← h3] at hx
    exact absurd rfl (hx [] (List.mem_singleton_self _)).1
  · rw [if_neg hys, if_neg hxs] at h3
    exact h3.symm

theorem absPath_eq_sep_tail (segs : List GoString) :
    absPath segs = Separator :: (pathBody segs).tail := by
  unfold absPath
  cases segs with
  | nil => rfl
  | cons s segs => simp [pathBody_cons]

theorem HasPrefix_ups (seps : Nat) (rest : GoString) :
    strings.HasPrefix
      (['.', '.'] ++ (List.replicate seps [Separator, '.', '.']).flatten ++ rest)
      ['.', '.'] = true := by
  simp [strings.HasPrefix, List.isPrefixOf]

/-- A path that leaves the directory is not within it: where the directory has a
name that the path does not have at this place, `IsWithinDirectory` answers
false. -/
theorem IsWithinDirectory_outside (cs bs ts : List GoString) (b : GoString)
    (hcs : ∀ s, s ∈ cs → validName s) (hbs : ∀ s, s ∈ b :: bs → validName s)
    (hts : ∀ s, s ∈ ts → validName s) (hdiff : ∀ t ts', ts = t :: ts' → t ≠ b) :
    IsWithinDirectory (absPath (cs ++ ts)) (absPath (cs ++ b :: bs)) = false := by
  have hb := hbs b (List.mem_cons_self _ _)
  have hallb : ∀ s, s ∈ cs ++ b :: bs → validName s := by
    intro s hs
    rcases List.mem_append.1 hs with h | h
    · exact hcs s h
    · exact hbs s h
  have hallt : ∀ s, s ∈ cs ++ ts → validName s := by
    intro s hs
    rcases List.mem_append.1 hs with h | h
    · exact hcs s h
    · exact hts s h
  have hneq : absPath (cs ++ ts) ≠ absPath (cs ++ b :: bs) := by
    intro h
    have h1 := List.append_cancel_left (absPath_injective _ _ hallt hallb h)
    exact hdiff b bs h1 rfl
  have hlen : cs.length + 2 ≤ (pathBody (cs ++ b :: bs)).tail.length + 1 := by
    have h1 := length_le_pathBody (cs ++ bs)
    have h2 : (pathBody (cs ++ b :: bs)).length =
        (pathBody (cs ++ bs)).length + (b.length + 1) := by
      simp only [pathBody_append, pathBody_cons, List.length_append, List.length_cons]
      omega
    have h3 : 0 < b.length := List.length_pos.2 hb.1
    simp only [List.length_tail, List.length_append] at h1 ⊢
    omega
  obtain ⟨st, hst, hbase, helem⟩ : ∃ st,
      filepath.relLoop ((absPath (cs ++ b :: bs)).length + (absPath (cs ++ ts)).length + 1)
        (absPath (cs ++ b :: bs)) (absPath (cs ++ ts)) = some st ∧
        st.base ≠ [] ∧ st.elem ≠ ['.', '.'] := by
    rw [absPath_eq_sep_tail (cs ++ b :: bs), absPath_eq_sep_tail (cs ++ ts), filepath.relLoop]
    simp only [List.isEmpty_cons, Bool.and_self, Bool.false_eq_true, if_false, List.takeWhile_cons,
      bne_self_eq_false, ne_eq, not_true_eq_false, List.dropWhile_cons, List.tail_cons,
      List.length_cons]
    cases cs with
    | nil =>
      obtain ⟨f, hf⟩ : ∃ f, (pathBody ([] ++ b :: bs)).tail.length + 1 +
          ((pathBody ([] ++ ts)).tail.length + 1) = f + 1 := ⟨_, rfl⟩
      rw [hf]
      exact filepath.relLoop_diverge b bs ts hb hts hdiff f
    | cons c cs' =>
      have hc := hcs c (List.mem_cons_self _ _)
      obtain ⟨f, hf⟩ : ∃ f, (pathBody (c :: cs' ++ b :: bs)).tail.length + 1 +
          ((pathBody (c :: cs' ++ ts)).tail.length + 1) = (f + 1) + cs'.length + 1 := by
        refine ⟨(pathBody (c :: cs' ++ b :: bs)).tail.length + 1 +
          ((pathBody (c :: cs' ++ ts)).tail.length + 1) - (cs'.length + 2), ?_⟩
        simp only [List.length_cons] at hlen
        omega
      rw [hf]
      have h1 : (pathBody (c :: cs' ++ b :: bs)).tail = c ++ pathBody (cs' ++ b :: bs) := by
        rw [List.cons_append, pathBody_cons]
        rfl
      have h2 : (pathBody (c :: cs' ++ ts)).tail = c ++ pathBody (cs' ++ ts) := by
        rw [List.cons_append, pathBody_cons]
        rfl
      rw [h1, h2, filepath.relLoop_common (b :: bs) ts cs'
        (fun s hs => hcs s (List.mem_cons_of_mem _ hs)) c hc.1 hc.2.1 (f + 1)]
      exact filepath.relLoop_diverge b bs ts hb hts hdiff f
  obtain ⟨tb, htb⟩ := absPath_head (cs ++ b :: bs)
  obtain ⟨tt, htt⟩ := absPath_head (cs ++ ts)
  have hdot : absPath (cs ++ b :: bs) ≠ ['.'] := by
    rw [htb]
    intro h
    cases h
  unfold IsWithinDirectory filepath.Rel
  simp only [filepath.Clean_absPath _ hallb, filepath.Clean_absPath _ hallt, hneq, if_false,
    hdot, hst, helem]
  have hslash : (decide ((absPath (cs ++ b :: bs)).head? = some Separator) !=
      decide ((absPath (cs ++ ts)).head? = some Separator)) = false := by
    rw [htb, htt]
    rfl
  simp only [hslash, Bool.false_eq_true, if_false, ne_eq, hbase, not_false_eq_true, if_true]
  by_cases ht : st.targ = []
  · have := HasPrefix_ups (strings.Count st.base Separator) []
    rw [List.append_nil] at this
    simp only [ht, not_true_eq_false, if_false, this, Bool.not_true]
  · have := HasPrefix_ups (strings.Count st.base Separator) (Separator :: st.targ)
    simp only [ht, not_false_eq_true, if_true, this, Bool.not_true]

theorem common_prefix_split :
    ∀ (ds ps : List GoString), ∃ cs bs ts, ds = cs ++ bs ∧ ps = cs ++ ts ∧
      (bs = [] ∨ ∃ b bs', bs = b :: bs' ∧ ∀ t ts', ts = t :: ts' → t ≠ b) := by
  intro ds
  induction ds with
  | nil => intro ps; exact ⟨[], [], ps, rfl, rfl, Or.inl rfl⟩
  | cons d ds ih =>
    intro ps
    cases ps with
    | nil =>
      exact ⟨[], d :: ds, [], rfl, rfl, Or.inr ⟨d, ds, rfl, fun t ts' h => by cases h⟩⟩
    | cons p ps =>
      by_cases hpd : p = d
      · obtain ⟨cs, bs, ts, h1, h2, h3⟩ := ih ps
        exact ⟨d :: cs, bs, ts, by rw [h1]; rfl, by rw [h2, hpd]; rfl, h3⟩
      · refine ⟨[], d :: ds, p :: ps, rfl, rfl, Or.inr ⟨d, ds, rfl, ?_⟩⟩
        intro t ts' h
        rw [(List.cons.inj h).1] at hpd
        exact hpd

/-- What `IsWithinDirectory` computes on absolute paths of real names: the path
is the directory or a descendant of it, and the first name below the directory,
if there is one, does not begin with two dots. -/
theorem IsWithinDirectory_iff (ds ps : List GoString) (hds : ∀ s, s ∈ ds → validName s)
    (hps : ∀ s, s ∈ ps → validName s) :
    IsWithinDirectory (absPath ps) (absPath ds) = true ↔
      ∃ ns, ps = ds ++ ns ∧ ∀ n, ns.head? = some n → strings.HasPrefix n ['.', '.'] = false := by
  obtain ⟨cs, bs, ts, h1, h2, h3⟩ := common_prefix_split ds ps
  subst h1 h2
  rcases h3 with rfl | ⟨b, bs', rfl, hdiff⟩
  · rw [List.append_nil] at hds ⊢
    cases ts with
    | nil =>
      rw [List.append_nil, (IsWithinDirectory_descendant cs hds).1]
      simp only [true_iff]
      exact ⟨[], (List.append_nil _).symm, fun n hn => by simp at hn⟩
    | cons n ns =>
      rw [(IsWithinDirectory_descendant cs hds).2 n ns
        (fun s hs => hps s (List.mem_append_right _ hs))]
      constructor
      · intro h
        refine ⟨n :: ns, rfl, ?_⟩
        intro n' hn'
        simp only [List.head?_cons, Option.some.injEq] at hn'
        subst hn'
        simpa using h
      · rintro ⟨ns', hns', hh⟩
        have := List.append_cancel_left hns'
        subst this
        simp [hh n rfl]
  · rw [IsWithinDirectory_outside cs bs' ts b (fun s hs => hds s (List.mem_append_left _ hs))
      (fun s hs => hds s (List.mem_append_right _ hs))
      (fun s hs => hps s (List.mem_append_right _ hs)) hdiff]
    simp only [Bool.false_eq_true, false_iff, not_exists, not_and]
    intro ns hns
    rw [List.append_assoc] at hns
    have := List.append_cancel_left hns
    exact absurd rfl (hdiff b (bs' ++ ns) this)

/-- The cleaned form of an absolute path is `/` followed by real names. -/
theorem filepath.Clean_abs (path : GoString) (h : filepath.IsAbs path = true) :
    ∃ names : List GoString, (∀ s, s ∈ names → validName s) ∧
      filepath.Clean path = absPath names := by
  obtain ⟨k, names, hn, hs⟩ := filepath.Clean_shape path
  refine ⟨names, hn, ?_⟩
  have hhead : path.head? = some Separator := by
    cases path with
    | nil => simp [filepath.IsAbs, strings.HasPrefix] at h
    | cons c cs =>
      have : Separator = c := by simpa [filepath.IsAbs, strings.HasPrefix] using h
      rw [← this]
      rfl
  rw [hs, absPath_eq_canonPath, hhead]
  simp [canonPath]

theorem IsWithinDirectory_clean (path dir : GoString) :
    IsWithinDirectory path dir =
      IsWithinDirectory (filepath.Clean path) (filepath.Clean dir) := by
  unfold IsWithinDirectory
  simp only [filepath.Clean_idem]

/-- What `IsWithinDirectory` computes on absolute paths: with the names of the
cleaned path and of the cleaned directory, the answer is true if and only if
the names of the directory are the first names of the path and the name that
follows them, if there is one, does not begin with two dots. -/
theorem IsWithinDirectory_abs (path dir : GoString) (hp : filepath.IsAbs path = true)
    (hd : filepath.IsAbs dir = true) :
    ∃ ps ds : List GoString, (∀ s, s ∈ ps → validName s) ∧ (∀ s, s ∈ ds → validName s) ∧
      filepath.Clean path = absPath ps ∧ filepath.Clean dir = absPath ds ∧
      (IsWithinDirectory path dir = true ↔
        ∃ ns, ps = ds ++ ns ∧
          ∀ n, ns.head? = some n → strings.HasPrefix n ['.', '.'] = false) := by
  obtain ⟨ps, hps, hcp⟩ := filepath.Clean_abs path hp
  obtain ⟨ds, hds, hcd⟩ := filepath.Clean_abs dir hd
  refine ⟨ps, ds, hps, hds, hcp, hcd, ?_⟩
  rw [IsWithinDirectory_clean, hcp, hcd]
  exact IsWithinDirectory_iff ds ps hds hps

/-! ## The failing input of `IsWithinDirectory` -/

/-- C27, the code at the failing input: the path `/a/..cache/x` is below the
directory `/a`, its cleaned form is the cleaned directory followed by
`/..cache/x`; `filepath.Rel` gives `..cache/x`, which passes the test
`strings.HasPrefix(rel, "..")`, and `IsWithinDirectory` answers false, as it does
for `/b`, which is outside; for the descendant `/a/b/x` and for `/a` itself it
answers true. -/
theorem C27_dotdot_name_rejected :
    filepath.Clean "/a/..cache/x".toList = filepath.Clean "/a".toList ++ "/..cache/x".toList ∧
    filepath.Rel "/a".toList "/a/..cache/x".toList = .ok "..cache/x".toList ∧
    strings.HasPrefix "..cache/x".toList "..".toList = true ∧
    IsWithinDirectory "/a/..cache/x".toList "/a".toList = false ∧
    IsWithinDirectory "/a/..x".toList "/a".toList = false ∧
    IsWithinDirectory "/b".toList "/a".toList = false ∧
    IsWithinDirectory "/a/b/x".toList "/a".toList = true ∧
    IsWithinDirectory "/a".toList "/a".toList = true := by
  decide!

end Tarm
